import Mathlib

/-!
Verification of the hyperoptimized word-counting engine
(`src/wordcount_hyperopt.c`): tokenization, hashing, per-worker hash
tables, partitioning, merging and top-K selection.

Buffers are modelled as `List Nat` of byte values (each `< 256`); stored
words are lists of lowercased byte values.  Machine integers are modelled
as `Nat` with explicit `% 2^w` where overflow matters.
-/

set_option maxHeartbeats 1000000

theorem length_dropWhile_le {α : Type} (p : α → Bool) (l : List α) :
    (l.dropWhile p).length ≤ l.length :=
  (List.dropWhile_sublist p).length_le

/-- `MAX_WORD` from the source (line 133). -/
def MAX_WORD : Nat := 100

/-- `TOP_N` from the source (line 134). -/
def TOP_N : Nat := 100

/-- `is_ascii_letter` (lines 425-427): `(c>='a'&&c<='z')||(c>='A'&&c<='Z')`. -/
def is_ascii_letter (c : Nat) : Bool :=
  (decide (97 ≤ c) && decide (c ≤ 122)) || (decide (65 ≤ c) && decide (c ≤ 90))

/-- Lowercasing `c | 0x20` as applied to consumed letters (line 462). -/
def toLower (c : Nat) : Nat := c ||| 32

/-- The UTF-8 continuation-byte test `(b & 0xC0) == 0x80` (line 444). -/
def isContByte (c : Nat) : Bool := decide (c &&& 0xC0 = 0x80)

/--
The scalar tokenizer `process_chunk` (lines 429-497), modelled as the list
of words it hands to `table_insert_hashed`, in order.  State: `drop` is the
`drop_leading` flag, `w` the partially accumulated (lowercased, capped)
word buffer.  A byte `≥ 0x80` skips following continuation bytes and
terminates the current word; a letter is appended (lowercased) while the
buffer holds fewer than `MAX_WORD - 1` bytes; any other byte terminates
the current word.
-/
def scalarLoop (drop : Bool) (w : List Nat) : List Nat → List (List Nat)
  | [] => if w = [] then [] else [w]
  | c :: cs =>
    if drop && is_ascii_letter c then
      scalarLoop drop w cs
    else if 128 ≤ c then
      (if w = [] then
        scalarLoop false [] (cs.dropWhile isContByte)
      else
        w :: scalarLoop false [] (cs.dropWhile isContByte))
    else if is_ascii_letter c then
      scalarLoop false (if w.length < MAX_WORD - 1 then w ++ [toLower c] else w) cs
    else if w = [] then
      scalarLoop false [] cs
    else
      w :: scalarLoop false [] cs
termination_by l => l.length
decreasing_by
  all_goals simp only [List.length_cons]
  · omega
  · exact Nat.lt_succ_of_le (length_dropWhile_le _ _)
  · exact Nat.lt_succ_of_le (length_dropWhile_le _ _)
  · omega
  · omega
  · omega

/-- The scalar tokenizer `process_chunk`, as the word sequence it inserts. -/
def process_chunk (data : List Nat) (drop : Bool) : List (List Nat) :=
  scalarLoop drop [] data

/--
Structural variant of `scalarLoop` that processes the skipped UTF-8
continuation bytes one at a time instead of with the inner skip loop;
proved equal to `scalarLoop` below (the skipped bytes are all `≥ 0x80`
and hence separators either way).
-/
def simpleLoop (drop : Bool) (w : List Nat) : List Nat → List (List Nat)
  | [] => if w = [] then [] else [w]
  | c :: cs =>
    if drop && is_ascii_letter c then
      simpleLoop drop w cs
    else if 128 ≤ c then
      (if w = [] then simpleLoop false [] cs else w :: simpleLoop false [] cs)
    else if is_ascii_letter c then
      simpleLoop false (if w.length < MAX_WORD - 1 then w ++ [toLower c] else w) cs
    else if w = [] then
      simpleLoop false [] cs
    else
      w :: simpleLoop false [] cs

/-- Maximal runs of ASCII letters in a buffer. -/
def letterRuns : List Nat → List (List Nat)
  | [] => []
  | c :: cs =>
    if is_ascii_letter c then
      (c :: cs.takeWhile is_ascii_letter) :: letterRuns (cs.dropWhile is_ascii_letter)
    else
      letterRuns cs
termination_by l => l.length
decreasing_by
  all_goals simp only [List.length_cons]
  · exact Nat.lt_succ_of_le (length_dropWhile_le _ _)
  · omega

/-- The stored token a maximal letter run produces: its first
`MAX_WORD - 1` bytes, lowercased. -/
def tokenOfRun (r : List Nat) : List Nat :=
  (r.take (MAX_WORD - 1)).map toLower

/-- A continuation byte is `≥ 0x80` (bit 7 is set). -/
theorem isContByte_ge (c : Nat) (h : isContByte c = true) : 128 ≤ c := by
  simp only [isContByte, decide_eq_true_eq] at h
  by_contra hlt
  push_neg at hlt
  have hb : c.testBit 7 = false := Nat.testBit_lt_two_pow hlt
  have h7 : (c &&& 0xC0).testBit 7 = ((128 : Nat)).testBit 7 := by rw [h]
  rw [Nat.testBit_and, hb] at h7
  exact absurd h7.symm (by decide)

/-- A byte `≥ 0x80` is not an ASCII letter. -/
theorem not_letter_of_ge_128 {c : Nat} (h : 128 ≤ c) : is_ascii_letter c = false := by
  simp only [is_ascii_letter, Bool.or_eq_false_iff, Bool.and_eq_false_iff,
    decide_eq_false_iff_not]
  omega

/-- An ASCII letter is `< 128`. -/
theorem letter_lt_128 {c : Nat} (h : is_ascii_letter c = true) : ¬ 128 ≤ c := by
  simp only [is_ascii_letter, Bool.or_eq_true, Bool.and_eq_true, decide_eq_true_eq] at h
  omega

/-- Processing skipped continuation bytes one at a time is a no-op on an
empty word buffer. -/
theorem simpleLoop_dropCont (cs : List Nat) :
    simpleLoop false [] cs = simpleLoop false [] (cs.dropWhile isContByte) := by
  induction cs with
  | nil => rfl
  | cons b bs ih =>
    by_cases hb : isContByte b = true
    · have hge : 128 ≤ b := isContByte_ge b hb
      have hlet : is_ascii_letter b = false := not_letter_of_ge_128 hge
      rw [List.dropWhile_cons_of_pos hb, ← ih]
      simp [simpleLoop, hlet, hge]
    · rw [List.dropWhile_cons_of_neg (by simpa using hb)]

theorem scalarLoop_eq_simpleLoop (n : Nat) :
    ∀ (l : List Nat), l.length ≤ n → ∀ (drop : Bool) (w : List Nat),
      scalarLoop drop w l = simpleLoop drop w l := by
  induction n with
  | zero =>
    intro l hl drop w
    have : l = [] := List.eq_nil_of_length_eq_zero (Nat.le_zero.mp hl)
    subst this
    simp [scalarLoop, simpleLoop]
  | succ n ih =>
    intro l hl drop w
    match l with
    | [] => simp [scalarLoop, simpleLoop]
    | c :: cs =>
      have hcs : cs.length ≤ n := by
        simpa [Nat.succ_le_succ_iff] using hl
      have hdw : (cs.dropWhile isContByte).length ≤ n :=
        le_trans (length_dropWhile_le _ _) hcs
      simp only [scalarLoop, simpleLoop]
      split_ifs <;>
        first
          | exact ih cs hcs _ _
          | rw [ih _ hdw, ← simpleLoop_dropCont]
          | rw [ih cs hcs false []]

/-- `process_chunk` with the inner continuation skip equals the
byte-at-a-time variant. -/
theorem scalar_eq_simple (data : List Nat) (drop : Bool) (w : List Nat) :
    scalarLoop drop w data = simpleLoop drop w data :=
  scalarLoop_eq_simpleLoop data.length data le_rfl drop w

theorem simpleLoop_runs_aux (n : Nat) :
    ∀ l : List Nat, l.length ≤ n →
      (simpleLoop false [] l = (letterRuns l).map tokenOfRun) ∧
      (∀ w : List Nat, w ≠ [] → w.length ≤ MAX_WORD - 1 →
        simpleLoop false w l =
          (w ++ ((l.takeWhile is_ascii_letter).take (MAX_WORD - 1 - w.length)).map toLower)
            :: (letterRuns (l.dropWhile is_ascii_letter)).map tokenOfRun) := by
  induction n with
  | zero =>
    intro l hl
    have : l = [] := List.eq_nil_of_length_eq_zero (Nat.le_zero.mp hl)
    subst this
    constructor
    · simp [simpleLoop, letterRuns]
    · intro w hw _
      simp [simpleLoop, letterRuns, hw]
  | succ n ih =>
    intro l hl
    match l with
    | [] =>
      constructor
      · simp [simpleLoop, letterRuns]
      · intro w hw _
        simp [simpleLoop, letterRuns, hw]
    | c :: cs =>
      have hcs : cs.length ≤ n := by simpa [Nat.succ_le_succ_iff] using hl
      constructor
      · -- empty accumulator
        by_cases hc : is_ascii_letter c = true
        · have hge : ¬ 128 ≤ c := letter_lt_128 hc
          have h2 : simpleLoop false [] (c :: cs)
              = simpleLoop false [toLower c] cs := by
            simp [simpleLoop, hc, hge, MAX_WORD]
          rw [h2, (ih cs hcs).2 [toLower c] (by simp) (by simp [MAX_WORD])]
          rw [letterRuns]
          simp only [hc, if_true, List.map_cons]
          rw [tokenOfRun]
          simp [MAX_WORD, List.take_cons]
        · have h2 : simpleLoop false [] (c :: cs) = simpleLoop false [] cs := by
            by_cases hge : 128 ≤ c <;> simp [simpleLoop, hc, hge]
          rw [h2, (ih cs hcs).1, letterRuns]
          simp [hc]
      · intro w hw hlen
        by_cases hc : is_ascii_letter c = true
        · have hge : ¬ 128 ≤ c := letter_lt_128 hc
          rw [List.takeWhile_cons_of_pos hc, List.dropWhile_cons_of_pos hc]
          by_cases hfit : w.length < MAX_WORD - 1
          · have h2 : simpleLoop false w (c :: cs)
                = simpleLoop false (w ++ [toLower c]) cs := by
              simp [simpleLoop, hc, hge, hfit]
            rw [h2, (ih cs hcs).2 (w ++ [toLower c]) (by simp) (by simp; omega)]
            have harith : MAX_WORD - 1 - w.length = (MAX_WORD - 1 - (w.length + 1)) + 1 := by
              simp only [MAX_WORD] at *; omega
            rw [harith, List.take_succ_cons]
            simp
          · have hlen99 : w.length = MAX_WORD - 1 := by omega
            have h2 : simpleLoop false w (c :: cs) = simpleLoop false w cs := by
              simp [simpleLoop, hc, hge, hfit]
            rw [h2, (ih cs hcs).2 w hw hlen]
            simp [hlen99]
        · have h2 : simpleLoop false w (c :: cs) = w :: simpleLoop false [] cs := by
            by_cases hge : 128 ≤ c <;> simp [simpleLoop, hc, hge, hw]
          rw [h2, (ih cs hcs).1]
          rw [List.takeWhile_cons_of_neg (by simp [hc]),
            List.dropWhile_cons_of_neg (by simp [hc])]
          rw [letterRuns]
          simp [hc]

/-- The byte-at-a-time loop with empty state emits exactly the capped,
lowercased maximal letter runs. -/
theorem simpleLoop_runs (l : List Nat) :
    simpleLoop false [] l = (letterRuns l).map tokenOfRun :=
  (simpleLoop_runs_aux l.length l le_rfl).1

/-- With `drop_leading` set, the leading letter run is skipped. -/
theorem simpleLoop_dropLeading (l : List Nat) :
    simpleLoop true [] l = simpleLoop false [] (l.dropWhile is_ascii_letter) := by
  induction l with
  | nil => rfl
  | cons c cs ih =>
    by_cases hc : is_ascii_letter c = true
    · rw [List.dropWhile_cons_of_pos hc, ← ih]
      simp [simpleLoop, hc]
    · rw [List.dropWhile_cons_of_neg (by simp [hc])]
      by_cases hge : 128 ≤ c <;> simp [simpleLoop, hc, hge]

/-- The scalar tokenizer with `drop_leading = 0` emits exactly one token
per maximal letter run of its input: the run's first `MAX_WORD - 1` bytes,
lowercased. -/
theorem process_chunk_runs (data : List Nat) :
    process_chunk data false = (letterRuns data).map tokenOfRun := by
  rw [process_chunk, scalar_eq_simple, simpleLoop_runs]

/-- The scalar tokenizer with `drop_leading = 1` drops the leading run. -/
theorem process_chunk_runs_drop (data : List Nat) :
    process_chunk data true
      = (letterRuns (data.dropWhile is_ascii_letter)).map tokenOfRun := by
  rw [process_chunk, scalar_eq_simple, simpleLoop_dropLeading, simpleLoop_runs]

/-- Every maximal letter run is nonempty and consists of letters. -/
theorem letterRuns_mem (n : Nat) :
    ∀ l : List Nat, l.length ≤ n → ∀ r ∈ letterRuns l,
      r ≠ [] ∧ ∀ b ∈ r, is_ascii_letter b = true := by
  induction n with
  | zero =>
    intro l hl
    have : l = [] := List.eq_nil_of_length_eq_zero (Nat.le_zero.mp hl)
    subst this
    simp [letterRuns]
  | succ n ih =>
    intro l hl r hr
    match l with
    | [] => simp [letterRuns] at hr
    | c :: cs =>
      have hcs : cs.length ≤ n := by simpa [Nat.succ_le_succ_iff] using hl
      rw [letterRuns] at hr
      by_cases hc : is_ascii_letter c = true
      · simp only [hc, if_true, List.mem_cons] at hr
        rcases hr with hr | hr
        · subst hr
          refine ⟨by simp, ?_⟩
          intro b hb
          rcases List.mem_cons.mp hb with hb | hb
          · subst hb; exact hc
          · exact List.mem_takeWhile_imp hb
        · exact ih _ (le_trans (length_dropWhile_le _ _) hcs) r hr
      · simp only [hc, if_false] at hr
        exact ih cs hcs r hr

theorem toLower_letter :
    ∀ c : Nat, is_ascii_letter c = true →
      97 ≤ toLower c ∧ toLower c ≤ 122 ∧ is_ascii_letter (toLower c) = true := by
  have key : ∀ c : Nat, c < 123 → is_ascii_letter c = true →
      97 ≤ toLower c ∧ toLower c ≤ 122 ∧ is_ascii_letter (toLower c) = true := by
    decide
  intro c h
  have hb : c < 123 := by
    simp only [is_ascii_letter, Bool.or_eq_true, Bool.and_eq_true,
      decide_eq_true_eq] at h
    omega
  exact key c hb h

/-- Tokens emitted for letter runs are nonempty, capped at `MAX_WORD - 1`
bytes, and consist of lowercase letters. -/
theorem tokenOfRun_wf {r : List Nat} (hne : r ≠ [])
    (hlet : ∀ b ∈ r, is_ascii_letter b = true) :
    1 ≤ (tokenOfRun r).length ∧ (tokenOfRun r).length ≤ MAX_WORD - 1 ∧
      ∀ b ∈ tokenOfRun r, 97 ≤ b ∧ b ≤ 122 := by
  refine ⟨?_, ?_, ?_⟩
  · rw [tokenOfRun, List.length_map, List.length_take]
    have : 0 < r.length := List.length_pos.mpr hne
    simp [MAX_WORD]
    omega
  · rw [tokenOfRun, List.length_map, List.length_take]
    exact min_le_left _ _
  · intro b hb
    rw [tokenOfRun] at hb
    rcases List.mem_map.mp hb with ⟨a, ha, rfl⟩
    have := hlet a (List.mem_of_mem_take ha)
    exact ⟨(toLower_letter a this).1, (toLower_letter a this).2.1⟩

/-! ## CRC-32C hashing (`hash_word`, lines 222-239, SSE4.2 build)

The hardware instructions `_mm_crc32_u8/_u32/_u64` are modelled
bit-serially: the CRC-32C state is a 32-bit value; each data bit `d`
(least significant first) produces feedback `(state & 1) ^ d` and the
state becomes `(state >> 1) ^ (feedback ? 0x82F63B78 : 0)` (the reflected
CRC-32C polynomial).  An `n`-bit accumulate instruction runs `n` such
rounds over its operand's bits, least significant byte first. -/

/-- One bit-round of CRC-32C in reflected form. -/
def crcRound (c : Nat) (d : Bool) : Nat :=
  if decide (c % 2 = 1) == d then c / 2 else (c / 2) ^^^ 0x82F63B78

/-- `n` bit-rounds of CRC-32C over the low `n` bits of `v`. -/
def crcBits (c v : Nat) : Nat → Nat
  | 0 => c
  | n + 1 => crcBits (crcRound c (decide (v % 2 = 1))) (v / 2) n

/-- `_mm_crc32_u8` (uses the low 32 bits of the state). -/
def crc32c_u8 (c b : Nat) : Nat := crcBits (c % 2 ^ 32) b 8

/-- `_mm_crc32_u32`. -/
def crc32c_u32 (c v : Nat) : Nat := crcBits (c % 2 ^ 32) v 32

/-- `_mm_crc32_u64`. -/
def crc32c_u64 (c v : Nat) : Nat := crcBits (c % 2 ^ 32) v 64

/-- `crc32c_finalize64` (lines 223-227): 64-bit multiply-xor-shift
avalanche, truncated to 32 bits. -/
def crc32c_finalize64 (h : Nat) : Nat :=
  let h1 := h ^^^ (h >>> 33)
  let h2 := h1 * 0xff51afd7ed558ccd % 2 ^ 64
  let h3 := h2 ^^^ (h2 >>> 33)
  let h4 := h3 * 0xc4ceb9fe1a85ec53 % 2 ^ 64
  let h5 := h4 ^^^ (h4 >>> 33)
  h5 % 2 ^ 32

/-- Little-endian value of a byte list (the `memcpy` loads). -/
def leVal : List Nat → Nat
  | [] => 0
  | b :: bs => b + 256 * leVal bs

/-- `hash_word` (lines 228-234): fold 8-byte chunks with `_mm_crc32_u64`,
then one 4-byte chunk with `_mm_crc32_u32`, then single bytes, then
finalize. -/
def hashLoop (h : Nat) (l : List Nat) : Nat :=
  if 8 ≤ l.length then
    hashLoop (crc32c_u64 h (leVal (l.take 8))) (l.drop 8)
  else if 4 ≤ l.length then
    (l.drop 4).foldl (fun a b => crc32c_u8 a b) (crc32c_u32 h (leVal (l.take 4)))
  else
    l.foldl (fun a b => crc32c_u8 a b) h
termination_by l.length
decreasing_by
  simp only [List.length_drop]
  omega

def hash_word (l : List Nat) : Nat := crc32c_finalize64 (hashLoop 0 l)

/-- The 16-bit fingerprint `(hash ^ (hash >> 16)) & 0xFFFF`. -/
def fp16_of (h : Nat) : Nat := (h ^^^ (h >>> 16)) % 2 ^ 16

/-- The tokenizer's incremental per-byte CRC accumulation
(`crc = _mm_crc32_u8((uint32_t)crc, lc)` at lines 444-466), finalized. -/
def crcFold (c : Nat) (l : List Nat) : Nat :=
  l.foldl (fun a b => crc32c_u8 a b) c

def incHash (w : List Nat) : Nat := crc32c_finalize64 (crcFold 0 w)

/-- Only the low `n` bits of the operand enter `n` CRC rounds. -/
theorem crcBits_mod (n : Nat) : ∀ c v : Nat, crcBits c v n = crcBits c (v % 2 ^ n) n := by
  induction n with
  | zero => intro c v; rfl
  | succ n ih =>
    intro c v
    rw [crcBits, crcBits]
    have h1 : v % 2 ^ (n + 1) % 2 = v % 2 := by
      rw [Nat.mod_mod_of_dvd]
      exact Dvd.intro_left (2 ^ n) (by rw [pow_succ])
    have h2 : v % 2 ^ (n + 1) / 2 = v / 2 % 2 ^ n := by
      rw [pow_succ, mul_comm, Nat.mod_mul_right_div_self]
    rw [h1, h2, ← ih]

/-- CRC rounds split over a sum of round counts. -/
theorem crcBits_add (m : Nat) : ∀ n c v : Nat,
    crcBits c v (m + n) = crcBits (crcBits c v m) (v >>> m) n := by
  induction m with
  | zero => intro n c v; simp [crcBits]
  | succ m ih =>
    intro n c v
    have hm : m + 1 + n = m + n + 1 := by omega
    rw [hm]
    rw [show crcBits c v (m + n + 1) = crcBits (crcRound c (decide (v % 2 = 1))) (v / 2) (m + n) from rfl]
    rw [ih n _ (v / 2)]
    rw [show crcBits c v (m + 1) = crcBits (crcRound c (decide (v % 2 = 1))) (v / 2) m from rfl]
    have hsh : v >>> (m + 1) = (v / 2) >>> m := by
      rw [show m + 1 = 1 + m by omega, Nat.shiftRight_add, Nat.shiftRight_one]
    rw [hsh]

/-- The CRC state stays a 32-bit value. -/
theorem crcBits_lt (n : Nat) : ∀ c v : Nat, c < 2 ^ 32 → crcBits c v n < 2 ^ 32 := by
  induction n with
  | zero => intro c v hc; exact hc
  | succ n ih =>
    intro c v hc
    rw [crcBits]
    apply ih
    rw [crcRound]
    have hdiv : c / 2 < 2 ^ 32 := lt_of_le_of_lt (Nat.div_le_self c 2) hc
    split
    · exact hdiv
    · exact Nat.xor_lt_two_pow hdiv (by norm_num)

/-- Running the byte-serial CRC over the little-endian value of a byte
list equals folding the single-byte instruction over the list. -/
theorem crcBits_leVal (bs : List Nat) : ∀ c : Nat, c < 2 ^ 32 →
    (∀ b ∈ bs, b < 256) →
    crcBits c (leVal bs) (8 * bs.length) = crcFold c bs := by
  induction bs with
  | nil => intro c _ _; rfl
  | cons b bs ih =>
    intro c hc hb
    have hb0 : b < 256 := hb b (List.mem_cons_self b bs)
    have hbs : ∀ x ∈ bs, x < 256 := fun x hx => hb x (List.mem_cons_of_mem b hx)
    have hlen : 8 * (b :: bs).length = 8 + 8 * bs.length := by
      simp [List.length_cons]; ring
    rw [hlen, crcBits_add]
    have hfirst : crcBits c (leVal (b :: bs)) 8 = crcBits c b 8 := by
      rw [crcBits_mod]
      have : leVal (b :: bs) % 2 ^ 8 = b := by
        rw [leVal]
        have : (b + 256 * leVal bs) % 256 = b % 256 := Nat.add_mul_mod_self_left b 256 (leVal bs)
        simpa [this] using Nat.mod_eq_of_lt hb0
      rw [this]
    have hshift : leVal (b :: bs) >>> 8 = leVal bs := by
      rw [Nat.shiftRight_eq_div_pow, leVal]
      show (b + 256 * leVal bs) / 256 = leVal bs
      rw [Nat.add_mul_div_left b _ (by norm_num), Nat.div_eq_of_lt hb0, Nat.zero_add]
    rw [hfirst, hshift]
    have hu8 : crcBits c b 8 = crc32c_u8 c b := by
      rw [crc32c_u8, Nat.mod_eq_of_lt hc]
    rw [hu8, ih _ (by rw [← hu8]; exact crcBits_lt 8 c b hc) hbs]
    rfl

/-- The chunked `hash_word` loop equals the plain byte fold. -/
theorem hashLoop_eq_crcFold (n : Nat) : ∀ l : List Nat, l.length ≤ n →
    ∀ h : Nat, h < 2 ^ 32 → (∀ b ∈ l, b < 256) →
    hashLoop h l = crcFold h l := by
  induction n with
  | zero =>
    intro l hl h _ _
    have : l = [] := List.eq_nil_of_length_eq_zero (Nat.le_zero.mp hl)
    subst this
    rw [hashLoop]
    rfl
  | succ n ih =>
    intro l hl h hh hb
    rw [hashLoop]
    by_cases h8 : 8 ≤ l.length
    · simp only [h8, if_true]
      have htk : (l.take 8).length = 8 := by
        rw [List.length_take]; omega
      have hbt : ∀ b ∈ l.take 8, b < 256 := fun b hx => hb b (List.mem_of_mem_take hx)
      have hu : crc32c_u64 h (leVal (l.take 8)) = crcFold h (l.take 8) := by
        rw [crc32c_u64, Nat.mod_eq_of_lt hh]
        have : (64 : Nat) = 8 * (l.take 8).length := by rw [htk]
        rw [this, crcBits_leVal _ h hh hbt]
      have hlt : crcFold h (l.take 8) < 2 ^ 32 := by
        rw [← hu, crc32c_u64]
        exact crcBits_lt 64 _ _ (Nat.mod_lt _ (by norm_num))
      rw [hu, ih (l.drop 8) (by rw [List.length_drop]; omega) _ hlt
        (fun b hx => hb b (List.mem_of_mem_drop hx))]
      rw [crcFold, crcFold, crcFold, ← List.foldl_append, List.take_append_drop]
    · simp only [h8, if_false]
      by_cases h4 : 4 ≤ l.length
      · simp only [h4, if_true]
        have htk : (l.take 4).length = 4 := by
          rw [List.length_take]; omega
        have hbt : ∀ b ∈ l.take 4, b < 256 := fun b hx => hb b (List.mem_of_mem_take hx)
        have hu : crc32c_u32 h (leVal (l.take 4)) = crcFold h (l.take 4) := by
          rw [crc32c_u32, Nat.mod_eq_of_lt hh]
          have : (32 : Nat) = 8 * (l.take 4).length := by rw [htk]
          rw [this, crcBits_leVal _ h hh hbt]
        rw [hu]
        rw [show ((l.drop 4).foldl (fun a b => crc32c_u8 a b) (crcFold h (l.take 4))
            = crcFold (crcFold h (l.take 4)) (l.drop 4)) from rfl]
        rw [crcFold, crcFold, crcFold, ← List.foldl_append, List.take_append_drop]
      · simp only [h4, if_false]
        rfl

/-- The incremental byte-at-a-time CRC accumulated by the tokenizer,
finalized, equals the pure `hash_word` on the same byte sequence. -/
theorem incHash_eq_hash_word (w : List Nat) (hb : ∀ b ∈ w, b < 256) :
    incHash w = hash_word w := by
  rw [incHash, hash_word, hashLoop_eq_crcFold w.length w le_rfl 0 (by norm_num) hb]

/-! ## Per-worker hash table (lines 136-155, 304-423)

A table is its slot array plus the `size` (occupied slots) and
`total_words` counters.  The arena (`string_pool`) is modelled by entries
owning their byte lists; `Entry.word` is the stored byte span without the
written terminator, which `storedBytes` reconstructs. -/

structure Entry where
  word : List Nat
  count : Nat
  hash : Nat
  len : Nat
  fp16 : Nat
deriving DecidableEq

structure ThreadTable where
  entries : List (Option Entry)
  size : Nat
  total_words : Nat
deriving DecidableEq

def ThreadTable.capacity (t : ThreadTable) : Nat := t.entries.length

/-- The live entries of a table, in slot order. -/
def ThreadTable.live (t : ThreadTable) : List Entry := t.entries.filterMap id

/-- Sum of `count` over all live entries. -/
def ThreadTable.sumCounts (t : ThreadTable) : Nat := (t.live.map Entry.count).sum

/-- The count stored for a word (summed over live entries storing it;
a wellformed table has at most one). -/
def ThreadTable.countOf (t : ThreadTable) (w : List Nat) : Nat :=
  ((t.live.filter (fun e => e.word = w)).map Entry.count).sum

/-- The fast-filter plus `memcmp` match test of the probe loops
(lines 380-384 and 736-739): hash, length and fingerprint equal, then the
first `len` stored bytes equal. -/
def entryMatches (hash len fp : Nat) (word : List Nat) (e : Entry) : Bool :=
  decide (e.hash = hash) && decide (e.len = len) && decide (e.fp16 = fp) &&
    decide (e.word.take len = word.take len)

/--
Linear probing with wraparound, the common shape of the slot loops in
`table_insert_hashed` (lines 361-404), `table_grow` (line 336) and
`merge_tables` (lines 735-747): starting at `idx`, visit at most `fuel`
slots (the insert loop's `do .. while (idx != start_idx)` visits exactly
`capacity` of them); stop at the first free slot (`(idx, none)`) or the
first entry satisfying `p` (`(idx, some e)`); `none` means the probe
wrapped fully around.  The slot step is the source's
`idx = (idx + 1) & (capacity - 1)`.
-/
def probeFind (entries : List (Option Entry)) (p : Entry → Bool) :
    Nat → Nat → Option (Nat × Option Entry)
  | 0, _ => none
  | fuel + 1, idx =>
    match entries.get? idx with
    | none => none
    | some none => some (idx, none)
    | some (some e) =>
      if p e then some (idx, some e)
      else probeFind entries p fuel ((idx + 1) &&& (entries.length - 1))

/-- Twin of `probeFind` whose step is `(idx + 1) % capacity`; for the
power-of-two capacities the engine maintains the two agree
(`probeFind_eq_probeSeek`). -/
def probeSeek (entries : List (Option Entry)) (p : Entry → Bool) :
    Nat → Nat → Option (Nat × Option Entry)
  | 0, _ => none
  | fuel + 1, idx =>
    match entries.get? idx with
    | none => none
    | some none => some (idx, none)
    | some (some e) =>
      if p e then some (idx, some e)
      else probeSeek entries p fuel ((idx + 1) % entries.length)

theorem probeFind_eq_probeSeek (entries : List (Option Entry)) (p : Entry → Bool)
    (k : Nat) (hcap : entries.length = 2 ^ k) :
    ∀ fuel idx, probeFind entries p fuel idx = probeSeek entries p fuel idx := by
  intro fuel
  induction fuel with
  | zero => intro idx; rfl
  | succ fuel ih =>
    intro idx
    rw [probeFind, probeSeek]
    have hstep : (idx + 1) &&& (entries.length - 1) = (idx + 1) % entries.length := by
      rw [hcap, Nat.and_pow_two_sub_one_eq_mod]
    rw [hstep]
    cases entries.get? idx with
    | none => rfl
    | some oe =>
      cases oe with
      | none => rfl
      | some e =>
        by_cases hp : p e = true <;> simp [hp, ih]

/-- The stored byte span written for a new entry:
`memcpy(stored, word, len); stored[len] = 0` (lines 365-366). -/
def storedBytes (word : List Nat) (len : Nat) : List Nat := word.take len ++ [0]

/-- A freshly inserted entry (line 367): count 1, stored word = the first
`len` bytes of the buffer. -/
def mkEntry (word : List Nat) (len hash fp : Nat) : Entry :=
  { word := word.take len, count := 1, hash := hash, len := len, fp16 := fp }

/-- `table_grow`'s reinsertion of one live entry (lines 335-337): place it
at the first free slot probing from `hash & (newcap - 1)`.  (If no free
slot existed the C loop would not terminate; the model leaves the array
unchanged, a case the growth invariants exclude.) -/
def growPlace (entries : List (Option Entry)) (e : Entry) : List (Option Entry) :=
  match probeFind entries (fun _ => false) entries.length (e.hash &&& (entries.length - 1)) with
  | some (idx, _) => entries.set idx (some e)
  | none => entries

/-- `table_grow` (lines 325-347): allocate a zeroed array of double
capacity and reinsert every live entry by its stored hash; `size` and
`total_words` are unchanged. -/
def table_grow (t : ThreadTable) : ThreadTable :=
  { entries := t.entries.foldl
      (fun acc oe => match oe with
        | none => acc
        | some e => growPlace acc e)
      (List.replicate (t.capacity * 2) none),
    size := t.size,
    total_words := t.total_words }

/-- The over-occupancy check and growth after a fresh insertion
(line 377): grow when `size * 10 > capacity * 7`. -/
def afterInsertGrow (t : ThreadTable) : ThreadTable :=
  if t.capacity * 7 < t.size * 10 then table_grow t else t

/-- Outcome of a successful probe (lines 363-399): a free slot receives a
fresh entry (then the 70% check may grow the table); a matching entry has
its `uint32_t` count incremented, wrapping modulo `2^32`; `total_words`
(a `size_t`) increments either way. -/
def applyProbe (t : ThreadTable) (word : List Nat) (len hash fp : Nat) :
    Nat × Option Entry → ThreadTable
  | (idx, none) =>
    afterInsertGrow
      { entries := t.entries.set idx (some (mkEntry word len hash fp)),
        size := t.size + 1,
        total_words := t.total_words + 1 }
  | (idx, some e) =>
    { entries := t.entries.set idx (some { e with count := (e.count + 1) % 2 ^ 32 }),
      size := t.size,
      total_words := t.total_words + 1 }

/--
`table_insert_hashed` (lines 349-410), release build: reject empty or
over-long words (`len == 0 || len >= MAX_WORD`); probe from
`hash & (capacity - 1)`; insert at the first free slot or increment the
first full match; if the probe wraps fully around without either (table
full), grow and retry (`table_grow(t); table_insert_hashed(t, ...)`,
line 408 — the DEBUG build aborts instead).  The retry's own wrap case is
unreachable (a doubled table has free slots); the model returns the grown
table there.
-/
def table_insert_hashed (t : ThreadTable) (word : List Nat) (len hash fp : Nat) :
    ThreadTable :=
  if len = 0 ∨ MAX_WORD ≤ len then t
  else
    match probeFind t.entries (entryMatches hash len fp word) t.capacity
        (hash &&& (t.capacity - 1)) with
    | some r => applyProbe t word len hash fp r
    | none =>
      let tg := table_grow t
      match probeFind tg.entries (entryMatches hash len fp word) tg.capacity
          (hash &&& (tg.capacity - 1)) with
      | some r => applyProbe tg word len hash fp r
      | none => tg

/-- One tokenizer insertion with the incrementally accumulated hash and
its fingerprint (lines 448-450): `table_insert_hashed(t, word, word_len,
h32, (uint16_t)(h32 ^ (h32 >> 16)))`. -/
def insertToken (t : ThreadTable) (w : List Nat) : ThreadTable :=
  table_insert_hashed t w w.length (incHash w) (fp16_of (incHash w))

def insertTokens (t : ThreadTable) (ws : List (List Nat)) : ThreadTable :=
  ws.foldl insertToken t

/-- A freshly initialized table (lines 825-834): zeroed slots, zero
counters. -/
def initTable (cap : Nat) : ThreadTable :=
  { entries := List.replicate cap none, size := 0, total_words := 0 }

theorem probe_mod_shift (len idx j : Nat) :
    (((idx + 1) % len) + j) % len = (idx + (j + 1)) % len := by
  rw [Nat.mod_add_mod]
  congr 1
  omega

/-- If the probe wraps fully around, every visited slot held a
non-matching entry. -/
theorem probeSeek_none_char (entries : List (Option Entry)) (p : Entry → Bool)
    (fuel : Nat) : ∀ idx, idx < entries.length →
    probeSeek entries p fuel idx = none →
    ∀ j < fuel, ∃ e, entries.get? ((idx + j) % entries.length) = some (some e) ∧
      p e = false := by
  induction fuel with
  | zero => intro idx _ _ j hj; omega
  | succ fuel ih =>
    intro idx hidx hnone j hj
    rw [probeSeek] at hnone
    rcases hoe : entries.get? idx with _ | oe
    · exact absurd (List.get?_eq_none.mp hoe) (by omega)
    rcases oe with _ | e
    · rw [hoe] at hnone; exact absurd hnone (by simp)
    rw [hoe] at hnone
    dsimp only [] at hnone
    by_cases hp : p e = true
    · rw [if_pos hp] at hnone; exact absurd hnone (by simp)
    rw [if_neg hp] at hnone
    match j with
    | 0 =>
      refine ⟨e, ?_, by simpa using hp⟩
      rw [Nat.add_zero, Nat.mod_eq_of_lt hidx, hoe]
    | j + 1 =>
      have hlt : (idx + 1) % entries.length < entries.length :=
        Nat.mod_lt _ (by omega)
      have := ih ((idx + 1) % entries.length) hlt hnone j (by omega)
      rwa [probe_mod_shift] at this

/-- Characterization of a successful probe: the found slot is the `j`-th
on the cyclic path; every earlier slot held a non-matching entry; the
found slot is free (result `none`) or holds the matching entry found. -/
theorem probeSeek_some_char (entries : List (Option Entry)) (p : Entry → Bool)
    (fuel : Nat) : ∀ idx, idx < entries.length →
    ∀ res, probeSeek entries p fuel idx = some res →
    ∃ j, j < fuel ∧ res.1 = (idx + j) % entries.length ∧
      (∀ j' < j, ∃ e, entries.get? ((idx + j') % entries.length) = some (some e) ∧
        p e = false) ∧
      ((res.2 = none ∧ entries.get? res.1 = some none) ∨
        (∃ e, res.2 = some e ∧ entries.get? res.1 = some (some e) ∧ p e = true)) := by
  induction fuel with
  | zero => intro idx _ res h; exact absurd h (by simp [probeSeek])
  | succ fuel ih =>
    intro idx hidx res hres
    rw [probeSeek] at hres
    rcases hoe : entries.get? idx with _ | oe
    · rw [hoe] at hres; exact absurd hres (by simp)
    rcases oe with _ | e
    · rw [hoe] at hres
      have hres' : res = (idx, none) := by
        simpa using hres.symm
      subst hres'
      refine ⟨0, by omega, by simp [Nat.mod_eq_of_lt hidx], by omega, Or.inl ⟨rfl, ?_⟩⟩
      simpa [Nat.mod_eq_of_lt hidx] using hoe
    rw [hoe] at hres
    dsimp only [] at hres
    by_cases hp : p e = true
    · rw [if_pos hp] at hres
      have hres' : res = (idx, some e) := by simpa using hres.symm
      subst hres'
      refine ⟨0, by omega, by simp [Nat.mod_eq_of_lt hidx], by omega,
        Or.inr ⟨e, rfl, ?_, hp⟩⟩
      simpa [Nat.mod_eq_of_lt hidx] using hoe
    rw [if_neg hp] at hres
    have hlt : (idx + 1) % entries.length < entries.length := Nat.mod_lt _ (by omega)
    obtain ⟨j, hjf, hres1, hpath, hfound⟩ := ih _ hlt res hres
    refine ⟨j + 1, by omega, ?_, ?_, hfound⟩
    · rw [hres1, probe_mod_shift]
    · intro j' hj'
      match j' with
      | 0 =>
        refine ⟨e, ?_, by simpa using hp⟩
        rw [Nat.add_zero, Nat.mod_eq_of_lt hidx, hoe]
      | j' + 1 =>
        have := hpath j' (by omega)
        rwa [probe_mod_shift] at this

/-- A probe with a free slot within range cannot wrap. -/
theorem probeSeek_ne_none (entries : List (Option Entry)) (p : Entry → Bool)
    (fuel idx : Nat) (hidx : idx < entries.length)
    (hfree : ∃ j < fuel, entries.get? ((idx + j) % entries.length) = some none) :
    probeSeek entries p fuel idx ≠ none := by
  intro hnone
  obtain ⟨j, hj, hfr⟩ := hfree
  obtain ⟨e, hocc, _⟩ := probeSeek_none_char entries p fuel idx hidx hnone j hj
  rw [hfr] at hocc
  exact absurd hocc (by simp)

/-- A list of optional slots with fewer live entries than slots has a free
slot. -/
theorem exists_free_slot (l : List (Option Entry))
    (h : (l.filterMap id).length < l.length) :
    ∃ i < l.length, l.get? i = some none := by
  induction l with
  | nil => simp at h
  | cons oe tl ih =>
    rcases oe with _ | e
    · exact ⟨0, by simp, rfl⟩
    · simp only [List.filterMap_cons_some, List.length_cons, id] at h
      obtain ⟨i, hi, hfr⟩ := ih (by simpa using Nat.lt_of_succ_lt_succ h)
      exact ⟨i + 1, by simpa using Nat.succ_lt_succ hi, by simpa using hfr⟩

/-- Every slot of the cyclic probe path from any in-range start is reached
within `capacity` steps. -/
theorem exists_probe_index (len idx s : Nat) (hidx : idx < len) (hs : s < len) :
    ∃ j < len, (idx + j) % len = s := by
  refine ⟨(s + len - idx) % len, Nat.mod_lt _ (by omega), ?_⟩
  rw [Nat.add_mod, Nat.mod_mod_of_dvd _ (dvd_refl len), ← Nat.add_mod]
  have : idx + (s + len - idx) = s + len := by omega
  rw [this, Nat.add_mod_right, Nat.mod_eq_of_lt hs]

/-- Filling a free slot appends the entry to the live entries (as a
decomposition witnessing the multiset change). -/
theorem filterMap_set_free :
    ∀ (l : List (Option Entry)) (i : Nat) (e : Entry), l.get? i = some none →
    ∃ l1 l2, l.filterMap id = l1 ++ l2 ∧
      (l.set i (some e)).filterMap id = l1 ++ e :: l2 := by
  intro l
  induction l with
  | nil => intro i e h; simp at h
  | cons oe tl ih =>
    intro i e h
    match i with
    | 0 =>
      have hoe : oe = none := by simpa using h
      subst hoe
      exact ⟨[], tl.filterMap id, by simp, by simp⟩
    | i + 1 =>
      have h' : tl.get? i = some none := by simpa using h
      obtain ⟨l1, l2, h1, h2⟩ := ih i e h'
      cases oe with
      | none => exact ⟨l1, l2, by simpa using h1, by simpa using h2⟩
      | some a =>
        exact ⟨a :: l1, l2, by simpa using h1, by simpa using h2⟩

/-- Replacing a live slot replaces that entry among the live entries. -/
theorem filterMap_set_bump :
    ∀ (l : List (Option Entry)) (i : Nat) (e e' : Entry), l.get? i = some (some e) →
    ∃ l1 l2, l.filterMap id = l1 ++ e :: l2 ∧
      (l.set i (some e')).filterMap id = l1 ++ e' :: l2 := by
  intro l
  induction l with
  | nil => intro i e e' h; simp at h
  | cons oe tl ih =>
    intro i e e' h
    match i with
    | 0 =>
      have hoe : oe = some e := by simpa using h
      subst hoe
      exact ⟨[], tl.filterMap id, by simp, by simp⟩
    | i + 1 =>
      have h' : tl.get? i = some (some e) := by simpa using h
      obtain ⟨l1, l2, h1, h2⟩ := ih i e e' h'
      cases oe with
      | none => exact ⟨l1, l2, by simpa using h1, by simpa using h2⟩
      | some a =>
        exact ⟨a :: l1, l2, by simpa using h1, by simpa using h2⟩

/-- Slot `x` holds a live entry. -/
def occupiedAt (l : List (Option Entry)) (x : Nat) : Prop :=
  ∃ e, l.get? x = some (some e)

theorem occupiedAt_set {l : List (Option Entry)} {x : Nat} (i : Nat) (e : Entry)
    (h : occupiedAt l x) : occupiedAt (l.set i (some e)) x := by
  obtain ⟨e', he'⟩ := h
  by_cases hx : i = x
  · subst hx
    have hlt : i < l.length := by
      by_contra hge
      rw [List.get?_eq_getElem?, List.getElem?_eq_none (by omega)] at he'
      exact absurd he' (by simp)
    exact ⟨e, by simp [List.get?_eq_getElem?, List.getElem?_set_self hlt]⟩
  · exact ⟨e', by rwa [List.get?_eq_getElem?, List.getElem?_set_ne hx,
      ← List.get?_eq_getElem?]⟩

theorem occupiedAt_set_self {l : List (Option Entry)} {i : Nat} (e : Entry)
    (h : i < l.length) : occupiedAt (l.set i (some e)) i :=
  ⟨e, by simp [List.get?_eq_getElem?, List.getElem?_set_self h]⟩

/-- The linear-probing path invariant: every live entry's probe path from
its hash's home slot up to (excluding) its own slot is fully occupied. -/
def pathOk (l : List (Option Entry)) : Prop :=
  ∀ s e, l.get? s = some (some e) →
    ∀ j < (s + l.length - e.hash % l.length) % l.length,
      occupiedAt l ((e.hash % l.length + j) % l.length)

/-- Cyclic probe distance to slot `(home + j) % len` is `j` itself. -/
theorem probe_dist_eq (len home j : Nat) (hh : home < len) (hj : j < len) :
    ((home + j) % len + len - home) % len = j := by
  rcases Nat.lt_or_ge (home + j) len with hlt | hge
  · rw [Nat.mod_eq_of_lt hlt]
    have h2 : home + j + len - home = j + len := by omega
    rw [h2, Nat.add_mod_right, Nat.mod_eq_of_lt hj]
  · have h1 : (home + j) % len = home + j - len := by
      rw [Nat.mod_eq_sub_mod hge, Nat.mod_eq_of_lt (by omega)]
    rw [h1]
    have h2 : home + j - len + len - home = j := by omega
    rw [h2, Nat.mod_eq_of_lt hj]

/-- Distinct probe steps reach distinct slots. -/
theorem probe_index_injective (len home : Nat) {j1 j2 : Nat} (hh : home < len)
    (h1 : j1 < len) (h2 : j2 < len)
    (heq : (home + j1) % len = (home + j2) % len) : j1 = j2 := by
  have e1 := probe_dist_eq len home j1 hh h1
  have e2 := probe_dist_eq len home j2 hh h2
  rw [heq] at e1
  omega

/-- `growPlace` on a table with a free slot: the length is unchanged, the
entry joins the live entries, and the probe-path invariant is preserved. -/
theorem growPlace_props (l : List (Option Entry)) (e : Entry) (k : Nat)
    (hcap : l.length = 2 ^ k)
    (hfree : (l.filterMap id).length < l.length)
    (hpath : pathOk l) :
    (growPlace l e).length = l.length ∧
    ((growPlace l e).filterMap id).Perm (e :: l.filterMap id) ∧
    pathOk (growPlace l e) := by
  have hlen : 0 < l.length := lt_of_le_of_lt (Nat.zero_le _) hfree
  have hhome : e.hash &&& (l.length - 1) = e.hash % l.length := by
    rw [hcap, Nat.and_pow_two_sub_one_eq_mod]
  have hhlt : e.hash % l.length < l.length := Nat.mod_lt _ hlen
  obtain ⟨s, hs, hsfree⟩ := exists_free_slot l hfree
  obtain ⟨j, hjlen, hjs⟩ := exists_probe_index l.length (e.hash % l.length) s hhlt hs
  have hne : probeSeek l (fun _ => false) l.length (e.hash % l.length) ≠ none :=
    probeSeek_ne_none l _ l.length _ hhlt ⟨j, hjlen, by rw [hjs]; exact hsfree⟩
  rcases hps : probeSeek l (fun _ => false) l.length (e.hash % l.length) with _ | res
  · exact absurd hps hne
  obtain ⟨j0, hj0, hres1, hpathj, hfound⟩ :=
    probeSeek_some_char l _ l.length _ hhlt res hps
  have hresfree : res.2 = none ∧ l.get? res.1 = some none := by
    rcases hfound with h | ⟨e', _, _, habs⟩
    · exact h
    · simp at habs
  have hgp : growPlace l e = l.set res.1 (some e) := by
    rw [growPlace, hhome, probeFind_eq_probeSeek l _ k hcap, hps]
  have hreslt : res.1 < l.length := by
    rw [hres1]; exact Nat.mod_lt _ hlen
  obtain ⟨l1, l2, hdec1, hdec2⟩ := filterMap_set_free l res.1 e hresfree.2
  refine ⟨by rw [hgp, List.length_set], ?_, ?_⟩
  · rw [hgp, hdec2, hdec1]
    exact List.perm_middle
  · rw [hgp]
    intro s' e' hs' jj hjj
    simp only [List.length_set] at hjj ⊢
    by_cases hsi : s' = res.1
    · subst hsi
      rw [List.get?_eq_getElem?, List.getElem?_set_self hreslt] at hs'
      have he' : e = e' := by simpa using hs'
      subst he'
      rw [hres1, probe_dist_eq l.length (e.hash % l.length) j0 hhlt hj0] at hjj
      obtain ⟨e2, h2, _⟩ := hpathj jj hjj
      exact occupiedAt_set _ _ ⟨e2, h2⟩
    · rw [List.get?_eq_getElem?, List.getElem?_set_ne (fun h => hsi h.symm),
        ← List.get?_eq_getElem?] at hs'
      exact occupiedAt_set _ _ (hpath s' e' hs' jj hjj)

theorem replicate_none_live (n : Nat) :
    (List.replicate n (none : Option Entry)).filterMap id = [] := by
  induction n with
  | zero => rfl
  | succ n ih => simp [List.replicate_succ, ih]

theorem replicate_none_path (n : Nat) :
    pathOk (List.replicate n (none : Option Entry)) := by
  intro s e hs
  have hmem : (some e : Option Entry) ∈ List.replicate n none := List.get?_mem hs
  exact absurd (List.eq_of_mem_replicate hmem) (by simp)

/-- The reinsertion fold of `table_grow`: with enough free slots the
length is preserved, the live entries accumulate, and the probe-path
invariant holds throughout. -/
theorem grow_fold (src : List (Option Entry)) :
    ∀ (acc : List (Option Entry)) (k : Nat), acc.length = 2 ^ k →
    (acc.filterMap id).length + (src.filterMap id).length ≤ acc.length →
    pathOk acc →
    (src.foldl (fun a oe => match oe with | none => a | some e => growPlace a e) acc).length
        = acc.length ∧
    ((src.foldl (fun a oe => match oe with | none => a | some e => growPlace a e) acc).filterMap
        id).Perm (acc.filterMap id ++ src.filterMap id) ∧
    pathOk (src.foldl (fun a oe => match oe with | none => a | some e => growPlace a e) acc) := by
  induction src with
  | nil =>
    intro acc k hcap hbound hpath
    exact ⟨rfl, by simp, hpath⟩
  | cons oe rest ih =>
    intro acc k hcap hbound hpath
    cases oe with
    | none =>
      have := ih acc k hcap (by simpa using hbound) hpath
      simpa using this
    | some e =>
      have hfree : (acc.filterMap id).length < acc.length := by
        simp only [List.filterMap_cons_some (f := id) (b := e) rfl,
          List.length_cons] at hbound
        omega
      obtain ⟨hlen1, hperm1, hpath1⟩ := growPlace_props acc e k hcap hfree hpath
      have hcap1 : (growPlace acc e).length = 2 ^ k := by rw [hlen1, hcap]
      have hbound1 : ((growPlace acc e).filterMap id).length + (rest.filterMap id).length
          ≤ (growPlace acc e).length := by
        rw [hperm1.length_eq, hlen1, List.length_cons]
        simp only [List.filterMap_cons_some (f := id) (b := e) rfl,
          List.length_cons] at hbound
        omega
      obtain ⟨hlen2, hperm2, hpath2⟩ := ih (growPlace acc e) k hcap1 hbound1 hpath1
      refine ⟨by simpa [hlen1] using hlen2, ?_, by simpa using hpath2⟩
      rw [List.foldl_cons]
      dsimp only []
      refine hperm2.trans ?_
      refine (hperm1.append_right _).trans ?_
      rw [List.filterMap_cons_some (f := id) (b := e) rfl]
      exact List.perm_middle.symm

/-- `table_grow` doubles the capacity, permutes the live entries,
re-establishes the probe-path invariant, and leaves `size` and
`total_words` unchanged. -/
theorem table_grow_props (t : ThreadTable) (k : Nat) (hcap : t.capacity = 2 ^ k) :
    (table_grow t).capacity = 2 * t.capacity ∧
    ((table_grow t).live).Perm t.live ∧
    pathOk (table_grow t).entries ∧
    (table_grow t).size = t.size ∧ (table_grow t).total_words = t.total_words := by
  have hcap2 : (List.replicate (t.capacity * 2) (none : Option Entry)).length = 2 ^ (k + 1) := by
    rw [List.length_replicate, hcap, pow_succ]
  have hbound : ((List.replicate (t.capacity * 2) (none : Option Entry)).filterMap id).length
      + (t.entries.filterMap id).length
      ≤ (List.replicate (t.capacity * 2) (none : Option Entry)).length := by
    rw [replicate_none_live, List.length_replicate]
    have := List.length_filterMap_le id t.entries
    have : t.entries.length ≤ t.capacity * 2 := by
      rw [ThreadTable.capacity]; omega
    simp only [List.length_nil, Nat.zero_add]
    omega
  obtain ⟨hlen, hperm, hpath⟩ := grow_fold t.entries _ (k + 1) hcap2 hbound
    (replicate_none_path _)
  refine ⟨?_, ?_, hpath, rfl, rfl⟩
  · show (table_grow t).entries.length = 2 * t.capacity
    rw [table_grow] at *
    simp only at hlen ⊢
    rw [hlen, List.length_replicate]
    omega
  · show ((table_grow t).entries.filterMap id).Perm (t.entries.filterMap id)
    rw [table_grow]
    simp only at hperm ⊢
    refine hperm.trans ?_
    rw [replicate_none_live]
    simp

/-- Inserting a fresh entry at the free slot its probe found preserves the
probe-path invariant. -/
theorem set_free_path (l : List (Option Entry)) (e : Entry) (i j0 : Nat)
    (hlen : 0 < l.length)
    (hres1 : i = (e.hash % l.length + j0) % l.length) (hj0 : j0 < l.length)
    (hpathj : ∀ j' < j0, occupiedAt l ((e.hash % l.length + j') % l.length))
    (hpath : pathOk l) : pathOk (l.set i (some e)) := by
  have hhlt : e.hash % l.length < l.length := Nat.mod_lt _ hlen
  have hil : i < l.length := by rw [hres1]; exact Nat.mod_lt _ hlen
  intro s' e' hs' jj hjj
  simp only [List.length_set] at hjj ⊢
  by_cases hsi : s' = i
  · subst hsi
    rw [List.get?_eq_getElem?, List.getElem?_set_self hil] at hs'
    have he' : e = e' := by simpa using hs'
    subst he'
    rw [hres1, probe_dist_eq l.length (e.hash % l.length) j0 hhlt hj0] at hjj
    exact occupiedAt_set _ _ (hpathj jj hjj)
  · rw [List.get?_eq_getElem?, List.getElem?_set_ne (fun h => hsi h.symm),
      ← List.get?_eq_getElem?] at hs'
    exact occupiedAt_set _ _ (hpath s' e' hs' jj hjj)

/-- Replacing a live entry by one with the same hash preserves the
probe-path invariant. -/
theorem set_bump_path (l : List (Option Entry)) (i : Nat) (e e' : Entry)
    (hhash : e'.hash = e.hash)
    (hget : l.get? i = some (some e)) (hpath : pathOk l) :
    pathOk (l.set i (some e')) := by
  have hil : i < l.length := by
    by_contra hge
    rw [List.get?_eq_getElem?, List.getElem?_eq_none (by omega)] at hget
    exact absurd hget (by simp)
  intro s' e2 hs' jj hjj
  simp only [List.length_set] at hjj ⊢
  by_cases hsi : s' = i
  · subst hsi
    rw [List.get?_eq_getElem?, List.getElem?_set_self hil] at hs'
    have he2 : e' = e2 := by simpa using hs'
    subst he2
    rw [hhash] at hjj ⊢
    exact occupiedAt_set _ _ (hpath s' e hget jj hjj)
  · rw [List.get?_eq_getElem?, List.getElem?_set_ne (fun h => hsi h.symm),
      ← List.get?_eq_getElem?] at hs'
    exact occupiedAt_set _ _ (hpath s' e2 hs' jj hjj)

/-- Wellformedness the engine maintains for every table: power-of-two
capacity of at least 2, `size` counting the live entries, occupancy at
most 70%, and the linear-probing path invariant. -/
structure TableWF (t : ThreadTable) : Prop where
  pow2 : ∃ k, t.capacity = 2 ^ k
  cap_two : 2 ≤ t.capacity
  size_live : t.size = t.live.length
  load : t.size * 10 ≤ t.capacity * 7
  path : pathOk t.entries

theorem initTable_wf (k : Nat) (hk : 1 ≤ k) : TableWF (initTable (2 ^ k)) := by
  refine ⟨⟨k, by simp [initTable, ThreadTable.capacity]⟩, ?_, ?_, ?_, ?_⟩
  · show 2 ≤ (initTable (2 ^ k)).entries.length
    simp only [initTable, List.length_replicate]
    calc 2 = 2 ^ 1 := rfl
    _ ≤ 2 ^ k := Nat.pow_le_pow_right (by omega) hk
  · show 0 = ((initTable (2 ^ k)).entries.filterMap id).length
    simp [initTable, replicate_none_live]
  · simp [initTable]
  · exact replicate_none_path _

/-- Effect of a valid insertion on a wellformed table: wellformedness is
preserved, `total_words` increments, and the live entries either gain a
fresh count-1 entry (size up by one) or have one matching entry's count
incremented (size unchanged). -/
theorem insert_valid_effects (t : ThreadTable) (h : TableWF t) (word : List Nat)
    (len hash fp : Nat) (hlen : ¬(len = 0 ∨ MAX_WORD ≤ len)) :
    TableWF (table_insert_hashed t word len hash fp) ∧
    (table_insert_hashed t word len hash fp).total_words = t.total_words + 1 ∧
    ∃ live' : List Entry, ((table_insert_hashed t word len hash fp).live).Perm live' ∧
      ((live' = mkEntry word len hash fp :: t.live ∧
        (table_insert_hashed t word len hash fp).size = t.size + 1) ∨
       (∃ e l1 l2, t.live = l1 ++ e :: l2 ∧ entryMatches hash len fp word e = true ∧
         live' = l1 ++ { e with count := (e.count + 1) % 2 ^ 32 } :: l2 ∧
         (table_insert_hashed t word len hash fp).size = t.size)) := by
  obtain ⟨k, hk⟩ := h.pow2
  have hk' : t.entries.length = 2 ^ k := hk
  have hcappos : 0 < t.entries.length := by
    have := h.cap_two
    rw [ThreadTable.capacity] at this
    omega
  have hstart : hash &&& (t.capacity - 1) = hash % t.entries.length := by
    rw [show t.capacity = t.entries.length from rfl, hk', Nat.and_pow_two_sub_one_eq_mod]
  have hstartlt : hash % t.entries.length < t.entries.length := Nat.mod_lt _ hcappos
  have hfree : (t.entries.filterMap id).length < t.entries.length := by
    have h1 := h.size_live
    have h2 := h.load
    rw [ThreadTable.capacity] at h2
    rw [ThreadTable.live] at h1
    omega
  obtain ⟨sfr, hsfr, hsfrnone⟩ := exists_free_slot t.entries hfree
  obtain ⟨jf, hjf, hjfs⟩ :=
    exists_probe_index t.entries.length (hash % t.entries.length) sfr hstartlt hsfr
  have hne : probeSeek t.entries (entryMatches hash len fp word) t.capacity
      (hash % t.entries.length) ≠ none :=
    probeSeek_ne_none t.entries _ t.capacity _ hstartlt
      ⟨jf, hjf, by rw [hjfs]; exact hsfrnone⟩
  rcases hps : probeSeek t.entries (entryMatches hash len fp word) t.capacity
      (hash % t.entries.length) with _ | res
  · exact absurd hps hne
  obtain ⟨ri, rr⟩ := res
  obtain ⟨j0, hj0', hres1, hpathj, hfound⟩ :=
    probeSeek_some_char t.entries _ t.capacity _ hstartlt _ hps
  have hj0 : j0 < t.entries.length := lt_of_lt_of_le hj0' (by rw [ThreadTable.capacity])
  simp only at hres1 hfound
  have hins : table_insert_hashed t word len hash fp
      = applyProbe t word len hash fp (ri, rr) := by
    rw [table_insert_hashed, if_neg hlen,
      probeFind_eq_probeSeek t.entries (entryMatches hash len fp word) k hk', hstart, hps]
  have hrilt : ri < t.entries.length := by rw [hres1]; exact Nat.mod_lt _ hcappos
  rcases hfound with ⟨hrnone, hrfree⟩ | ⟨e, hre, hrget, hpe⟩
  · -- free-slot case: fresh entry
    subst hrnone
    obtain ⟨l1, l2, hdec1, hdec2⟩ :=
      filterMap_set_free t.entries ri (mkEntry word len hash fp) hrfree
    have happly : applyProbe t word len hash fp (ri, none)
        = afterInsertGrow
            { entries := t.entries.set ri (some (mkEntry word len hash fp)),
              size := t.size + 1, total_words := t.total_words + 1 } := rfl
    set t1 : ThreadTable :=
      { entries := t.entries.set ri (some (mkEntry word len hash fp)),
        size := t.size + 1, total_words := t.total_words + 1 } with ht1
    have ht1cap : t1.capacity = t.capacity := by
      show (t.entries.set ri _).length = t.entries.length
      exact List.length_set t.entries _ _
    have ht1live : t1.live = l1 ++ mkEntry word len hash fp :: l2 := hdec2
    have ht1livelen : t1.live.length = t.live.length + 1 := by
      rw [ht1live, show t.live = l1 ++ l2 from hdec1]
      simp
      omega
    have ht1perm : t1.live.Perm (mkEntry word len hash fp :: t.live) := by
      rw [ht1live, show t.live = l1 ++ l2 from hdec1]
      exact List.perm_middle
    have ht1path : pathOk t1.entries := by
      refine set_free_path t.entries (mkEntry word len hash fp) ri j0 hcappos ?_ hj0
        (fun j' hj' => ?_) h.path
      · exact hres1
      · obtain ⟨e2, h2, _⟩ := hpathj j' hj'
        exact ⟨e2, h2⟩
    have ht1size : t1.size = t.size + 1 := rfl
    have ht1tot : t1.total_words = t.total_words + 1 := rfl
    have ht1sl : t1.size = t1.live.length := by
      rw [ht1size, ht1livelen, h.size_live]
    rw [hins, happly, afterInsertGrow]
    by_cases hgrow : t1.capacity * 7 < t1.size * 10
    · rw [if_pos hgrow]
      obtain ⟨hgcap, hgperm, hgpath, hgsize, hgtot⟩ :=
        table_grow_props t1 k (by rw [ht1cap, hk])
      refine ⟨⟨⟨k + 1, by rw [hgcap, ht1cap, hk, pow_succ, Nat.mul_comm]⟩, ?_, ?_, ?_, hgpath⟩,
        ?_, mkEntry word len hash fp :: t.live, hgperm.trans ht1perm, Or.inl ⟨rfl, ?_⟩⟩
      · rw [hgcap, ht1cap]
        have := h.cap_two
        omega
      · rw [hgsize, hgperm.length_eq, ht1sl]
      · rw [hgsize, hgcap, ht1cap, ht1size]
        have := h.load
        have := h.cap_two
        omega
      · rw [hgtot, ht1tot]
      · rw [hgsize, ht1size]
    · rw [if_neg hgrow]
      refine ⟨⟨⟨k, by rw [ht1cap, hk]⟩, ?_, ht1sl, by omega, ht1path⟩,
        ht1tot, mkEntry word len hash fp :: t.live, ht1perm, Or.inl ⟨rfl, ht1size⟩⟩
      rw [ht1cap]
      exact h.cap_two
  · -- match case: increment
    subst hre
    obtain ⟨l1, l2, hdec1, hdec2⟩ :=
      filterMap_set_bump t.entries ri e { e with count := (e.count + 1) % 2 ^ 32 } hrget
    have happly : applyProbe t word len hash fp (ri, some e)
        = { entries := t.entries.set ri (some { e with count := (e.count + 1) % 2 ^ 32 }),
            size := t.size, total_words := t.total_words + 1 } := rfl
    rw [hins, happly]
    refine ⟨⟨⟨k, by simpa [ThreadTable.capacity] using hk⟩, ?_, ?_, ?_, ?_⟩, rfl,
      l1 ++ { e with count := (e.count + 1) % 2 ^ 32 } :: l2, ?_,
      Or.inr ⟨e, l1, l2, hdec1, hpe, rfl, rfl⟩⟩
    · show 2 ≤ (t.entries.set ri _).length
      rw [List.length_set]
      exact h.cap_two
    · show t.size = ((t.entries.set ri _).filterMap id).length
      rw [hdec2, h.size_live, ThreadTable.live, hdec1]
      simp
    · show t.size * 10 ≤ (t.entries.set ri _).length * 7
      rw [List.length_set]
      exact h.load
    · exact set_bump_path t.entries ri e _ rfl hrget h.path
    · show ((t.entries.set ri
        (some { e with count := (e.count + 1) % 2 ^ 32 })).filterMap id).Perm _
      rw [hdec2]

/-- A rejected word (`len == 0 || len >= MAX_WORD`) leaves the table
untouched. -/
theorem insert_invalid (t : ThreadTable) (word : List Nat) (len hash fp : Nat)
    (hlen : len = 0 ∨ MAX_WORD ≤ len) :
    table_insert_hashed t word len hash fp = t := by
  rw [table_insert_hashed, if_pos hlen]

theorem insert_wf (t : ThreadTable) (h : TableWF t) (word : List Nat)
    (len hash fp : Nat) : TableWF (table_insert_hashed t word len hash fp) := by
  by_cases hlen : len = 0 ∨ MAX_WORD ≤ len
  · rw [insert_invalid t word len hash fp hlen]; exact h
  · exact (insert_valid_effects t h word len hash fp hlen).1

theorem insert_total (t : ThreadTable) (h : TableWF t) (word : List Nat)
    (len hash fp : Nat) (hlen : ¬(len = 0 ∨ MAX_WORD ≤ len)) :
    (table_insert_hashed t word len hash fp).total_words = t.total_words + 1 :=
  (insert_valid_effects t h word len hash fp hlen).2.1

theorem insert_sum (t : ThreadTable) (h : TableWF t) (word : List Nat)
    (len hash fp : Nat) (hlen : ¬(len = 0 ∨ MAX_WORD ≤ len))
    (hbound : t.sumCounts + 1 < 2 ^ 32) :
    (table_insert_hashed t word len hash fp).sumCounts = t.sumCounts + 1 := by
  obtain ⟨-, -, live', hperm, hcase⟩ := insert_valid_effects t h word len hash fp hlen
  have hsum : (table_insert_hashed t word len hash fp).sumCounts
      = (live'.map Entry.count).sum := by
    rw [ThreadTable.sumCounts]
    exact (hperm.map Entry.count).sum_eq
  rcases hcase with ⟨hlive, -⟩ | ⟨e, l1, l2, hdec, -, hlive, -⟩
  · rw [hsum, hlive, List.map_cons, List.sum_cons, ThreadTable.sumCounts]
    show 1 + _ = _ + 1
    omega
  · -- the matched entry's count is bounded by the table's count sum, so
    -- the uint32 increment does not wrap here
    rw [hsum, hlive, ThreadTable.sumCounts, hdec]
    rw [ThreadTable.sumCounts, hdec] at hbound
    simp at hbound ⊢
    omega

/-- Any entry property closed under count increments and true of the
inserted entry survives `table_insert_hashed`. -/
theorem insert_preserves_pred (Q : Entry → Prop)
    (hbump : ∀ e, Q e → Q { e with count := (e.count + 1) % 2 ^ 32 })
    (t : ThreadTable) (h : TableWF t) (word : List Nat) (len hash fp : Nat)
    (hQt : ∀ x ∈ t.live, Q x) (hQnew : Q (mkEntry word len hash fp)) :
    ∀ x ∈ (table_insert_hashed t word len hash fp).live, Q x := by
  by_cases hlen : len = 0 ∨ MAX_WORD ≤ len
  · rw [insert_invalid t word len hash fp hlen]; exact hQt
  · obtain ⟨-, -, live', hperm, hcase⟩ := insert_valid_effects t h word len hash fp hlen
    intro x hx
    have hx' : x ∈ live' := hperm.mem_iff.mp hx
    rcases hcase with ⟨hlive, -⟩ | ⟨e, l1, l2, hdec, -, hlive, -⟩
    · rw [hlive] at hx'
      rcases List.mem_cons.mp hx' with rfl | hx'
      · exact hQnew
      · exact hQt x hx'
    · rw [hlive] at hx'
      rcases List.mem_append.mp hx' with hx' | hx'
      · exact hQt x (by rw [hdec]; exact List.mem_append_left _ hx')
      · rcases List.mem_cons.mp hx' with rfl | hx'
        · refine hbump e (hQt e ?_)
          rw [hdec]
          exact List.mem_append_right _ (List.mem_cons_self _ _)
        · refine hQt x ?_
          rw [hdec]
          exact List.mem_append_right _ (List.mem_cons_of_mem _ hx')

/-- A valid token (nonempty, at most `MAX_WORD - 1` bytes) is never
rejected. -/
theorem token_len_ok {w : List Nat} (hne : w ≠ []) (hle : w.length ≤ MAX_WORD - 1) :
    ¬(w.length = 0 ∨ MAX_WORD ≤ w.length) := by
  have : 0 < w.length := List.length_pos.mpr hne
  rw [MAX_WORD] at *
  omega

theorem insertTokens_effects (ws : List (List Nat)) :
    ∀ t : ThreadTable, TableWF t →
    (∀ w ∈ ws, w ≠ [] ∧ w.length ≤ MAX_WORD - 1) →
    TableWF (insertTokens t ws) ∧
    (insertTokens t ws).total_words = t.total_words + ws.length ∧
    (t.sumCounts + ws.length < 2 ^ 32 →
      (insertTokens t ws).sumCounts = t.sumCounts + ws.length) := by
  induction ws with
  | nil => intro t h _; exact ⟨h, rfl, fun _ => rfl⟩
  | cons w ws ih =>
    intro t h hws
    have hw := hws w (List.mem_cons_self _ _)
    have hlen := token_len_ok hw.1 hw.2
    have hstep : insertTokens t (w :: ws) = insertTokens (insertToken t w) ws := rfl
    have hwf1 : TableWF (insertToken t w) := insert_wf t h _ _ _ _
    obtain ⟨hwf, htot, hsum⟩ := ih (insertToken t w) hwf1
      (fun x hx => hws x (List.mem_cons_of_mem _ hx))
    refine ⟨by rwa [hstep], ?_, ?_⟩
    · rw [hstep, htot, insertToken, insert_total t h _ _ _ _ hlen]
      simp [List.length_cons]
      omega
    · intro hb
      rw [List.length_cons] at hb
      have hs1 : (insertToken t w).sumCounts = t.sumCounts + 1 :=
        insert_sum t h _ _ _ _ hlen (by omega)
      rw [hstep, hsum (by rw [hs1]; omega), hs1, List.length_cons]
      omega

/-- The bit-smearing of `next_pow2` (lines 216-220): propagate every set
bit into all lower positions. -/
def smear64 (y : Nat) : Nat :=
  let y1 := y ||| (y >>> 1)
  let y2 := y1 ||| (y1 >>> 2)
  let y3 := y2 ||| (y2 >>> 4)
  let y4 := y3 ||| (y3 >>> 8)
  let y5 := y4 ||| (y4 >>> 16)
  y5 ||| (y5 >>> 32)

/-- `next_pow2` (lines 216-220). -/
def next_pow2 (x : Nat) : Nat :=
  if x ≤ 1 then 1 else smear64 (x - 1) + 1

theorem smear64_testBit (y : Nat) :
    ∀ i, (smear64 y).testBit i = true ↔ ∃ d, d < 64 ∧ y.testBit (i + d) = true := by
  have step : ∀ (a n : Nat),
      (∀ j, a.testBit j = true ↔ ∃ d, d < n ∧ y.testBit (j + d) = true) →
      ∀ j, (a ||| (a >>> n)).testBit j = true ↔
        ∃ d, d < n + n ∧ y.testBit (j + d) = true := by
    intro a n ha j
    rw [Nat.testBit_or, Nat.testBit_shiftRight]
    constructor
    · intro h
      rw [Bool.or_eq_true] at h
      rcases h with h | h
      · obtain ⟨d, hd, hbit⟩ := (ha j).mp h
        exact ⟨d, by omega, hbit⟩
      · obtain ⟨d, hd, hbit⟩ := (ha (n + j)).mp h
        refine ⟨n + d, by omega, ?_⟩
        rwa [show j + (n + d) = n + j + d by omega]
    · rintro ⟨d, hd, hbit⟩
      rw [Bool.or_eq_true]
      by_cases hdn : d < n
      · exact Or.inl ((ha j).mpr ⟨d, hdn, hbit⟩)
      · refine Or.inr ((ha (n + j)).mpr ⟨d - n, by omega, ?_⟩)
        rwa [show n + j + (d - n) = j + d by omega]
  have h0 : ∀ j, y.testBit j = true ↔ ∃ d, d < 1 ∧ y.testBit (j + d) = true := by
    intro j
    constructor
    · intro h; exact ⟨0, by omega, by simpa using h⟩
    · rintro ⟨d, hd, hbit⟩
      have : d = 0 := by omega
      subst this
      simpa using hbit
  have h1 := step y 1 h0
  have h2 := step _ 2 h1
  have h4 := step _ 4 h2
  have h8 := step _ 8 h4
  have h16 := step _ 16 h8
  have h32 := step _ 32 h16
  exact h32

theorem next_pow2_spec (x : Nat) (hx : x ≤ 2 ^ 63) :
    (∃ k, next_pow2 x = 2 ^ k) ∧ x ≤ next_pow2 x := by
  by_cases h1 : x ≤ 1
  · rw [next_pow2, if_pos h1]
    exact ⟨⟨0, rfl⟩, by omega⟩
  · rw [next_pow2, if_neg h1]
    set y := x - 1 with hy
    have hypos : 0 < y := by omega
    have hybound : y < 2 ^ 64 := by
      have : (2 : Nat) ^ 63 < 2 ^ 64 := by norm_num
      omega
    set m := Nat.size y with hm
    have hmpos : 0 < m := Nat.size_pos.mpr hypos
    have hm64 : m ≤ 64 := Nat.size_le.mpr hybound
    have hylt : y < 2 ^ m := Nat.lt_size_self y
    have hyge : 2 ^ (m - 1) ≤ y := Nat.lt_size.mp (by omega)
    have htop : y.testBit (m - 1) = true := by
      rw [Nat.testBit_to_div_mod]
      have hdiv : y / 2 ^ (m - 1) = 1 := by
        have h2 : y < 2 ^ (m - 1) * 2 := by
          rw [← pow_succ]
          have h3 : m - 1 + 1 = m := by omega
          rw [h3]
          exact hylt
        have hlo : 1 ≤ y / 2 ^ (m - 1) := (Nat.one_le_div_iff (by positivity)).mpr hyge
        have hhi : y / 2 ^ (m - 1) < 2 := Nat.div_lt_of_lt_mul h2
        omega
      rw [hdiv]
      decide
    have hsm : smear64 y = 2 ^ m - 1 := by
      apply Nat.eq_of_testBit_eq
      intro i
      rw [Nat.testBit_two_pow_sub_one]
      by_cases him : i < m
      · have hbit : (smear64 y).testBit i = true := by
          rw [smear64_testBit]
          refine ⟨m - 1 - i, by omega, ?_⟩
          rwa [show i + (m - 1 - i) = m - 1 by omega]
        rw [hbit]
        simp [him]
      · have hbit : ¬ (smear64 y).testBit i = true := by
          rw [smear64_testBit]
          rintro ⟨d, hd, hbit⟩
          have hlt2 : y < 2 ^ (i + d) := lt_of_lt_of_le hylt
            (Nat.pow_le_pow_right (by omega) (by omega))
          rw [Nat.testBit_lt_two_pow hlt2] at hbit
          exact absurd hbit (by simp)
        rw [Bool.not_eq_true] at hbit
        rw [hbit]
        simp [him]
    rw [hsm]
    have hpow : 2 ^ m - 1 + 1 = 2 ^ m := by
      have : (1 : Nat) ≤ 2 ^ m := Nat.one_le_two_pow
      omega
    rw [hpow]
    exact ⟨⟨m, rfl⟩, by omega⟩

/-- One source entry merged into the global table (lines 732-749): probe
from `hash & (global_cap - 1)`; a full match accumulates the source count
into the `uint32_t` counter, wrapping modulo `2^32`; a free slot receives
the whole source entry.  (On a full, matchless table the C loop would not
terminate; the invariants exclude it and the model returns the table
unchanged there.) -/
def mergeStep (g : ThreadTable) (e : Entry) : ThreadTable :=
  match probeFind g.entries (entryMatches e.hash e.len e.fp16 e.word) g.capacity
      (e.hash &&& (g.capacity - 1)) with
  | some (idx, none) =>
    { entries := g.entries.set idx (some e), size := g.size + 1,
      total_words := g.total_words }
  | some (idx, some ge) =>
    { entries := g.entries.set idx (some { ge with count := (ge.count + e.count) % 2 ^ 32 }),
      size := g.size, total_words := g.total_words }
  | none => g

/-- `merge_tables` (lines 718-753): a fresh global table of capacity
`next_pow2(2 * Σ sizes)`, total words summed over the sources, every live
source entry merged in slot order, source tables in list order. -/
def merge_tables (ts : List ThreadTable) : ThreadTable :=
  ts.foldl
    (fun g t => t.entries.foldl
      (fun g oe => match oe with | none => g | some e => mergeStep g e) g)
    { entries := List.replicate (next_pow2 ((ts.map ThreadTable.size).sum * 2)) none,
      size := 0,
      total_words := (ts.map ThreadTable.total_words).sum }

/-- Every live entry sits in some slot. -/
theorem live_mem_slot {l : List (Option Entry)} {e : Entry}
    (h : e ∈ l.filterMap id) : ∃ s, l.get? s = some (some e) := by
  rcases List.mem_filterMap.mp h with ⟨oe, hmem, hid⟩
  have hoe : oe = some e := hid
  subst hoe
  exact List.get?_of_mem hmem

/-- Hash discipline of engine entries: the length field is the stored
length, and hash and fingerprint are the canonical functions of the
stored bytes. -/
def entryConsistent (e : Entry) : Prop :=
  e.len = e.word.length ∧ e.hash = incHash e.word ∧ e.fp16 = fp16_of e.hash

/-- Between consistent entries the probe's hash/len/fp/memcmp test is
exactly word equality. -/
theorem matches_iff_word_eq {e ge : Entry} (he : entryConsistent e)
    (hge : entryConsistent ge) :
    entryMatches e.hash e.len e.fp16 e.word ge = true ↔ ge.word = e.word := by
  obtain ⟨hel, heh, hef⟩ := he
  obtain ⟨hgl, hgh, hgf⟩ := hge
  rw [entryMatches]
  simp only [Bool.and_eq_true, decide_eq_true_eq]
  constructor
  · rintro ⟨⟨⟨h1, h2⟩, h3⟩, h4⟩
    have hlen : ge.word.length = e.word.length := by rw [← hgl, ← hel, h2]
    rw [← List.take_length ge.word, ← List.take_length e.word, hlen, ← hel]
    exact h4
  · intro hw
    have h3 : ge.hash = e.hash := by rw [hgh, hw, heh]
    have h2 : ge.len = e.len := by rw [hgl, hw, hel]
    have h4 : ge.fp16 = e.fp16 := by rw [hgf, h3, hef]
    exact ⟨⟨⟨h3, h2⟩, h4⟩, by rw [hw]⟩

/-- Effect of merging one entry into a global table with spare room:
capacity, path invariant and total are preserved, and the live entries
either gain the entry (no live entry matched) or accumulate its count
onto the matching entry. -/
theorem mergeStep_effects (g : ThreadTable) (e : Entry) (k : Nat)
    (hcap : g.capacity = 2 ^ k)
    (hfree : (g.entries.filterMap id).length < g.capacity)
    (hpath : pathOk g.entries) :
    (mergeStep g e).capacity = g.capacity ∧
    pathOk (mergeStep g e).entries ∧
    (mergeStep g e).total_words = g.total_words ∧
    ∃ live' : List Entry, ((mergeStep g e).live).Perm live' ∧
      ((live' = e :: g.live ∧ (mergeStep g e).size = g.size + 1 ∧
        ∀ ge ∈ g.live, entryMatches e.hash e.len e.fp16 e.word ge = false) ∨
       (∃ ge l1 l2, g.live = l1 ++ ge :: l2 ∧
         entryMatches e.hash e.len e.fp16 e.word ge = true ∧
         live' = l1 ++ { ge with count := (ge.count + e.count) % 2 ^ 32 } :: l2 ∧
         (mergeStep g e).size = g.size)) := by
  have hk' : g.entries.length = 2 ^ k := hcap
  have hcappos : 0 < g.entries.length := by
    rw [hk']; positivity
  have hstart : e.hash &&& (g.capacity - 1) = e.hash % g.entries.length := by
    rw [show g.capacity = g.entries.length from rfl, hk', Nat.and_pow_two_sub_one_eq_mod]
  have hstartlt : e.hash % g.entries.length < g.entries.length := Nat.mod_lt _ hcappos
  obtain ⟨sfr, hsfr, hsfrnone⟩ := exists_free_slot g.entries hfree
  obtain ⟨jf, hjf, hjfs⟩ :=
    exists_probe_index g.entries.length (e.hash % g.entries.length) sfr hstartlt hsfr
  have hne : probeSeek g.entries (entryMatches e.hash e.len e.fp16 e.word) g.capacity
      (e.hash % g.entries.length) ≠ none :=
    probeSeek_ne_none g.entries _ g.capacity _ hstartlt
      ⟨jf, hjf, by rw [hjfs]; exact hsfrnone⟩
  rcases hps : probeSeek g.entries (entryMatches e.hash e.len e.fp16 e.word) g.capacity
      (e.hash % g.entries.length) with _ | res
  · exact absurd hps hne
  obtain ⟨ri, rr⟩ := res
  obtain ⟨j0, hj0', hres1, hpathj, hfound⟩ :=
    probeSeek_some_char g.entries _ g.capacity _ hstartlt _ hps
  have hj0 : j0 < g.entries.length := lt_of_lt_of_le hj0' (by rw [ThreadTable.capacity])
  simp only at hres1 hfound
  have hrilt : ri < g.entries.length := by rw [hres1]; exact Nat.mod_lt _ hcappos
  have hms : mergeStep g e
      = match (some (ri, rr) : Option (Nat × Option Entry)) with
        | some (idx, none) =>
          { entries := g.entries.set idx (some e), size := g.size + 1,
            total_words := g.total_words }
        | some (idx, some ge) =>
          ({ entries := g.entries.set idx
               (some { ge with count := (ge.count + e.count) % 2 ^ 32 }),
             size := g.size, total_words := g.total_words } : ThreadTable)
        | none => g := by
    rw [mergeStep,
      probeFind_eq_probeSeek g.entries (entryMatches e.hash e.len e.fp16 e.word) k hk',
      hstart, hps]
  rcases hfound with ⟨hrnone, hrfree⟩ | ⟨ge, hre, hrget, hpe⟩
  · -- free slot: no live entry matches (else the path invariant is broken)
    subst hrnone
    have hnomatch : ∀ x ∈ g.live, entryMatches e.hash e.len e.fp16 e.word x = false := by
      intro x hx
      by_contra hpx
      rw [Bool.not_eq_false] at hpx
      obtain ⟨s, hsget⟩ := live_mem_slot hx
      have hslt : s < g.entries.length := by
        by_contra hge2
        rw [List.get?_eq_getElem?, List.getElem?_eq_none (by omega)] at hsget
        exact absurd hsget (by simp)
      have hxhash : x.hash = e.hash := by
        rw [entryMatches] at hpx
        simp only [Bool.and_eq_true, decide_eq_true_eq] at hpx
        exact hpx.1.1.1
      obtain ⟨ds, hds, hdss⟩ :=
        exists_probe_index g.entries.length (e.hash % g.entries.length) s hstartlt hslt
      rcases Nat.lt_trichotomy ds j0 with hcm | hcm | hcm
      · obtain ⟨e2, h2, hp2⟩ := hpathj ds hcm
        rw [hdss, hsget] at h2
        have : e2 = x := by simpa using h2.symm
        subst this
        rw [hpx] at hp2
        exact absurd hp2 (by simp)
      · rw [← hcm, hdss] at hres1
        rw [hres1, hsget] at hrfree
        exact absurd hrfree (by simp)
      · have hdist : (s + g.entries.length - x.hash % g.entries.length)
            % g.entries.length = ds := by
          rw [hxhash, ← hdss,
            probe_dist_eq g.entries.length (e.hash % g.entries.length) ds hstartlt hds]
        have hocc := hpath s x hsget j0 (by rw [hdist]; exact hcm)
        rw [hxhash] at hocc
        obtain ⟨e3, h3⟩ := hocc
        rw [← hres1, hrfree] at h3
        exact absurd h3 (by simp)
    obtain ⟨l1, l2, hdec1, hdec2⟩ := filterMap_set_free g.entries ri e hrfree
    rw [hms]
    refine ⟨List.length_set _ _ _, ?_, rfl, e :: g.live, ?_, Or.inl ⟨rfl, rfl, hnomatch⟩⟩
    · exact set_free_path g.entries e ri j0 hcappos hres1 hj0
        (fun j' hj' => by
          obtain ⟨e2, h2, _⟩ := hpathj j' hj'
          exact ⟨e2, h2⟩) hpath
    · show ((g.entries.set ri (some e)).filterMap id).Perm _
      rw [hdec2, show g.live = l1 ++ l2 from hdec1]
      exact List.perm_middle
  · -- match: accumulate the source count
    subst hre
    obtain ⟨l1, l2, hdec1, hdec2⟩ :=
      filterMap_set_bump g.entries ri ge
        { ge with count := (ge.count + e.count) % 2 ^ 32 } hrget
    rw [hms]
    refine ⟨List.length_set _ _ _, ?_, rfl,
      l1 ++ { ge with count := (ge.count + e.count) % 2 ^ 32 } :: l2, ?_,
      Or.inr ⟨ge, l1, l2, hdec1, hpe, rfl, rfl⟩⟩
    · exact set_bump_path g.entries ri ge _ rfl hrget hpath
    · show ((g.entries.set ri
        (some { ge with count := (ge.count + e.count) % 2 ^ 32 })).filterMap
        id).Perm _
      rw [hdec2]

/-- Count stored for `w` in a list of entries. -/
def countIn (es : List Entry) (w : List Nat) : Nat :=
  ((es.filter (fun e => e.word = w)).map Entry.count).sum

theorem countOf_eq_countIn (t : ThreadTable) (w : List Nat) :
    t.countOf w = countIn t.live w := rfl

theorem countIn_perm {es es' : List Entry} (h : es.Perm es') (w : List Nat) :
    countIn es w = countIn es' w :=
  ((h.filter _).map Entry.count).sum_eq

theorem countIn_cons (e : Entry) (es : List Entry) (w : List Nat) :
    countIn (e :: es) w = (if e.word = w then e.count else 0) + countIn es w := by
  rw [countIn, countIn]
  by_cases hw : e.word = w
  · rw [List.filter_cons_of_pos (by simpa using hw)]
    simp [hw]
  · rw [List.filter_cons_of_neg (by simpa using hw)]
    simp [hw]

theorem countIn_append (es1 es2 : List Entry) (w : List Nat) :
    countIn (es1 ++ es2) w = countIn es1 w + countIn es2 w := by
  rw [countIn, countIn, countIn, List.filter_append, List.map_append, List.sum_append]

def sumIn (es : List Entry) : Nat := (es.map Entry.count).sum

theorem sumCounts_eq_sumIn (t : ThreadTable) : t.sumCounts = sumIn t.live := rfl

theorem sumIn_perm {es es' : List Entry} (h : es.Perm es') : sumIn es = sumIn es' :=
  (h.map Entry.count).sum_eq

theorem sumIn_cons (e : Entry) (es : List Entry) :
    sumIn (e :: es) = e.count + sumIn es := by
  rw [sumIn, sumIn, List.map_cons, List.sum_cons]

theorem sumIn_append (es1 es2 : List Entry) :
    sumIn (es1 ++ es2) = sumIn es1 + sumIn es2 := by
  rw [sumIn, sumIn, sumIn, List.map_append, List.sum_append]

/-- The words stored in a table, in slot order. -/
def ThreadTable.wordsOf (t : ThreadTable) : List (List Nat) := t.live.map Entry.word

theorem perm_toFinset {l l' : List (List Nat)} (h : l.Perm l') :
    l.toFinset = l'.toFinset := by
  ext x
  simp [List.mem_toFinset, h.mem_iff]

/-- The counts contributed for a word by a list of source entries, in
merge order. -/
def wordCounts (es : List Entry) (w : List Nat) : List Nat :=
  (es.filter (fun e => e.word = w)).map Entry.count

theorem countIn_eq_wordCounts (es : List Entry) (w : List Nat) :
    countIn es w = (wordCounts es w).sum := rfl

theorem wordCounts_cons (e : Entry) (es : List Entry) (w : List Nat) :
    wordCounts (e :: es) w
      = if e.word = w then e.count :: wordCounts es w else wordCounts es w := by
  rw [wordCounts, wordCounts]
  by_cases hw : e.word = w
  · rw [List.filter_cons_of_pos (by simpa using hw), List.map_cons, if_pos hw]
  · rw [List.filter_cons_of_neg (by simpa using hw), if_neg hw]

theorem wordCounts_perm {es es2 : List Entry} (h : es.Perm es2) (w : List Nat) :
    (wordCounts es w).Perm (wordCounts es2 w) :=
  (h.filter _).map Entry.count

/-- No entry stores the word: its stored count is zero. -/
theorem countIn_eq_zero {es : List Entry} {w : List Nat}
    (h : w ∉ es.map Entry.word) : countIn es w = 0 := by
  induction es with
  | nil => rfl
  | cons e es ih =>
    simp only [List.map_cons, List.mem_cons, not_or] at h
    rw [countIn_cons, if_neg (fun hw => h.1 hw.symm), ih h.2]

theorem countOf_eq_zero {g : ThreadTable} {w : List Nat}
    (h : w ∉ g.wordsOf) : g.countOf w = 0 := by
  rw [countOf_eq_countIn]
  exact countIn_eq_zero h

/-- The stored count one word accumulates across the merge: the first
source count is copied verbatim into the fresh global slot, and every
later one is folded in with the `uint32_t` wrap of `mergeStep`. -/
def mergeCount : Option Nat → List Nat → Nat
  | acc, [] => acc.getD 0
  | none, c :: cs => mergeCount (some c) cs
  | some a, c :: cs => mergeCount (some ((a + c) % 2 ^ 32)) cs

theorem mergeCount_none_cons (c : Nat) (cs : List Nat) :
    mergeCount none (c :: cs) = mergeCount (some c) cs := rfl

theorem mergeCount_some_cons (a c : Nat) (cs : List Nat) :
    mergeCount (some a) (c :: cs) = mergeCount (some ((a + c) % 2 ^ 32)) cs := rfl

/-- With a seeded accumulator the wrap-adds collapse to a single final
reduction modulo `2^32` (for a nonempty tail). -/
theorem mergeCount_some (a : Nat) (cs : List Nat) :
    mergeCount (some a) cs = if cs = [] then a else (a + cs.sum) % 2 ^ 32 := by
  induction cs generalizing a with
  | nil => rfl
  | cons c cs ih =>
    rw [mergeCount, ih]
    by_cases h : cs = []
    · subst h
      simp
    · rw [if_neg h, if_neg (by simp), List.sum_cons, Nat.mod_add_mod]
      congr 1
      omega

/-- A single source occurrence is copied verbatim (even if it is already
`≥ 2^32` it is not reduced); two or more are summed modulo `2^32`. -/
theorem mergeCount_none (cs : List Nat) :
    mergeCount none cs = if cs.length ≤ 1 then cs.sum else cs.sum % 2 ^ 32 := by
  cases cs with
  | nil => rfl
  | cons c cs =>
    rw [mergeCount, mergeCount_some]
    cases cs with
    | nil => simp
    | cons d ds =>
      rw [if_neg (by simp),
        if_neg (by rw [List.length_cons, List.length_cons]; omega)]
      simp [List.sum_cons]

/-- The merged count of a word depends only on the multiset of source
counts, not on their order. -/
theorem mergeCount_perm {cs cs2 : List Nat} (h : cs.Perm cs2) :
    mergeCount none cs = mergeCount none cs2 := by
  rw [mergeCount_none, mergeCount_none, h.length_eq, h.sum_eq]

/-- Merging a list of entries in order (the flattened slot loops of
`merge_tables`). -/
def mergeFold (g : ThreadTable) (es : List Entry) : ThreadTable := es.foldl mergeStep g

/-- Skipping empty slots while folding is folding over the live entries. -/
theorem foldl_entries_eq_live (l : List (Option Entry)) :
    ∀ g : ThreadTable,
    l.foldl (fun g oe => match oe with | none => g | some e => mergeStep g e) g
      = (l.filterMap id).foldl mergeStep g := by
  induction l with
  | nil => intro g; rfl
  | cons oe tl ih =>
    intro g
    cases oe with
    | none => rw [List.foldl_cons, List.filterMap_cons_none rfl]; exact ih g
    | some e =>
      rw [List.foldl_cons, List.filterMap_cons_some (f := id) rfl, List.foldl_cons]
      exact ih (mergeStep g e)

theorem merge_tables_eq_mergeFold (ts : List ThreadTable) :
    merge_tables ts = mergeFold
      { entries := List.replicate (next_pow2 ((ts.map ThreadTable.size).sum * 2)) none,
        size := 0,
        total_words := (ts.map ThreadTable.total_words).sum }
      ((ts.map ThreadTable.live).flatten) := by
  rw [merge_tables, mergeFold]
  generalize ({ entries := _, size := 0, total_words := _ } : ThreadTable) = g0
  induction ts generalizing g0 with
  | nil => rfl
  | cons t ts ih =>
    rw [List.foldl_cons, List.map_cons, List.flatten_cons, List.foldl_append,
      foldl_entries_eq_live]
    exact ih _

/-- Cumulative effect of merging a list of consistent entries into a
wellformed global table with room for all of them. -/
theorem mergeFold_effects (es : List Entry) :
    ∀ (g : ThreadTable) (k : Nat), g.capacity = 2 ^ k →
    g.live.length + es.length ≤ g.capacity →
    pathOk g.entries →
    g.size = g.live.length →
    (∀ x ∈ g.live, entryConsistent x) →
    (∀ x ∈ es, entryConsistent x) →
    g.wordsOf.Nodup →
    (mergeFold g es).capacity = g.capacity ∧
    pathOk (mergeFold g es).entries ∧
    (mergeFold g es).total_words = g.total_words ∧
    (g.sumCounts + sumIn es < 2 ^ 32 →
      (mergeFold g es).sumCounts = g.sumCounts + sumIn es) ∧
    (∀ w, (mergeFold g es).countOf w
      = mergeCount (if w ∈ g.wordsOf then some (g.countOf w) else none)
          (wordCounts es w)) ∧
    (mergeFold g es).size = (mergeFold g es).live.length ∧
    (∀ x ∈ (mergeFold g es).live, entryConsistent x) ∧
    (mergeFold g es).wordsOf.Nodup ∧
    (mergeFold g es).wordsOf.toFinset
      = g.wordsOf.toFinset ∪ (es.map Entry.word).toFinset := by
  induction es with
  | nil =>
    intro g k hcap hroom hpath hsl hconsg _ hnodup
    refine ⟨rfl, hpath, rfl, fun _ => by simp [mergeFold, sumIn], ?_,
      hsl, hconsg, hnodup, by simp [mergeFold]⟩
    intro w
    show g.countOf w = _
    by_cases hw : w ∈ g.wordsOf
    · rw [if_pos hw, wordCounts, List.filter_nil, List.map_nil]
      rfl
    · rw [if_neg hw, wordCounts, List.filter_nil, List.map_nil, countOf_eq_zero hw]
      rfl
  | cons e rest ih =>
    intro g k hcap hroom hpath hsl hconsg hconses hnodup
    have hfree : (g.entries.filterMap id).length < g.capacity := by
      have : g.live.length < g.capacity := by
        rw [List.length_cons] at hroom
        omega
      exact this
    have hecons : entryConsistent e := hconses e (List.mem_cons_self _ _)
    obtain ⟨hcap1, hpath1, htot1, live', hperm, hcase⟩ :=
      mergeStep_effects g e k hcap hfree hpath
    have hstep : mergeFold g (e :: rest) = mergeFold (mergeStep g e) rest := rfl
    have hlive1 : (mergeStep g e).live.Perm live' := hperm
    rcases hcase with ⟨hl', hsize1, hnomatch⟩ | ⟨ge, l1, l2, hdec, hmat, hl', hsize1⟩
    · -- fresh word
      subst hl'
      have hwordnew : e.word ∉ g.wordsOf := by
        intro hmem
        rw [ThreadTable.wordsOf] at hmem
        obtain ⟨x, hx, hxw⟩ := List.mem_map.mp hmem
        have hmatx : entryMatches e.hash e.len e.fp16 e.word x = true :=
          (matches_iff_word_eq hecons (hconsg x hx)).mpr hxw
        rw [hnomatch x hx] at hmatx
        exact absurd hmatx (by simp)
      have hlen1 : (mergeStep g e).live.length = g.live.length + 1 := by
        rw [hperm.length_eq, List.length_cons]
      have hcap1' : (mergeStep g e).capacity = 2 ^ k := by rw [hcap1, hcap]
      have hroom1 : (mergeStep g e).live.length + rest.length ≤ (mergeStep g e).capacity := by
        rw [hlen1, hcap1]
        rw [List.length_cons] at hroom
        omega
      have hsl1 : (mergeStep g e).size = (mergeStep g e).live.length := by
        rw [hsize1, hlen1, hsl]
      have hconsg1 : ∀ x ∈ (mergeStep g e).live, entryConsistent x := by
        intro x hx
        rcases List.mem_cons.mp (hperm.mem_iff.mp hx) with rfl | hx2
        · exact hecons
        · exact hconsg x hx2
      have hnodup1 : (mergeStep g e).wordsOf.Nodup := by
        rw [ThreadTable.wordsOf, (hperm.map Entry.word).nodup_iff, List.map_cons,
          List.nodup_cons]
        exact ⟨hwordnew, hnodup⟩
      obtain ⟨ihcap, ihpath, ihtot, ihsum, ihcount, ihsl, ihcons, ihnodup, ihfin⟩ :=
        ih (mergeStep g e) k hcap1' hroom1 hpath1 hsl1 hconsg1
          (fun x hx => hconses x (List.mem_cons_of_mem _ hx)) hnodup1
      have hsum1 : (mergeStep g e).sumCounts = g.sumCounts + e.count := by
        rw [sumCounts_eq_sumIn, sumIn_perm hperm, sumCounts_eq_sumIn]
        simp [sumIn]
        omega
      have hcount1 : ∀ w, (mergeStep g e).countOf w
          = g.countOf w + (if e.word = w then e.count else 0) := by
        intro w
        rw [countOf_eq_countIn, countIn_perm hperm, countIn_cons, countOf_eq_countIn]
        omega
      have hmem1 : ∀ v, v ∈ (mergeStep g e).wordsOf ↔ v = e.word ∨ v ∈ g.wordsOf := by
        intro v
        rw [ThreadTable.wordsOf, (hperm.map Entry.word).mem_iff, List.map_cons,
          List.mem_cons]
        exact Iff.rfl
      have hfin1 : (mergeStep g e).wordsOf.toFinset
          = insert e.word g.wordsOf.toFinset := by
        rw [ThreadTable.wordsOf, perm_toFinset (hperm.map Entry.word), List.map_cons,
          List.toFinset_cons]
        rfl
      refine ⟨by rw [hstep, ihcap, hcap1], by rw [hstep]; exact ihpath,
        by rw [hstep, ihtot, htot1], ?_, ?_, by rw [hstep]; exact ihsl,
        by rw [hstep]; exact ihcons, by rw [hstep]; exact ihnodup, ?_⟩
      · intro hb
        rw [sumIn_cons] at hb
        rw [hstep, ihsum (by rw [hsum1]; omega), hsum1, sumIn_cons]
        omega
      · intro w
        rw [hstep, ihcount w, wordCounts_cons]
        by_cases hw : e.word = w
        · have hwnew : w ∉ g.wordsOf := by rw [← hw]; exact hwordnew
          rw [if_pos hw, if_neg hwnew, if_pos ((hmem1 w).mpr (Or.inl hw.symm)),
            hcount1 w, if_pos hw, countOf_eq_zero hwnew, Nat.zero_add,
            mergeCount_none_cons]
        · rw [if_neg hw, hcount1 w, if_neg hw, Nat.add_zero]
          by_cases hmem : w ∈ g.wordsOf
          · rw [if_pos ((hmem1 w).mpr (Or.inr hmem)), if_pos hmem]
          · rw [if_neg (fun hx => ((hmem1 w).mp hx).elim (fun h1 => hw h1.symm) hmem),
              if_neg hmem]
      · rw [hstep, ihfin, hfin1, List.map_cons, List.toFinset_cons,
          Finset.insert_union, Finset.union_insert]
    · -- existing word: accumulate with the uint32 wrap
      subst hl'
      have hgemem : ge ∈ g.live := by
        rw [hdec]
        exact List.mem_append_right _ (List.mem_cons_self _ _)
      have hgecons : entryConsistent ge := hconsg ge hgemem
      have hgew : ge.word = e.word := (matches_iff_word_eq hecons hgecons).mp hmat
      have hbw : ({ ge with count := (ge.count + e.count) % 2 ^ 32 } : Entry).word
          = ge.word := rfl
      have hmapeq :
          (l1 ++ ({ ge with count := (ge.count + e.count) % 2 ^ 32 } : Entry) :: l2).map
          Entry.word = g.wordsOf := by
        rw [ThreadTable.wordsOf, hdec]
        simp
      have hlen1 : (mergeStep g e).live.length = g.live.length := by
        rw [hperm.length_eq, hdec]
        simp
      have hcap1' : (mergeStep g e).capacity = 2 ^ k := by rw [hcap1, hcap]
      have hroom1 : (mergeStep g e).live.length + rest.length ≤ (mergeStep g e).capacity := by
        rw [hlen1, hcap1]
        rw [List.length_cons] at hroom
        omega
      have hsl1 : (mergeStep g e).size = (mergeStep g e).live.length := by
        rw [hsize1, hlen1, hsl]
      have hconsg1 : ∀ x ∈ (mergeStep g e).live, entryConsistent x := by
        intro x hx
        rcases List.mem_append.mp (hperm.mem_iff.mp hx) with hx2 | hx2
        · exact hconsg x (by rw [hdec]; exact List.mem_append_left _ hx2)
        · rcases List.mem_cons.mp hx2 with rfl | hx3
          · exact ⟨hgecons.1, hgecons.2.1, hgecons.2.2⟩
          · exact hconsg x (by
              rw [hdec]
              exact List.mem_append_right _ (List.mem_cons_of_mem _ hx3))
      have hnodup1 : (mergeStep g e).wordsOf.Nodup := by
        rw [ThreadTable.wordsOf, (hperm.map Entry.word).nodup_iff, hmapeq]
        exact hnodup
      obtain ⟨ihcap, ihpath, ihtot, ihsum, ihcount, ihsl, ihcons, ihnodup, ihfin⟩ :=
        ih (mergeStep g e) k hcap1' hroom1 hpath1 hsl1 hconsg1
          (fun x hx => hconses x (List.mem_cons_of_mem _ hx)) hnodup1
      have hwords : g.wordsOf = l1.map Entry.word ++ ge.word :: l2.map Entry.word := by
        rw [ThreadTable.wordsOf, hdec]
        simp
      have hnd : (l1.map Entry.word ++ ge.word :: l2.map Entry.word).Nodup := by
        rw [← hwords]
        exact hnodup
      rw [List.nodup_append] at hnd
      have hge_l2 : ge.word ∉ l2.map Entry.word := (List.nodup_cons.mp hnd.2.1).1
      have hge_l1 : ge.word ∉ l1.map Entry.word :=
        fun hmem => hnd.2.2 hmem (List.mem_cons_self _ _)
      have hcl1 : countIn l1 e.word = 0 :=
        countIn_eq_zero (by rw [← hgew]; exact hge_l1)
      have hcl2 : countIn l2 e.word = 0 :=
        countIn_eq_zero (by rw [← hgew]; exact hge_l2)
      have hgcount : g.countOf e.word = ge.count := by
        rw [countOf_eq_countIn, hdec, countIn_append, countIn_cons, if_pos hgew,
          hcl1, hcl2]
        omega
      have hms_count : ∀ v, (mergeStep g e).countOf v
          = if e.word = v then (ge.count + e.count) % 2 ^ 32 else g.countOf v := by
        intro v
        rw [countOf_eq_countIn, countIn_perm hperm, countIn_append, countIn_cons]
        dsimp only
        by_cases hv : e.word = v
        · have h1 : countIn l1 v = 0 := by rw [← hv]; exact hcl1
          have h2 : countIn l2 v = 0 := by rw [← hv]; exact hcl2
          rw [if_pos hv, if_pos (show ge.word = v by rw [hgew, hv]), h1, h2]
          omega
        · rw [if_neg hv, if_neg (show ¬ge.word = v by rw [hgew]; exact hv),
            countOf_eq_countIn, hdec, countIn_append, countIn_cons,
            if_neg (show ¬ge.word = v by rw [hgew]; exact hv)]
      have hmem1 : ∀ v, v ∈ (mergeStep g e).wordsOf ↔ v ∈ g.wordsOf := by
        intro v
        rw [ThreadTable.wordsOf, (hperm.map Entry.word).mem_iff, hmapeq]
      have hfin1 : (mergeStep g e).wordsOf.toFinset = g.wordsOf.toFinset := by
        rw [ThreadTable.wordsOf, perm_toFinset (hperm.map Entry.word), hmapeq]
      have hewmem : e.word ∈ g.wordsOf.toFinset := by
        rw [List.mem_toFinset, ThreadTable.wordsOf]
        exact List.mem_map.mpr ⟨ge, hgemem, hgew⟩
      have hewmem2 : e.word ∈ g.wordsOf := by
        rw [ThreadTable.wordsOf]
        exact List.mem_map.mpr ⟨ge, hgemem, hgew⟩
      refine ⟨by rw [hstep, ihcap, hcap1], by rw [hstep]; exact ihpath,
        by rw [hstep, ihtot, htot1], ?_, ?_, by rw [hstep]; exact ihsl,
        by rw [hstep]; exact ihcons, by rw [hstep]; exact ihnodup, ?_⟩
      · intro hb
        rw [sumIn_cons] at hb
        have hgsum : g.sumCounts = sumIn l1 + (ge.count + sumIn l2) := by
          rw [sumCounts_eq_sumIn, hdec, sumIn_append, sumIn_cons]
        have hms_sum : (mergeStep g e).sumCounts
            = sumIn l1 + ((ge.count + e.count) % 2 ^ 32 + sumIn l2) := by
          rw [sumCounts_eq_sumIn, sumIn_perm hperm, sumIn_append, sumIn_cons]
        have hmod : (ge.count + e.count) % 2 ^ 32 = ge.count + e.count :=
          Nat.mod_eq_of_lt (by omega)
        have hsum1 : (mergeStep g e).sumCounts = g.sumCounts + e.count := by
          rw [hms_sum, hmod, hgsum]
          omega
        rw [hstep, ihsum (by rw [hsum1]; omega), hsum1, sumIn_cons]
        omega
      · intro w
        rw [hstep, ihcount w, wordCounts_cons]
        by_cases hw : e.word = w
        · have hwmem : w ∈ g.wordsOf := by rw [← hw]; exact hewmem2
          rw [if_pos hw, if_pos ((hmem1 w).mpr hwmem), if_pos hwmem, hms_count w,
            if_pos hw, ← hw, hgcount, mergeCount_some_cons]
        · rw [if_neg hw, hms_count w, if_neg hw]
          by_cases hmem : w ∈ g.wordsOf
          · rw [if_pos ((hmem1 w).mpr hmem), if_pos hmem]
          · rw [if_neg (fun hx => hmem ((hmem1 w).mp hx)), if_neg hmem]
      · rw [hstep, ihfin, hfin1, List.map_cons, List.toFinset_cons, Finset.union_insert,
          Finset.insert_eq_self.mpr (Finset.mem_union_left _ hewmem)]

/-! ## Partitioner (main, lines 802-813 and 845-856) -/

/-- The forward advance of an interior cut past a letter run
(lines 809-811): `while (c < file_size && is_ascii_letter(data[c])) c++;`. -/
def advanceCut (data : List Nat) (c : Nat) : Nat :=
  if h : c < data.length then
    if is_ascii_letter (data.get ⟨c, h⟩) then advanceCut data (c + 1) else c
  else c
termination_by data.length - c
decreasing_by
  omega

/-- The cut points (lines 803-813): `cuts[0] = 0`, `cuts[N] = L` (assigned
last, so it wins when `i = 0 = N`), and each interior cut advanced forward
from `i * (L / N)`. -/
def cuts (data : List Nat) (N i : Nat) : Nat :=
  if i = N then data.length
  else if i = 0 then 0
  else advanceCut data (i * (data.length / N))

/-- The work unit handed to worker `i` (lines 847-855): the byte range
`[cuts i, cuts (i+1))` and `drop_leading = 0`. -/
structure WorkUnit where
  start : Nat
  stop : Nat
  drop_leading : Bool
deriving DecidableEq

def unitFor (data : List Nat) (N i : Nat) : WorkUnit :=
  { start := cuts data N i, stop := cuts data N (i + 1), drop_leading := false }

/-- The byte span worker `i` processes. -/
def chunkOf (data : List Nat) (N i : Nat) : List Nat :=
  (data.drop (cuts data N i)).take (cuts data N (i + 1) - cuts data N i)

theorem advanceCut_ge (data : List Nat) : ∀ c, c ≤ advanceCut data c := by
  have key : ∀ n c, data.length - c ≤ n → c ≤ advanceCut data c := by
    intro n
    induction n with
    | zero =>
      intro c hc
      rw [advanceCut]
      split
      · next h => omega
      · exact le_rfl
    | succ n ih =>
      intro c hc
      rw [advanceCut]
      split
      · next h =>
        split
        · exact le_trans (by omega) (ih (c + 1) (by omega))
        · exact le_rfl
      · exact le_rfl
  exact fun c => key (data.length - c) c le_rfl

theorem advanceCut_le (data : List Nat) : ∀ c, c ≤ data.length →
    advanceCut data c ≤ data.length := by
  have key : ∀ n c, data.length - c ≤ n → c ≤ data.length →
      advanceCut data c ≤ data.length := by
    intro n
    induction n with
    | zero =>
      intro c hc hcl
      rw [advanceCut]
      split
      · next h => omega
      · exact hcl
    | succ n ih =>
      intro c hc hcl
      rw [advanceCut]
      split
      · next h =>
        split
        · exact ih (c + 1) (by omega) (by omega)
        · omega
      · exact hcl
  exact fun c hc => key (data.length - c) c le_rfl hc

/-- The advanced cut rests on a non-letter byte (or the buffer end). -/
theorem advanceCut_sep (data : List Nat) : ∀ c, c ≤ data.length →
    advanceCut data c = data.length ∨
    ∃ h : advanceCut data c < data.length,
      is_ascii_letter (data.get ⟨advanceCut data c, h⟩) = false := by
  have key : ∀ n c, data.length - c ≤ n → c ≤ data.length →
      advanceCut data c = data.length ∨
      ∃ h : advanceCut data c < data.length,
        is_ascii_letter (data.get ⟨advanceCut data c, h⟩) = false := by
    intro n
    induction n with
    | zero =>
      intro c hc hcl
      rw [advanceCut]
      split
      · next h => omega
      · next h => left; omega
    | succ n ih =>
      intro c hc hcl
      rw [advanceCut]
      split
      · next h =>
        split
        · exact ih (c + 1) (by omega) (by omega)
        · next hlet =>
          right
          exact ⟨h, by simpa using hlet⟩
      · next h => left; omega
  exact fun c hcl => key (data.length - c) c le_rfl hcl

/-- Every byte the advance skipped is a letter. -/
theorem advanceCut_skips (data : List Nat) : ∀ c p, c ≤ p → p < advanceCut data c →
    ∃ h : p < data.length, is_ascii_letter (data.get ⟨p, h⟩) = true := by
  have key : ∀ n c, data.length - c ≤ n → ∀ p, c ≤ p → p < advanceCut data c →
      ∃ h : p < data.length, is_ascii_letter (data.get ⟨p, h⟩) = true := by
    intro n
    induction n with
    | zero =>
      intro c hc p hcp hp
      rw [advanceCut] at hp
      split at hp
      · next h => omega
      · omega
    | succ n ih =>
      intro c hc p hcp hp
      rw [advanceCut] at hp
      split at hp
      · next h =>
        split at hp
        · next hlet =>
          by_cases hpc : p = c
          · subst hpc
            exact ⟨h, hlet⟩
          · exact ih (c + 1) (by omega) p (by omega) hp
        · omega
      · omega
  exact fun c p hcp hp => key (data.length - c) c le_rfl p hcp hp

/-- The advance is monotone in its start (within the buffer). -/
theorem advanceCut_mono (data : List Nat) (c1 c2 : Nat) (h12 : c1 ≤ c2)
    (h2 : c2 ≤ data.length) : advanceCut data c1 ≤ advanceCut data c2 := by
  by_contra hlt
  push_neg at hlt
  have ha2ge : c2 ≤ advanceCut data c2 := advanceCut_ge data c2
  have ha2le : advanceCut data c2 ≤ data.length := advanceCut_le data c2 h2
  obtain ⟨hplt, hlet⟩ := advanceCut_skips data c1 (advanceCut data c2)
    (by omega) hlt
  rcases advanceCut_sep data c2 h2 with h | ⟨h, hsep⟩
  · omega
  · rw [hlet] at hsep
    exact absurd hsep (by simp)

theorem cuts_zero (data : List Nat) (N : Nat) (hN : 0 < N) : cuts data N 0 = 0 := by
  rw [cuts, if_neg (by omega), if_pos rfl]

theorem cuts_last (data : List Nat) (N : Nat) : cuts data N N = data.length := by
  rw [cuts, if_pos rfl]

theorem naive_le (data : List Nat) (N i : Nat) (hi : i ≤ N) :
    i * (data.length / N) ≤ data.length := by
  calc i * (data.length / N) ≤ N * (data.length / N) :=
        Nat.mul_le_mul_right _ hi
  _ = data.length / N * N := Nat.mul_comm _ _
  _ ≤ data.length := Nat.div_mul_le_self _ _

theorem cuts_le_len (data : List Nat) (N i : Nat) (hi : i ≤ N) :
    cuts data N i ≤ data.length := by
  rw [cuts]
  split
  · exact le_rfl
  · split
    · omega
    · next hiN h0 =>
      exact advanceCut_le data _ (naive_le data N i hi)

theorem cuts_mono_succ (data : List Nat) (N i : Nat) (hi : i < N) :
    cuts data N i ≤ cuts data N (i + 1) := by
  by_cases h0 : i = 0
  · subst h0
    rw [cuts, if_neg (by omega), if_pos rfl]
    omega
  · rw [cuts, if_neg (by omega), if_neg h0]
    by_cases hN : i + 1 = N
    · rw [cuts, if_pos hN]
      exact advanceCut_le data _ (naive_le data N i (by omega))
    · rw [cuts, if_neg hN, if_neg (by omega)]
      exact advanceCut_mono data _ _ (Nat.mul_le_mul_right _ (by omega))
        (naive_le data N (i + 1) (by omega))

theorem mono_chain (c : Nat → Nat) (N : Nat) (h : ∀ i, i < N → c i ≤ c (i + 1)) :
    ∀ j, j ≤ N → ∀ i, i ≤ j → c i ≤ c j := by
  intro j
  induction j with
  | zero =>
    intro _ i hi
    have : i = 0 := by omega
    subst this
    exact le_rfl
  | succ j ihj =>
    intro hjN i hij
    by_cases hij' : i = j + 1
    · subst hij'
      exact le_rfl
    · exact le_trans (ihj (by omega) i (by omega)) (h j (by omega))

/-- Monotone cut points from 0 to the length slice the buffer exactly. -/
theorem slices_flatten : ∀ (N : Nat) (c : Nat → Nat) (data : List Nat),
    (∀ i, i < N → c i ≤ c (i + 1)) → c 0 = 0 → c N = data.length →
    ((List.range N).map (fun i => (data.drop (c i)).take (c (i + 1) - c i))).flatten
      = data := by
  intro N
  induction N with
  | zero =>
    intro c data _ h0 hN
    have : data.length = 0 := by omega
    rw [List.eq_nil_of_length_eq_zero this]
    rfl
  | succ N ih =>
    intro c data hmono h0 hN
    have hchain := mono_chain c (N + 1) hmono
    have hcN : c N ≤ data.length := by
      rw [← hN]
      exact hchain (N + 1) le_rfl N (by omega)
    rw [List.range_succ, List.map_append, List.flatten_append]
    have hih := ih c (data.take (c N)) (fun i hi => hmono i (by omega)) h0
      (by rw [List.length_take]; omega)
    have hmapeq : (List.range N).map
          (fun i => (((data.take (c N)).drop (c i))).take (c (i + 1) - c i))
        = (List.range N).map (fun i => (data.drop (c i)).take (c (i + 1) - c i)) := by
      apply List.map_congr_left
      intro i hi
      rw [List.mem_range] at hi
      have hci : c i ≤ c (i + 1) := hmono i (by omega)
      have hci1N : c (i + 1) ≤ c N := hchain N (by omega) (i + 1) (by omega)
      rw [List.take_drop, List.take_take]
      have hmin : min (c i + (c (i + 1) - c i)) (c N) = c i + (c (i + 1) - c i) := by
        omega
      rw [hmin, ← List.take_drop]
    rw [← hmapeq, hih]
    have hlast : (data.drop (c N)).take (c (N + 1) - c N) = data.drop (c N) := by
      apply List.take_of_length_le
      rw [List.length_drop]
      omega
    simp only [List.map_cons, List.map_nil, List.flatten_cons, List.flatten_nil,
      List.append_nil]
    rw [hlast, List.take_append_drop]

/-- The worker chunks tile the buffer exactly. -/
theorem chunks_cover (data : List Nat) (N : Nat) (hN : 0 < N) :
    ((List.range N).map (chunkOf data N)).flatten = data := by
  have := slices_flatten N (cuts data N) data
    (fun i hi => cuts_mono_succ data N i hi) (cuts_zero data N hN) (cuts_last data N)
  simpa [chunkOf] using this

theorem takeWhile_append_sep (B : List Nat)
    (hB : B = [] ∨ ∃ b bs, B = b :: bs ∧ is_ascii_letter b = false) :
    ∀ A : List Nat, (A ++ B).takeWhile is_ascii_letter = A.takeWhile is_ascii_letter := by
  intro A
  induction A with
  | nil =>
    rcases hB with rfl | ⟨b, bs, rfl, hb⟩
    · rfl
    · simp [List.takeWhile_cons, hb]
  | cons a A ih =>
    by_cases ha : is_ascii_letter a = true
    · rw [List.cons_append, List.takeWhile_cons_of_pos ha, List.takeWhile_cons_of_pos ha,
        ih]
    · rw [List.cons_append, List.takeWhile_cons_of_neg (by simp [ha]),
        List.takeWhile_cons_of_neg (by simp [ha])]

theorem dropWhile_append_sep (B : List Nat)
    (hB : B = [] ∨ ∃ b bs, B = b :: bs ∧ is_ascii_letter b = false) :
    ∀ A : List Nat, (A ++ B).dropWhile is_ascii_letter
      = A.dropWhile is_ascii_letter ++ B := by
  intro A
  induction A with
  | nil =>
    rcases hB with rfl | ⟨b, bs, rfl, hb⟩
    · rfl
    · simp [List.dropWhile_cons, hb]
  | cons a A ih =>
    by_cases ha : is_ascii_letter a = true
    · rw [List.cons_append, List.dropWhile_cons_of_pos ha, List.dropWhile_cons_of_pos ha,
        ih]
    · rw [List.cons_append, List.dropWhile_cons_of_neg (by simp [ha]),
        List.dropWhile_cons_of_neg (by simp [ha])]
      rfl

/-- Letter runs split across a boundary that does not begin mid-run. -/
theorem letterRuns_append (B : List Nat)
    (hB : B = [] ∨ ∃ b bs, B = b :: bs ∧ is_ascii_letter b = false) :
    ∀ A : List Nat, letterRuns (A ++ B) = letterRuns A ++ letterRuns B := by
  have key : ∀ n A, A.length ≤ n → letterRuns (A ++ B) = letterRuns A ++ letterRuns B := by
    intro n
    induction n with
    | zero =>
      intro A hA
      have : A = [] := List.eq_nil_of_length_eq_zero (by omega)
      subst this
      simp [letterRuns]
    | succ n ih =>
      intro A hA
      match A with
      | [] => simp [letterRuns]
      | a :: A =>
        by_cases ha : is_ascii_letter a = true
        · rw [List.cons_append, letterRuns]
          rw [if_pos ha, takeWhile_append_sep B hB, dropWhile_append_sep B hB]
          rw [ih (A.dropWhile is_ascii_letter)
            (le_trans (length_dropWhile_le _ _) (by simpa using hA))]
          rw [letterRuns, if_pos ha, List.cons_append]
        · rw [List.cons_append, letterRuns, if_neg ha,
            ih A (by simpa using hA), letterRuns, if_neg ha]
  exact fun A => key A.length A le_rfl

theorem flatten_sep (chunks : List (List Nat))
    (h : ∀ ch ∈ chunks, ch = [] ∨ ∃ b bs, ch = b :: bs ∧ is_ascii_letter b = false) :
    chunks.flatten = [] ∨
      ∃ b bs, chunks.flatten = b :: bs ∧ is_ascii_letter b = false := by
  induction chunks with
  | nil => exact Or.inl rfl
  | cons ch rest ih =>
    rcases h ch (List.mem_cons_self _ _) with rfl | ⟨b, bs, rfl, hb⟩
    · rw [List.flatten_cons, List.nil_append]
      exact ih (fun x hx => h x (List.mem_cons_of_mem _ hx))
    · rw [List.flatten_cons, List.cons_append]
      exact Or.inr ⟨b, bs ++ rest.flatten, rfl, hb⟩

/-- Letter runs of a tiling whose chunks (after the first) never begin
mid-run. -/
theorem letterRuns_flatten (chunks : List (List Nat))
    (hb : ∀ ch ∈ chunks.drop 1,
      ch = [] ∨ ∃ b bs, ch = b :: bs ∧ is_ascii_letter b = false) :
    letterRuns chunks.flatten = (chunks.map letterRuns).flatten := by
  induction chunks with
  | nil => simp [letterRuns]
  | cons ch rest ih =>
    have hrest : ∀ x ∈ rest, x = [] ∨ ∃ b bs, x = b :: bs ∧ is_ascii_letter b = false :=
      fun x hx => hb x (by simpa using hx)
    rw [List.flatten_cons, letterRuns_append rest.flatten (flatten_sep rest hrest),
      List.map_cons, List.flatten_cons]
    rw [ih (fun x hx => hrest x (by exact List.mem_of_mem_drop hx))]

/-! ## AVX-512 tokenizer (`process_chunk_avx512`, lines 499-689)

The 64-byte SIMD block loop classifies letters into a 64-bit mask,
extracts runs with count-trailing-zeros arithmetic, and falls back to the
scalar loop for the tail.  Masks are modelled bit-exactly on `Nat`:
64-bit complement is xor with `2^64 - 1` and `__builtin_ctzll` is the
trailing-zero count (the code only applies it to nonzero values). -/

/-- The per-byte letter test of the SIMD comparisons (lines 511-516):
unsigned byte arithmetic `b - 'A' < 26 || b - 'a' < 26`, masked by
`b < 0x80`. -/
def simdLetter (b : Nat) : Bool :=
  (decide ((b + 256 - 65) % 256 < 26) || decide ((b + 256 - 97) % 256 < 26))
    && decide (b < 128)

set_option maxRecDepth 4096 in
theorem simdLetter_eq {b : Nat} (hb : b < 256) : simdLetter b = is_ascii_letter b := by
  have key : ∀ b, b < 256 → simdLetter b = is_ascii_letter b := by decide
  exact key b hb

/-- Pack a list of bits, least significant first. -/
def maskOfBits : List Bool → Nat
  | [] => 0
  | b :: bs => (if b then 1 else 0) + 2 * maskOfBits bs

/-- The `letters` mask of one 64-byte block (line 516). -/
def lettersMask (blk : List Nat) : Nat := maskOfBits (blk.map simdLetter)

/-- 64-bit complement (`~` on `uint64_t`). -/
def compl64 (m : Nat) : Nat := m ^^^ (2 ^ 64 - 1)

def ctzFuel : Nat → Nat → Nat
  | 0, _ => 0
  | f + 1, m => if m % 2 = 1 then 0 else 1 + ctzFuel f (m / 2)

/-- `__builtin_ctzll`, total via 64 bits of fuel (returns 64 on zero,
which the code never passes). -/
def ctz64 (m : Nat) : Nat := ctzFuel 64 m

/-- The low `n` bits of a mask as a list, least significant first. -/
def bitsOfMask (m n : Nat) : List Bool := (List.range n).map m.testBit

theorem maskOfBits_lt : ∀ bs : List Bool, maskOfBits bs < 2 ^ bs.length := by
  intro bs
  induction bs with
  | nil => simp [maskOfBits]
  | cons b tl ih =>
    rw [maskOfBits, List.length_cons, pow_succ]
    have h2 : (if b then (1 : Nat) else 0) ≤ 1 := by
      cases b <;> simp
    omega

theorem maskOfBits_testBit : ∀ (bs : List Bool) (j : Nat),
    (maskOfBits bs).testBit j = bs.getD j false := by
  intro bs
  induction bs with
  | nil => intro j; simp [maskOfBits]
  | cons b tl ih =>
    intro j
    match j with
    | 0 =>
      rw [Nat.testBit_zero, maskOfBits]
      by_cases hb : b = true <;> simp [hb, Nat.add_mul_mod_self_left]
    | j + 1 =>
      rw [Nat.testBit_succ, maskOfBits]
      have hdiv : ((if b then 1 else 0) + 2 * maskOfBits tl) / 2 = maskOfBits tl := by
        have h2 : (if b then (1 : Nat) else 0) ≤ 1 := by
          cases b <;> simp
        omega
      rw [hdiv, ih, List.getD_cons_succ]

theorem maskOfBits_eq_zero_iff : ∀ bs : List Bool,
    maskOfBits bs = 0 ↔ ∀ b ∈ bs, b = false := by
  intro bs
  induction bs with
  | nil => simp [maskOfBits]
  | cons b tl ih =>
    constructor
    · intro h
      rw [maskOfBits] at h
      have hb : b = false := by
        by_contra hb
        have hb' : b = true := by simpa using hb
        rw [hb'] at h
        simp at h
      have htl : maskOfBits tl = 0 := by
        rw [hb] at h
        simp at h
        omega
      intro x hx
      rcases List.mem_cons.mp hx with rfl | hx2
      · exact hb
      · exact ih.mp htl x hx2
    · intro h
      have hb : b = false := h b (List.mem_cons_self _ _)
      have htl : maskOfBits tl = 0 := ih.mpr (fun x hx => h x (List.mem_cons_of_mem _ hx))
      rw [maskOfBits, hb, htl]
      simp

/-- The trailing-zero count of a nonzero value: all lower bits are clear
and the bit there is set. -/
theorem ctzFuel_spec : ∀ (f m : Nat), m ≠ 0 → m < 2 ^ f →
    m.testBit (ctzFuel f m) = true ∧ ∀ j < ctzFuel f m, m.testBit j = false := by
  intro f
  induction f with
  | zero =>
    intro m hm hlt
    simp only [pow_zero] at hlt
    omega
  | succ f ih =>
    intro m hm hlt
    rw [ctzFuel]
    by_cases hodd : m % 2 = 1
    · rw [if_pos hodd]
      constructor
      · rw [Nat.testBit_zero]
        simp [hodd]
      · omega
    · rw [if_neg hodd]
      have hm2 : m / 2 ≠ 0 := by omega
      have hm2lt : m / 2 < 2 ^ f := by
        rw [pow_succ] at hlt
        omega
      obtain ⟨h1, h2⟩ := ih (m / 2) hm2 hm2lt
      constructor
      · rw [Nat.add_comm 1 _, Nat.testBit_add_one]
        exact h1
      · intro j hj
        match j with
        | 0 =>
          rw [Nat.testBit_zero]
          simp
          omega
        | j + 1 =>
          rw [Nat.testBit_add_one]
          exact h2 j (by omega)

theorem ctz64_spec (m : Nat) (hm : m ≠ 0) (hlt : m < 2 ^ 64) :
    m.testBit (ctz64 m) = true ∧ ∀ j < ctz64 m, m.testBit j = false :=
  ctzFuel_spec 64 m hm hlt

theorem ctz64_lt (m : Nat) (hm : m ≠ 0) (hlt : m < 2 ^ 64) : ctz64 m < 64 := by
  obtain ⟨h1, _⟩ := ctz64_spec m hm hlt
  by_contra hge
  push_neg at hge
  have : m < 2 ^ ctz64 m :=
    lt_of_lt_of_le hlt (Nat.pow_le_pow_right (by omega) hge)
  rw [Nat.testBit_lt_two_pow this] at h1
  exact absurd h1 (by simp)

/-- The capped, lowercased append of one run's bytes into the word buffer
(lines 592-599): `for (k = 0; k < run_len && word_len < MAX_WORD - 1; k++)
word[word_len++] = src[k] | 0x20`. -/
def capAppend (w : List Nat) (src : List Nat) : List Nat :=
  w ++ (src.take (MAX_WORD - 1 - w.length)).map toLower

def flushTok (w : List Nat) : List (List Nat) := if w = [] then [] else [w]

/--
The run-extraction loop of the SIMD block (lines 570-625): while bits
remain in `m`, find the lowest run `[start, start+run_len)`, flush any
carried word if the run does not touch bit 0, append the run's bytes
(lowercased, capped), flush unless the run reaches bit 63 (which instead
sets `prev_tail_letter`), and clear the run from `m`.  The loop clears at
least one bit per iteration, so 64 iterations of fuel are exact for a
64-bit mask (`runLoop_spec` proves the loop correct with that fuel); in the `mask` computation the
`run_len == 0` branch of `(run_len ? (1ull << run_len) : 0ull) - 1` would
wrap in C but is unreachable because bit `start` of `m` is set.
-/
def runLoop (blk : List Nat) : Nat → Nat → List Nat → Bool →
    List (List Nat) × List Nat × Bool
  | 0, _, w, pt => ([], w, pt)
  | fuel + 1, m, w, pt =>
    if m = 0 then ([], w, pt)
    else
      let start := ctz64 m
      let tail := m >>> start
      let run_len := if compl64 tail = 0 then 64 - start else ctz64 (compl64 tail)
      let fl0 := 0 < start ∧ w ≠ []
      let toks0 : List (List Nat) := if fl0 then [w] else []
      let w0 : List Nat := if fl0 then [] else w
      let w1 := capAppend w0 ((blk.drop start).take run_len)
      let early := start + run_len < 64
      let toks1 : List (List Nat) := if early then flushTok w1 else []
      let w2 : List Nat := if early then [] else w1
      let pt1 : Bool := !early
      let mask := if 64 ≤ run_len then 2 ^ 64 - 1
        else ((if run_len = 0 then 0 else 2 ^ run_len) - 1) <<< start
      let res := runLoop blk fuel (m &&& compl64 mask) w2 pt1
      (toks0 ++ toks1 ++ res.1, res.2)

/--
One 64-byte SIMD block (lines 506-626): compute the letter mask, flush a
word carried from the previous block if this block starts with a
separator, handle `drop_leading` (skipping the whole block while it is all
letters), and extract runs; returns the emitted tokens and the new
`(drop_leading, word, prev_tail_letter)` state.
-/
def simdBlock (blk : List Nat) (drop : Bool) (w : List Nat) (pt : Bool) :
    List (List Nat) × Bool × List Nat × Bool :=
  let letters0 := lettersMask blk
  let flushA := pt = true ∧ letters0 &&& 1 = 0
  let toksA : List (List Nat) := if flushA then flushTok w else []
  let wA : List Nat := if flushA then [] else w
  let ptA : Bool := if flushA then false else pt
  if drop = true ∧ letters0 &&& 1 = 1 then
    if compl64 letters0 = 0 then
      (toksA, true, wA, ptA)
    else
      let lead := ctz64 (compl64 letters0)
      let letters1 := letters0 &&& ((2 ^ 64 - 1) <<< lead)
      (if letters1 = 0 then (toksA ++ flushTok wA, false, [], false)
       else
        let res := runLoop blk 64 letters1 wA ptA
        (toksA ++ res.1, false, res.2.1, res.2.2))
  else
    (if letters0 = 0 then (toksA ++ flushTok wA, false, [], false)
     else
      let res := runLoop blk 64 letters0 wA ptA
      (toksA ++ res.1, false, res.2.1, res.2.2))

/-- The block loop plus the scalar tail of `process_chunk_avx512`
(lines 506-685): 64-byte blocks while at least 64 bytes remain, then the
byte-at-a-time loop (identical to `process_chunk`) on the remainder with
the carried state. -/
def avxGo : List Nat → Bool → List Nat → Bool → List (List Nat)
  | data, drop, w, pt =>
    if _h : 64 ≤ data.length then
      let r := simdBlock (data.take 64) drop w pt
      r.1 ++ avxGo (data.drop 64) r.2.1 r.2.2.1 r.2.2.2
    else scalarLoop drop w data
termination_by data _ _ _ => data.length
decreasing_by
  rw [List.length_drop]
  omega

/-- `process_chunk_avx512` (lines 499-689, AVX-512 build), as the word
sequence it inserts. -/
def process_chunk_avx512 (data : List Nat) (drop : Bool) : List (List Nat) :=
  avxGo data drop [] false

/-- A non-letter byte at the head with an empty accumulator is skipped. -/
theorem simpleLoop_sep_nil {c : Nat} (Z : List Nat)
    (hc : is_ascii_letter c = false) :
    simpleLoop false [] (c :: Z) = simpleLoop false [] Z := by
  by_cases hge : 128 ≤ c <;> simp [simpleLoop, hc, hge]

/-- A non-letter byte at the head flushes a nonempty accumulator. -/
theorem simpleLoop_sep_flush {c : Nat} {w : List Nat} (Z : List Nat)
    (hc : is_ascii_letter c = false) (hw : w ≠ []) :
    simpleLoop false w (c :: Z) = w :: simpleLoop false [] Z := by
  by_cases hge : 128 ≤ c <;> simp [simpleLoop, hc, hge, hw]

/-- Combined form: the flush at a separator, without consuming the byte. -/
theorem simpleLoop_sep_flushTok {c : Nat} (w : List Nat) (Z : List Nat)
    (hc : is_ascii_letter c = false) :
    simpleLoop false w (c :: Z) = flushTok w ++ simpleLoop false [] (c :: Z) := by
  by_cases hw : w = []
  · subst hw; simp [flushTok]
  · rw [simpleLoop_sep_flush Z hc hw, simpleLoop_sep_nil Z hc, flushTok, if_neg hw,
      List.singleton_append]

/-- `drop_leading` is irrelevant once the head byte is a non-letter. -/
theorem simpleLoop_drop_sep {c : Nat} (w : List Nat) (Z : List Nat)
    (hc : is_ascii_letter c = false) :
    simpleLoop true w (c :: Z) = simpleLoop false w (c :: Z) := by
  by_cases hge : 128 ≤ c <;> by_cases hw : w = [] <;>
    simp [simpleLoop, hc, hge, hw]

/-- With `drop_leading` set, a prefix of letters is skipped outright. -/
theorem simpleLoop_drop_letters : ∀ (l : List Nat) (X : List Nat),
    (∀ b ∈ l, is_ascii_letter b = true) →
    simpleLoop true [] (l ++ X) = simpleLoop true [] X := by
  intro l
  induction l with
  | nil => intro X _; rfl
  | cons c l2 ih =>
    intro X hl
    have hc : is_ascii_letter c = true := hl c (by simp)
    rw [List.cons_append]
    have h1 : simpleLoop true [] (c :: (l2 ++ X)) = simpleLoop true [] (l2 ++ X) := by
      simp [simpleLoop, hc]
    rw [h1, ih X (fun b hb => hl b (by simp [hb]))]

/-- A block of letters is absorbed into the word buffer, capped. -/
theorem simpleLoop_letters_absorb : ∀ (l : List Nat) (w X : List Nat),
    (∀ b ∈ l, is_ascii_letter b = true) → w.length ≤ MAX_WORD - 1 →
    simpleLoop false w (l ++ X) = simpleLoop false (capAppend w l) X := by
  intro l
  induction l with
  | nil => intro w X _ _; simp [capAppend]
  | cons c l2 ih =>
    intro w X hl hw
    have hc : is_ascii_letter c = true := hl c (by simp)
    have hge : ¬ 128 ≤ c := letter_lt_128 hc
    rw [List.cons_append]
    by_cases hfit : w.length < MAX_WORD - 1
    · have h1 : simpleLoop false w (c :: (l2 ++ X))
          = simpleLoop false (w ++ [toLower c]) (l2 ++ X) := by
        simp [simpleLoop, hc, hge, hfit]
      rw [h1, ih (w ++ [toLower c]) X (fun b hb => hl b (by simp [hb]))
        (by simp only [List.length_append, List.length_singleton]; omega)]
      have heq : capAppend (w ++ [toLower c]) l2 = capAppend w (c :: l2) := by
        rw [capAppend, capAppend]
        have harith : MAX_WORD - 1 - w.length = (MAX_WORD - 1 - (w.length + 1)) + 1 := by
          simp only [MAX_WORD] at *; omega
        rw [harith, List.take_succ_cons]
        simp
      rw [heq]
    · have h1 : simpleLoop false w (c :: (l2 ++ X)) = simpleLoop false w (l2 ++ X) := by
        simp [simpleLoop, hc, hge, hfit]
      rw [h1, ih w X (fun b hb => hl b (by simp [hb])) hw]
      have heq : capAppend w l2 = capAppend w (c :: l2) := by
        have h0 : MAX_WORD - 1 - w.length = 0 := by omega
        rw [capAppend, capAppend, h0, List.take_zero, List.take_zero]
      rw [heq]

/-- The capped append keeps the buffer within `MAX_WORD - 1` bytes. -/
theorem capAppend_length {w : List Nat} (src : List Nat)
    (hw : w.length ≤ MAX_WORD - 1) : (capAppend w src).length ≤ MAX_WORD - 1 := by
  rw [capAppend, List.length_append, List.length_map, List.length_take]
  omega

/-- A nonempty buffer stays nonempty under the capped append, and an empty
one becomes nonempty when at least one byte fits. -/
theorem capAppend_ne_nil {w src : List Nat}
    (h : w ≠ [] ∨ (src ≠ [] ∧ w.length < MAX_WORD - 1)) :
    capAppend w src ≠ [] := by
  rw [capAppend]
  rcases h with hw | ⟨hs, hlen⟩
  · intro hcon
    exact hw (List.append_eq_nil.mp hcon).1
  · intro hcon
    have h2 := (List.append_eq_nil.mp hcon).2
    rw [List.map_eq_nil_iff] at h2
    have h3 : (src.take (MAX_WORD - 1 - w.length)).length = 0 := by
      rw [h2]; rfl
    rw [List.length_take] at h3
    have h4 : src.length ≠ 0 := fun h => hs (List.eq_nil_of_length_eq_zero h)
    omega

/-- Skipping a stretch of non-letter bytes starting at position `j`. -/
theorem simpleLoop_seps_skip (blk : List Nat) : ∀ (k j : Nat) (X : List Nat),
    j + k ≤ blk.length →
    (∀ p, j ≤ p → p < j + k → is_ascii_letter (blk.getD p 0) = false) →
    simpleLoop false [] (blk.drop j ++ X)
      = simpleLoop false [] (blk.drop (j + k) ++ X) := by
  intro k
  induction k with
  | zero => intro j X _ _; rfl
  | succ k ih =>
    intro j X hlen hsep
    have hj : j < blk.length := by omega
    have hdrop : blk.drop j = blk[j] :: blk.drop (j + 1) :=
      List.drop_eq_getElem_cons hj
    have hc : is_ascii_letter blk[j] = false := by
      have h := hsep j le_rfl (by omega)
      rwa [List.getD_eq_getElem blk 0 hj] at h
    rw [hdrop, List.cons_append, simpleLoop_sep_nil _ hc]
    have h2 := ih (j + 1) X (by omega) (fun p hp1 hp2 => hsep p (by omega) (by omega))
    have harith : j + 1 + k = j + (k + 1) := by omega
    rw [harith] at h2
    exact h2

/-- A number whose bits at and above `n` are all clear is below `2 ^ n`. -/
theorem lt_two_pow_of_high_bits {m n : Nat}
    (h : ∀ p, n ≤ p → m.testBit p = false) : m < 2 ^ n := by
  have heq : m = m % 2 ^ n := by
    apply Nat.eq_of_testBit_eq
    intro i
    rw [Nat.testBit_mod_two_pow]
    by_cases hi : i < n
    · simp [hi]
    · simp [hi, h i (by omega)]
  rw [heq]
  exact Nat.mod_lt _ (Nat.pos_pow_of_pos n (by omega))

/-- Bitwise description of the 64-bit complement. -/
theorem testBit_compl64 {a : Nat} (ha : a < 2 ^ 64) (p : Nat) :
    (compl64 a).testBit p = (decide (p < 64) && ! a.testBit p) := by
  rw [compl64, Nat.testBit_xor, Nat.testBit_two_pow_sub_one]
  by_cases hp : p < 64
  · simp [hp, Bool.xor_comm]
  · have ha2 : a < 2 ^ p :=
      lt_of_lt_of_le ha (Nat.pow_le_pow_right (by omega) (by omega))
    simp [hp, Nat.testBit_lt_two_pow ha2]

/-- The 64-bit complement stays below `2 ^ 64`. -/
theorem compl64_lt {a : Nat} (ha : a < 2 ^ 64) : compl64 a < 2 ^ 64 := by
  apply lt_two_pow_of_high_bits
  intro p hp
  rw [testBit_compl64 ha p]
  have hnp : ¬ p < 64 := by omega
  simp [hnp]

/-- The 64-bit complement is zero exactly on the all-ones word. -/
theorem compl64_eq_zero_iff {a : Nat} : compl64 a = 0 ↔ a = 2 ^ 64 - 1 := by
  rw [compl64, Nat.xor_eq_zero]

/-- `m & 1` is zero exactly when bit 0 is clear. -/
theorem and_one_eq_zero_iff (m : Nat) : m &&& 1 = 0 ↔ m.testBit 0 = false := by
  rw [Nat.and_one_is_mod, Nat.testBit_zero]
  constructor
  · intro h; simp [h]
  · intro h
    rcases Nat.mod_two_eq_zero_or_one m with h2 | h2
    · exact h2
    · rw [h2] at h; simp at h

/-- `m & 1` is one exactly when bit 0 is set. -/
theorem and_one_eq_one_iff (m : Nat) : m &&& 1 = 1 ↔ m.testBit 0 = true := by
  rw [Nat.and_one_is_mod, Nat.testBit_zero]
  constructor
  · intro h; simp [h]
  · intro h
    rcases Nat.mod_two_eq_zero_or_one m with h2 | h2
    · rw [h2] at h; simp at h
    · exact h2

/-- Bits of the letter mask of a block: bit `p` is set exactly when the
byte at offset `p` is an ASCII letter. -/
theorem lettersMask_testBit (blk : List Nat) (hb : ∀ b ∈ blk, b < 256) (p : Nat) :
    (lettersMask blk).testBit p
      = (decide (p < blk.length) && is_ascii_letter (blk.getD p 0)) := by
  rw [lettersMask, maskOfBits_testBit]
  by_cases hp : p < blk.length
  · have hp2 : p < (blk.map simdLetter).length := by simpa using hp
    rw [List.getD_eq_getElem _ _ hp2, List.getElem_map,
      List.getD_eq_getElem _ _ hp]
    rw [simdLetter_eq (hb _ (List.getElem_mem hp))]
    simp [hp]
  · have hp2 : ¬ p < (blk.map simdLetter).length := by simpa using hp
    rw [List.getD_eq_default _ _ (by omega), List.getD_eq_default _ _ (by omega)]
    simp [hp]

/-- The run loop does nothing on an empty mask. -/
theorem runLoop_zero (blk : List Nat) (fuel : Nat) (w : List Nat) (pt : Bool) :
    runLoop blk fuel 0 w pt = ([], w, pt) := by
  cases fuel <;> simp [runLoop]

/-- One step of the run loop on the all-ones mask: the whole block is one
run reaching bit 63, so it is absorbed, nothing is flushed, and
`prev_tail_letter` is set. -/
theorem runLoop_allOnes (blk : List Nat) (f : Nat) (w : List Nat) (pt : Bool) :
    runLoop blk (f + 1) (2 ^ 64 - 1) w pt
      = ([], capAppend w (blk.take 64), true) := by
  have hm : (2 : Nat) ^ 64 - 1 ≠ 0 := by norm_num
  have hctz : ctz64 (2 ^ 64 - 1) = 0 := by
    rw [ctz64, ctzFuel]
    norm_num
  have hc2 : compl64 (2 ^ 64 - 1) = 0 := by
    rw [compl64, Nat.xor_self]
  simp only [runLoop, if_neg hm, hctz, Nat.shiftRight_zero, hc2, if_pos rfl,
    Nat.sub_zero, Nat.zero_add, List.drop_zero]
  have h1 : ¬ ((0 : Nat) < 0 ∧ w ≠ []) := by simp
  have h2 : ¬ ((64 : Nat) < 64) := by omega
  have h3 : (64 : Nat) ≤ 64 := le_rfl
  simp only [if_neg h1, if_neg h2, if_pos h3, hc2, Nat.and_zero, runLoop_zero]
  have hc3 : (18446744073709551615 : Nat) &&& compl64 18446744073709551615 = 0 := by
    have : compl64 18446744073709551615 = 0 := by
      rw [compl64]
      norm_num
    rw [this, Nat.and_zero]
  simp [hc3, runLoop_zero]

/-- Scalar processing of the remainder of a block whose remaining bytes
are all separators. -/
theorem runLoop_base_scalar (blk : List Nat) (hblk : blk.length = 64)
    (j : Nat) (w : List Nat) (rest : List Nat)
    (hsep : ∀ p, j ≤ p → p < 64 → is_ascii_letter (blk.getD p 0) = false)
    (hw0 : w ≠ [] → 64 ≤ j) :
    simpleLoop false w (blk.drop j ++ rest) = simpleLoop false w rest := by
  by_cases hj : 64 ≤ j
  · rw [List.drop_eq_nil_of_le (by omega), List.nil_append]
  · have hw : w = [] := by
      by_cases h : w = []
      · exact h
      · exact absurd (hw0 h) hj
    subst hw
    have h2 := simpleLoop_seps_skip blk (64 - j) j rest (by omega)
      (fun p h1 h3 => hsep p h1 (by omega))
    rw [(by omega : j + (64 - j) = 64)] at h2
    rw [h2, List.drop_eq_nil_of_le (by omega), List.nil_append]

/-- Correctness of the run-extraction loop against the byte-at-a-time
scalar loop: starting from position `j` of the 64-byte block with mask
`m` holding exactly the letter bits at positions `≥ j`, the loop emits
exactly the words the scalar loop emits for the rest of the block, with
matching final word buffer, and the final buffer is empty whenever
`prev_tail_letter` comes out clear. -/
theorem runLoop_spec (blk : List Nat) (hblk : blk.length = 64) : ∀ (fuel : Nat),
    ∀ (m j : Nat) (w : List Nat) (pt : Bool) (rest : List Nat),
    (m ≠ 0 → 64 ≤ fuel + ctz64 m) →
    (∀ p, m.testBit p
        = (decide (j ≤ p) && (decide (p < 64) && is_ascii_letter (blk.getD p 0)))) →
    j ≤ 64 →
    w.length ≤ MAX_WORD - 1 →
    (pt = false → w = []) →
    (w ≠ [] → (j = 0 ∧ m ≠ 0) ∨ 64 ≤ j) →
    simpleLoop false w (blk.drop j ++ rest)
        = (runLoop blk fuel m w pt).1
          ++ simpleLoop false (runLoop blk fuel m w pt).2.1 rest
      ∧ (runLoop blk fuel m w pt).2.1.length ≤ MAX_WORD - 1
      ∧ ((runLoop blk fuel m w pt).2.2 = false → (runLoop blk fuel m w pt).2.1 = []) := by
  intro fuel
  induction fuel with
  | zero =>
    intro m j w pt rest hfuel hM hj hw hptw hw0
    have hm : m = 0 := by
      by_contra hm
      have hm64 : m < 2 ^ 64 := lt_two_pow_of_high_bits (fun p hp => by
        rw [hM p]
        have h1 : ¬ p < 64 := by omega
        simp [h1])
      have h2 := ctz64_lt m hm hm64
      have h3 := hfuel hm
      omega
    subst hm
    rw [runLoop_zero]
    refine ⟨?_, hw, hptw⟩
    show simpleLoop false w (blk.drop j ++ rest) = [] ++ simpleLoop false w rest
    rw [List.nil_append]
    refine runLoop_base_scalar blk hblk j w rest ?_ ?_
    · intro p h1 h2
      have h3 := hM p
      rw [Nat.zero_testBit] at h3
      by_contra h4
      rw [Bool.not_eq_false] at h4
      rw [h4] at h3
      simp [h1, h2] at h3
    · intro hne
      rcases hw0 hne with ⟨_, hm⟩ | h
      · exact absurd rfl hm
      · exact h
  | succ f ih =>
    intro m j w pt rest hfuel hM hj hw hptw hw0
    by_cases hm : m = 0
    · subst hm
      rw [runLoop_zero]
      refine ⟨?_, hw, hptw⟩
      show simpleLoop false w (blk.drop j ++ rest) = [] ++ simpleLoop false w rest
      rw [List.nil_append]
      refine runLoop_base_scalar blk hblk j w rest ?_ ?_
      · intro p h1 h2
        have h3 := hM p
        rw [Nat.zero_testBit] at h3
        by_contra h4
        rw [Bool.not_eq_false] at h4
        rw [h4] at h3
        simp [h1, h2] at h3
      · intro hne
        rcases hw0 hne with ⟨_, hm⟩ | h
        · exact absurd rfl hm
        · exact h
    · have hm64 : m < 2 ^ 64 := lt_two_pow_of_high_bits (fun p hp => by
        rw [hM p]
        have h1 : ¬ p < 64 := by omega
        simp [h1])
      obtain ⟨hbit, hlow⟩ := ctz64_spec m hm hm64
      have hs64 : ctz64 m < 64 := ctz64_lt m hm hm64
      have htail_lt : m >>> ctz64 m < 2 ^ 64 := by
        rw [Nat.shiftRight_eq_div_pow]
        exact lt_of_le_of_lt (Nat.div_le_self _ _) hm64
      by_cases hca : compl64 (m >>> ctz64 m) = 0
      · -- all-ones mask: the whole block is letters
        have hs0 : ctz64 m = 0 := by
          by_contra hs0
          have h1 : m >>> ctz64 m = 2 ^ 64 - 1 := compl64_eq_zero_iff.mp hca
          rw [Nat.shiftRight_eq_div_pow] at h1
          have h2 : (2 : Nat) ≤ 2 ^ ctz64 m := by
            calc (2 : Nat) = 2 ^ 1 := rfl
            _ ≤ 2 ^ ctz64 m := Nat.pow_le_pow_right (by omega) (by omega)
          have h3 := Nat.div_mul_le_self m (2 ^ ctz64 m)
          rw [h1] at h3
          have h4 : (2 ^ 64 - 1) * 2 ≤ (2 ^ 64 - 1) * 2 ^ ctz64 m :=
            Nat.mul_le_mul_left _ h2
          omega
        have hmAll : m = 2 ^ 64 - 1 := by
          have h1 := compl64_eq_zero_iff.mp hca
          rwa [hs0, Nat.shiftRight_zero] at h1
        have hj0 : j = 0 := by
          have h1 := hM (ctz64 m)
          rw [hbit] at h1
          have h2 : j ≤ ctz64 m := by
            by_contra h3
            simp [h3] at h1
          omega
        subst hj0
        have hlet : ∀ b ∈ blk, is_ascii_letter b = true := by
          intro b hb
          obtain ⟨p, hp, hpb⟩ := List.mem_iff_getElem.mp hb
          by_contra h9
          rw [Bool.not_eq_true] at h9
          have h1 := hM p
          have hp64 : p < 64 := by omega
          rw [hmAll, Nat.testBit_two_pow_sub_one,
            List.getD_eq_getElem blk 0 hp, hpb, h9] at h1
          simp [hp64] at h1
        have htk : blk.take 64 = blk := by
          rw [← hblk, List.take_length]
        rw [hmAll, runLoop_allOnes, htk]
        refine ⟨?_, capAppend_length blk hw, ?_⟩
        · show simpleLoop false w (blk.drop 0 ++ rest)
            = [] ++ simpleLoop false (capAppend w blk) rest
          rw [List.drop_zero, List.nil_append]
          exact simpleLoop_letters_absorb blk w rest hlet hw
        · intro h
          simp at h
      · -- a finite run [s, s + r)
        have hcompl_lt : compl64 (m >>> ctz64 m) < 2 ^ 64 := compl64_lt htail_lt
        obtain ⟨hrbit, hrlow⟩ := ctz64_spec _ hca hcompl_lt
        have hr64 : ctz64 (compl64 (m >>> ctz64 m)) < 64 := ctz64_lt _ hca hcompl_lt
        have hr1 : 1 ≤ ctz64 (compl64 (m >>> ctz64 m)) := by
          rcases Nat.eq_zero_or_pos (ctz64 (compl64 (m >>> ctz64 m))) with h0 | h
          · exfalso
            rw [h0, testBit_compl64 htail_lt 0, Nat.testBit_shiftRight,
              Nat.add_zero, hbit] at hrbit
            simp at hrbit
          · exact h
        have hr0ne : ¬ (ctz64 (compl64 (m >>> ctz64 m)) = 0) := by omega
        have hnot64 : ¬ (64 ≤ ctz64 (compl64 (m >>> ctz64 m))) := by omega
        simp only [runLoop, if_neg hm, if_neg hca, if_neg hr0ne, if_neg hnot64]
        set s := ctz64 m with hsdef
        set r := ctz64 (compl64 (m >>> s)) with hrdef
        set m2 := m &&& compl64 ((2 ^ r - 1) <<< s) with hm2def
        have hjs : j ≤ s := by
          have h1 := hM s
          rw [hbit] at h1
          by_contra h3
          simp [h3] at h1
        have hrun : ∀ p, p < r → m.testBit (s + p) = true := by
          intro p hp
          have h1 := hrlow p hp
          rw [testBit_compl64 htail_lt p, Nat.testBit_shiftRight] at h1
          have hp64 : p < 64 := by omega
          simpa [hp64] using h1
        have hend : m.testBit (s + r) = false := by
          have h1 := hrbit
          rw [testBit_compl64 htail_lt r, Nat.testBit_shiftRight] at h1
          simpa [hr64] using h1
        have hsr : s + r ≤ 64 := by
          have h1 := hrun (r - 1) (by omega)
          have h2 := hM (s + (r - 1))
          rw [h1] at h2
          by_contra hcon
          have h3 : ¬ (s + (r - 1) < 64) := by omega
          simp [h3] at h2
        have hletters : ∀ p, s ≤ p → p < s + r → is_ascii_letter (blk.getD p 0) = true := by
          intro p h1 h2
          have h3 := hrun (p - s) (by omega)
          rw [(by omega : s + (p - s) = p)] at h3
          have h4 := hM p
          rw [h3] at h4
          by_contra h5
          rw [Bool.not_eq_true] at h5
          rw [h5] at h4
          simp at h4
        have hseps : ∀ p, j ≤ p → p < s → is_ascii_letter (blk.getD p 0) = false := by
          intro p h1 h2
          have h3 := hlow p h2
          have h4 := hM p
          rw [h3] at h4
          have hp64 : p < 64 := by omega
          by_contra h5
          rw [Bool.not_eq_false] at h5
          rw [h5] at h4
          simp [h1, hp64] at h4
        have hmask_bit : ∀ p, (((2 ^ r - 1) <<< s).testBit p)
            = (decide (s ≤ p) && decide (p < s + r)) := by
          intro p
          rw [Nat.testBit_shiftLeft, Nat.testBit_two_pow_sub_one]
          by_cases h1 : s ≤ p
          · by_cases h2 : p < s + r
            · have h3 : p - s < r := by omega
              simp [h1, h2, h3, ge_iff_le]
            · have h3 : ¬ (p - s < r) := by omega
              simp [h1, h2, h3, ge_iff_le]
          · simp [h1, ge_iff_le]
        have hmask_lt : (2 ^ r - 1) <<< s < 2 ^ 64 := by
          apply lt_two_pow_of_high_bits
          intro p hp
          rw [hmask_bit p]
          have h1 : ¬ (p < s + r) := by omega
          simp [h1]
        have hm2_bit : ∀ p, m2.testBit p
            = (decide (s + r ≤ p) && (decide (p < 64) && is_ascii_letter (blk.getD p 0))) := by
          intro p
          rw [hm2def, Nat.testBit_and, testBit_compl64 hmask_lt p, hmask_bit p]
          by_cases h1 : p < 64
          · by_cases h2 : p < s
            · rw [hlow p h2]
              have h3 : ¬ (s + r ≤ p) := by omega
              simp [h3]
            · by_cases h3 : p < s + r
              · have h4 : ¬ (s + r ≤ p) := by omega
                have h5 : s ≤ p := by omega
                simp [h1, h3, h4, h5]
              · have h4 : s + r ≤ p := by omega
                rw [hM p]
                have h5 : j ≤ p := by omega
                have h6 : ¬ (s ≤ p ∧ p < s + r) := by omega
                simp [h1, h3, h4, h5]
          · rw [hM p]
            simp [h1]
        have hm2_le : m2 ≤ m := Nat.and_le_left
        have hm2_lt : m2 < 2 ^ 64 := lt_of_le_of_lt hm2_le hm64
        have hm2_fuel : m2 ≠ 0 → 64 ≤ f + ctz64 m2 := by
          intro hne
          obtain ⟨hb2, _⟩ := ctz64_spec m2 hne hm2_lt
          have hctz2 : s + r < ctz64 m2 := by
            by_contra hcon
            push_neg at hcon
            have h1 := hm2_bit (ctz64 m2)
            rw [hb2] at h1
            have h2 : s + r ≤ ctz64 m2 := by
              by_contra h3
              simp [h3] at h1
            have h4 : ctz64 m2 = s + r := by omega
            rw [h4] at h1
            by_cases h5 : s + r < 64
            · have h6 := hM (s + r)
              rw [hend] at h6
              have h7 : j ≤ s + r := by omega
              have h8 : is_ascii_letter (blk.getD (s + r) 0) = false := by
                by_contra h9
                rw [Bool.not_eq_false] at h9
                rw [h9] at h6
                simp [h5, h7] at h6
              rw [h8] at h1
              simp [h5] at h1
            · simp [h5] at h1
          have h9 := hfuel hm
          omega
        -- scalar side: skip the separators before the run, flushing once
        have hstep1 : simpleLoop false w (blk.drop j ++ rest)
            = (if 0 < s ∧ w ≠ [] then [w] else [])
              ++ simpleLoop false (if 0 < s ∧ w ≠ [] then [] else w)
                (blk.drop s ++ rest) := by
          by_cases hfl : 0 < s ∧ w ≠ []
          · obtain ⟨hspos, hwne⟩ := hfl
            have hj0 : j = 0 := by
              rcases hw0 hwne with ⟨h1, _⟩ | h1
              · exact h1
              · omega
            rw [if_pos ⟨hspos, hwne⟩, if_pos ⟨hspos, hwne⟩, hj0]
            have h0lt : 0 < blk.length := by omega
            have hcb0 : is_ascii_letter blk[0] = false := by
              have h1 := hseps 0 (by omega) hspos
              rwa [List.getD_eq_getElem blk 0 h0lt] at h1
            rw [List.drop_eq_getElem_cons h0lt, List.cons_append,
              simpleLoop_sep_flush _ hcb0 hwne]
            have h2 := simpleLoop_seps_skip blk (s - 1) 1 rest (by omega)
              (fun p hp1 hp2 => hseps p (by omega) (by omega))
            rw [(by omega : 1 + (s - 1) = s)] at h2
            rw [h2, List.singleton_append]
          · rw [if_neg hfl, if_neg hfl]
            by_cases hwe : w = []
            · subst hwe
              have h2 := simpleLoop_seps_skip blk (s - j) j rest (by omega)
                (fun p hp1 hp2 => hseps p hp1 (by omega))
              rw [(by omega : j + (s - j) = s)] at h2
              rw [h2, List.nil_append]
            · have hs0 : s = 0 := by
                rcases Nat.eq_zero_or_pos s with h1 | h1
                · exact h1
                · exact absurd ⟨h1, hwe⟩ hfl
              have hj0 : j = 0 := by omega
              rw [hs0, hj0, List.nil_append]
        have hw0len : (if 0 < s ∧ w ≠ [] then [] else w).length ≤ MAX_WORD - 1 := by
          split_ifs
          · simp
          · exact hw
        have hlet_take : ∀ b ∈ (blk.drop s).take r, is_ascii_letter b = true := by
          intro b hb
          obtain ⟨i, hi, hib⟩ := List.mem_iff_getElem.mp hb
          have hi2 : i < r := by
            rw [List.length_take, List.length_drop] at hi
            omega
          have hi3 : s + i < blk.length := by omega
          rw [List.getElem_take, List.getElem_drop] at hib
          have h4 := hletters (s + i) (by omega) (by omega)
          rw [List.getD_eq_getElem blk 0 hi3] at h4
          rw [← hib]
          exact h4
        have hsplit : (blk.drop s).take r ++ blk.drop (s + r) = blk.drop s := by
          have h1 : List.drop r (List.drop s blk) = List.drop (s + r) blk :=
            List.drop_drop r s blk
          rw [← h1, List.take_append_drop]
        have habsorb : simpleLoop false (if 0 < s ∧ w ≠ [] then [] else w)
              (blk.drop s ++ rest)
            = simpleLoop false
                (capAppend (if 0 < s ∧ w ≠ [] then [] else w) ((blk.drop s).take r))
                (blk.drop (s + r) ++ rest) := by
          conv_lhs => rw [← hsplit]
          rw [List.append_assoc]
          exact simpleLoop_letters_absorb _ _ _ hlet_take hw0len
        by_cases hearly : s + r < 64
        · -- the run ends inside the block: flush and continue
          have hdec : (!decide (s + r < 64)) = false := by simp [hearly]
          simp only [if_pos hearly, hdec]
          obtain ⟨ihA, ihB, ihC⟩ := ih m2 (s + r) [] false rest hm2_fuel hm2_bit
            (by omega) (by simp) (fun _ => rfl) (fun h => absurd rfl h)
          have hcend : is_ascii_letter (blk.getD (s + r) 0) = false := by
            have h1 := hM (s + r)
            rw [hend] at h1
            have h2 : j ≤ s + r := by omega
            by_contra h3
            rw [Bool.not_eq_false] at h3
            rw [h3] at h1
            simp [hearly, h2] at h1
          have hsrlt : s + r < blk.length := by omega
          have hcb : is_ascii_letter blk[s + r] = false := by
            rwa [List.getD_eq_getElem blk 0 hsrlt] at hcend
          have hflush : ∀ (v : List Nat),
              simpleLoop false v (blk.drop (s + r) ++ rest)
              = flushTok v ++ simpleLoop false [] (blk.drop (s + r) ++ rest) := by
            intro v
            rw [List.drop_eq_getElem_cons hsrlt, List.cons_append,
              simpleLoop_sep_flushTok _ _ hcb, ← List.cons_append,
              ← List.drop_eq_getElem_cons hsrlt]
          refine ⟨?_, ihB, ihC⟩
          rw [hstep1, habsorb, hflush, ihA]
          simp [List.append_assoc]
        · -- the run reaches bit 63: keep the buffer, set prev_tail_letter
          have hsreq : s + r = 64 := by omega
          have hdec : (!decide (s + r < 64)) = true := by simp [hearly]
          have hm20 : m2 = 0 := by
            apply Nat.eq_of_testBit_eq
            intro p
            rw [hm2_bit p, Nat.zero_testBit]
            by_cases h1 : p < 64
            · have h2 : ¬ (s + r ≤ p) := by omega
              simp [h2]
            · simp [h1]
          simp only [if_neg hearly, hdec, hm20, runLoop_zero]
          have hdrop64 : blk.drop (s + r) = [] := List.drop_eq_nil_of_le (by omega)
          refine ⟨?_, capAppend_length _ hw0len, ?_⟩
          · rw [hstep1, habsorb, hdrop64, List.nil_append]
            simp
          · intro h
            simp at h

/-- Extracting letter-ness of a byte from a set bit of a letter mask in
the `j = 0` shape. -/
theorem letter_of_bit_true {blk : List Nat} {M : Nat}
    (hM0 : ∀ p, M.testBit p
      = (decide ((0 : Nat) ≤ p) && (decide (p < 64) && is_ascii_letter (blk.getD p 0))))
    {p : Nat} (h : M.testBit p = true) :
    is_ascii_letter (blk.getD p 0) = true := by
  by_contra h9
  rw [Bool.not_eq_true] at h9
  have h1 := hM0 p
  rw [h, h9] at h1
  simp at h1

/-- Extracting non-letter-ness of a byte from a clear bit of a letter
mask in the `j = 0` shape. -/
theorem letter_of_bit_false {blk : List Nat} {M : Nat}
    (hM0 : ∀ p, M.testBit p
      = (decide ((0 : Nat) ≤ p) && (decide (p < 64) && is_ascii_letter (blk.getD p 0))))
    {p : Nat} (hp : p < 64) (h : M.testBit p = false) :
    is_ascii_letter (blk.getD p 0) = false := by
  by_contra h9
  rw [Bool.not_eq_false] at h9
  have h1 := hM0 p
  rw [h, h9] at h1
  simp [hp] at h1

/-- A nonempty list is its head (by index) consed on its tail. -/
theorem cons_head_getElem {blk : List Nat} (h : 0 < blk.length) :
    blk = blk[0] :: blk.drop 1 := by
  have h1 := List.drop_eq_getElem_cons h
  rwa [List.drop_zero, Nat.zero_add] at h1

/-- Correctness of one SIMD block against the byte-at-a-time scalar loop:
processing the 64 block bytes scalar-wise equals emitting the block's
tokens and continuing from the block's output state. -/
theorem simdBlock_eq (blk rest : List Nat) (drop : Bool) (w : List Nat) (pt : Bool)
    (hblk : blk.length = 64) (hbytes : ∀ b ∈ blk, b < 256)
    (hw : w.length ≤ MAX_WORD - 1)
    (hptw : pt = false → w = [])
    (hdrop : drop = true → w = [] ∧ pt = false) :
    simpleLoop drop w (blk ++ rest)
        = (simdBlock blk drop w pt).1
          ++ simpleLoop (simdBlock blk drop w pt).2.1
              (simdBlock blk drop w pt).2.2.1 rest
      ∧ (simdBlock blk drop w pt).2.2.1.length ≤ MAX_WORD - 1
      ∧ ((simdBlock blk drop w pt).2.2.2 = false → (simdBlock blk drop w pt).2.2.1 = [])
      ∧ ((simdBlock blk drop w pt).2.1 = true →
          (simdBlock blk drop w pt).2.2.1 = [] ∧ (simdBlock blk drop w pt).2.2.2 = false) := by
  have h0lt : 0 < blk.length := by omega
  have hM0 : ∀ p, (lettersMask blk).testBit p
      = (decide ((0 : Nat) ≤ p) && (decide (p < 64) && is_ascii_letter (blk.getD p 0))) := by
    intro p
    rw [lettersMask_testBit blk hbytes p, hblk]
    simp
  have hlm_lt : lettersMask blk < 2 ^ 64 := by
    have h1 := maskOfBits_lt (blk.map simdLetter)
    rwa [List.length_map, hblk] at h1
  simp only [simdBlock]
  by_cases hdl : drop = true ∧ lettersMask blk &&& 1 = 1
  · -- drop_leading with the block starting in a letter
    obtain ⟨hd1, hb1⟩ := hdl
    obtain ⟨hw0, hpt0⟩ := hdrop hd1
    subst hd1; subst hw0; subst hpt0
    have hflA : ¬ (false = true ∧ lettersMask blk &&& 1 = 0) := by simp
    rw [if_pos ⟨rfl, hb1⟩, if_neg hflA, if_neg hflA, if_neg hflA]
    by_cases hall : compl64 (lettersMask blk) = 0
    · -- whole block letters: skip it, stay in drop_leading
      rw [if_pos hall]
      have hallEq : lettersMask blk = 2 ^ 64 - 1 := compl64_eq_zero_iff.mp hall
      have hlet : ∀ b ∈ blk, is_ascii_letter b = true := by
        intro b hb
        obtain ⟨p, hp, hpb⟩ := List.mem_iff_getElem.mp hb
        have hp64 : p < 64 := by omega
        have h1 : (lettersMask blk).testBit p = true := by
          rw [hallEq, Nat.testBit_two_pow_sub_one]
          simp [hp64]
        have h2 := letter_of_bit_true hM0 h1
        rwa [List.getD_eq_getElem blk 0 hp, hpb] at h2
      refine ⟨?_, by simp, fun _ => rfl, fun _ => ⟨rfl, rfl⟩⟩
      show simpleLoop true [] (blk ++ rest) = [] ++ simpleLoop true [] rest
      rw [List.nil_append]
      exact simpleLoop_drop_letters blk rest hlet
    · -- letters end inside the block at position `lead`
      rw [if_neg hall]
      have hcl_lt : compl64 (lettersMask blk) < 2 ^ 64 := compl64_lt hlm_lt
      obtain ⟨hlbit, hllow⟩ := ctz64_spec _ hall hcl_lt
      have hlead64 : ctz64 (compl64 (lettersMask blk)) < 64 := ctz64_lt _ hall hcl_lt
      set lead := ctz64 (compl64 (lettersMask blk)) with hleaddef
      have hleadbit : (lettersMask blk).testBit lead = false := by
        rw [testBit_compl64 hlm_lt lead] at hlbit
        simpa [hlead64] using hlbit
      have hleadlet : is_ascii_letter (blk.getD lead 0) = false :=
        letter_of_bit_false hM0 hlead64 hleadbit
      have hprefbits : ∀ p, p < lead → (lettersMask blk).testBit p = true := by
        intro p hp
        have h1 := hllow p hp
        rw [testBit_compl64 hlm_lt p] at h1
        have hp64 : p < 64 := by omega
        simpa [hp64] using h1
      have hpreflet : ∀ b ∈ blk.take lead, is_ascii_letter b = true := by
        intro b hb
        obtain ⟨i, hi, hib⟩ := List.mem_iff_getElem.mp hb
        have hi2 : i < lead := by
          rw [List.length_take] at hi
          omega
        rw [List.getElem_take] at hib
        have h1 := letter_of_bit_true hM0 (hprefbits i hi2)
        rwa [List.getD_eq_getElem blk 0 (by omega), hib] at h1
      have hscal : simpleLoop true [] (blk ++ rest)
          = simpleLoop false [] (blk.drop lead ++ rest) := by
        conv_lhs => rw [← List.take_append_drop lead blk, List.append_assoc]
        rw [simpleLoop_drop_letters _ _ hpreflet]
        have hlt : lead < blk.length := by omega
        have hcons : blk.drop lead = blk[lead] :: blk.drop (lead + 1) :=
          List.drop_eq_getElem_cons hlt
        have hcb : is_ascii_letter blk[lead] = false := by
          rwa [List.getD_eq_getElem blk 0 hlt] at hleadlet
        rw [hcons, List.cons_append, simpleLoop_drop_sep _ _ hcb,
          ← List.cons_append, ← hcons]
      have hM1 : ∀ p, (lettersMask blk &&& (2 ^ 64 - 1) <<< lead).testBit p
          = (decide (lead ≤ p) && (decide (p < 64) && is_ascii_letter (blk.getD p 0))) := by
        intro p
        rw [Nat.testBit_and, Nat.testBit_shiftLeft, Nat.testBit_two_pow_sub_one, hM0 p]
        by_cases hp64 : p < 64
        · by_cases h1 : lead ≤ p
          · have h2 : p - lead < 64 := by omega
            simp [hp64, h1, h2, ge_iff_le]
          · simp [hp64, h1, ge_iff_le]
        · simp [hp64]
      by_cases h10 : lettersMask blk &&& (2 ^ 64 - 1) <<< lead = 0
      · -- nothing after the leading run: block fully consumed
        rw [if_pos h10]
        refine ⟨?_, by simp, fun _ => rfl, by simp⟩
        have hsep : ∀ p, lead ≤ p → p < 64 →
            is_ascii_letter (blk.getD p 0) = false := by
          intro p h1 h2
          have h3 := hM1 p
          rw [h10, Nat.zero_testBit] at h3
          by_contra h4
          rw [Bool.not_eq_false] at h4
          rw [h4] at h3
          simp [h1, h2] at h3
        have h5 := runLoop_base_scalar blk hblk lead [] rest hsep
          (fun h => absurd rfl h)
        rw [hscal, h5]
        simp [flushTok]
      · rw [if_neg h10]
        obtain ⟨hA, hB, hC⟩ := runLoop_spec blk hblk 64
          (lettersMask blk &&& (2 ^ 64 - 1) <<< lead) lead [] false rest
          (fun _ => Nat.le_add_right 64 _) hM1 (by omega) (by simp)
          (fun _ => rfl) (fun h => absurd rfl h)
        refine ⟨?_, hB, hC, by simp⟩
        rw [hscal, hA]
        simp
  · -- no drop_leading skipping: the generic path
    rw [if_neg hdl]
    have hscal0 : simpleLoop drop w (blk ++ rest) = simpleLoop false w (blk ++ rest) := by
      cases hD : drop
      · rfl
      · obtain ⟨hw0, hpt0⟩ := hdrop hD
        subst hw0
        have hb1 : lettersMask blk &&& 1 = 0 := by
          have h1 := Nat.and_one_is_mod (lettersMask blk)
          have h2 : ¬ lettersMask blk &&& 1 = 1 := fun h => hdl ⟨hD, h⟩
          omega
        have hb0 : (lettersMask blk).testBit 0 = false := (and_one_eq_zero_iff _).mp hb1
        have hc0 : is_ascii_letter blk[0] = false := by
          have h1 := letter_of_bit_false hM0 (by omega) hb0
          rwa [List.getD_eq_getElem blk 0 h0lt] at h1
        rw [cons_head_getElem h0lt, List.cons_append,
          simpleLoop_drop_sep _ _ hc0, ← List.cons_append, ← cons_head_getElem h0lt]
    rw [hscal0]
    by_cases hfA : pt = true ∧ lettersMask blk &&& 1 = 0
    · -- carried word flushed at the block boundary
      rw [if_pos hfA, if_pos hfA, if_pos hfA]
      have hb0 : (lettersMask blk).testBit 0 = false := (and_one_eq_zero_iff _).mp hfA.2
      have hc0 : is_ascii_letter blk[0] = false := by
        have h1 := letter_of_bit_false hM0 (by omega) hb0
        rwa [List.getD_eq_getElem blk 0 h0lt] at h1
      have hflush : simpleLoop false w (blk ++ rest)
          = flushTok w ++ simpleLoop false [] (blk ++ rest) := by
        rw [cons_head_getElem h0lt, List.cons_append,
          simpleLoop_sep_flushTok _ _ hc0, ← List.cons_append, ← cons_head_getElem h0lt]
      by_cases hl0 : lettersMask blk = 0
      · rw [if_pos hl0]
        refine ⟨?_, by simp, fun _ => rfl, by simp⟩
        have hsep : ∀ p, (0 : Nat) ≤ p → p < 64 →
            is_ascii_letter (blk.getD p 0) = false := by
          intro p _ h2
          exact letter_of_bit_false hM0 h2 (by rw [hl0, Nat.zero_testBit])
        have h5 := runLoop_base_scalar blk hblk 0 [] rest hsep (fun h => absurd rfl h)
        rw [List.drop_zero] at h5
        rw [hflush, h5]
        simp [flushTok]
      · rw [if_neg hl0]
        obtain ⟨hA, hB, hC⟩ := runLoop_spec blk hblk 64 (lettersMask blk) 0 [] false rest
          (fun _ => Nat.le_add_right 64 _) hM0 (by omega) (by simp)
          (fun _ => rfl) (fun h => absurd rfl h)
        rw [List.drop_zero] at hA
        refine ⟨?_, hB, hC, by simp⟩
        rw [hflush, hA]
        simp
    · -- no boundary flush
      rw [if_neg hfA, if_neg hfA, if_neg hfA]
      by_cases hl0 : lettersMask blk = 0
      · -- all separators: any pending word flushes inside the block
        rw [if_pos hl0]
        have hpt0 : pt = false := by
          by_contra h1
          rw [Bool.not_eq_false] at h1
          have hb1 : lettersMask blk &&& 1 = 0 := by
            rw [hl0]
            rfl
          exact hfA ⟨h1, hb1⟩
        have hw0 : w = [] := hptw hpt0
        subst hw0
        refine ⟨?_, by simp, fun _ => rfl, by simp⟩
        have hsep : ∀ p, (0 : Nat) ≤ p → p < 64 →
            is_ascii_letter (blk.getD p 0) = false := by
          intro p _ h2
          exact letter_of_bit_false hM0 h2 (by rw [hl0, Nat.zero_testBit])
        have h5 := runLoop_base_scalar blk hblk 0 [] rest hsep (fun h => absurd rfl h)
        rw [List.drop_zero] at h5
        rw [h5]
        simp [flushTok]
      · rw [if_neg hl0]
        obtain ⟨hA, hB, hC⟩ := runLoop_spec blk hblk 64 (lettersMask blk) 0 w pt rest
          (fun _ => Nat.le_add_right 64 _) hM0 (by omega) hw hptw
          (fun _ => Or.inl ⟨rfl, hl0⟩)
        rw [List.drop_zero] at hA
        refine ⟨?_, hB, hC, by simp⟩
        rw [hA]
        simp

/-- The SIMD block loop plus scalar tail equals the byte-at-a-time scalar
loop, for any state satisfying the block-boundary invariants. -/
theorem avxGo_eq (n : Nat) : ∀ (data : List Nat) (drop : Bool) (w : List Nat) (pt : Bool),
    data.length ≤ n →
    (∀ b ∈ data, b < 256) → w.length ≤ MAX_WORD - 1 →
    (pt = false → w = []) → (drop = true → w = [] ∧ pt = false) →
    avxGo data drop w pt = simpleLoop drop w data := by
  induction n with
  | zero =>
    intro data drop w pt hlen hbytes hw hptw hdrop
    have h64 : ¬ 64 ≤ data.length := by omega
    rw [avxGo, dif_neg h64]
    exact scalar_eq_simple data drop w
  | succ n ihn =>
    intro data drop w pt hlen hbytes hw hptw hdrop
    by_cases h64 : 64 ≤ data.length
    · rw [avxGo, dif_pos h64]
      dsimp only
      have htlen : (data.take 64).length = 64 := by
        rw [List.length_take]
        omega
      have htb : ∀ b ∈ data.take 64, b < 256 :=
        fun b hb => hbytes b (List.mem_of_mem_take hb)
      obtain ⟨hA, hB, hC, hD⟩ := simdBlock_eq (data.take 64) (data.drop 64)
        drop w pt htlen htb hw hptw hdrop
      have hdb : ∀ b ∈ data.drop 64, b < 256 :=
        fun b hb => hbytes b (List.mem_of_mem_drop hb)
      have hdlen : (data.drop 64).length ≤ n := by
        rw [List.length_drop]
        omega
      rw [ihn (data.drop 64) _ _ _ hdlen hdb hB hC hD]
      conv_rhs => rw [← List.take_append_drop 64 data]
      rw [hA]
    · rw [avxGo, dif_neg h64]
      exact scalar_eq_simple data drop w

/-- The AVX-512 tokenizer inserts exactly the same word sequence as the
scalar tokenizer, on any buffer of bytes. -/
theorem process_chunk_avx512_eq_process_chunk (data : List Nat) (drop : Bool)
    (hbytes : ∀ b ∈ data, b < 256) :
    process_chunk_avx512 data drop = process_chunk data drop := by
  rw [process_chunk_avx512, process_chunk, scalar_eq_simple]
  exact avxGo_eq data.length data drop [] false le_rfl hbytes (by simp)
    (fun _ => rfl) (fun _ => ⟨rfl, rfl⟩)

/-! ## Whole pipeline (main, lines 793-868) -/

/-- `INITIAL_CAPACITY` (line 131). -/
def INITIAL_CAPACITY : Nat := 65536

/-- Per-worker table capacity (lines 825-831): `next_pow2` of twice the
estimated unique count for the slice (`chunk_size / 5 / 10`), floored at
`INITIAL_CAPACITY`. -/
def workerCapacity (chunk_size : Nat) : Nat :=
  let c := next_pow2 (chunk_size / 5 / 10 * 2)
  if c < INITIAL_CAPACITY then INITIAL_CAPACITY else c

/-- Worker `i`'s table after processing its slice (lines 824-861):
`process_chunk_avx512` over `[cuts i, cuts (i+1))` with the unit's
`drop_leading` flag into a fresh table. -/
def workerTable (data : List Nat) (N i : Nat) : ThreadTable :=
  insertTokens
    (initTable (workerCapacity (cuts data N (i + 1) - cuts data N i)))
    (process_chunk_avx512 (chunkOf data N i)
      (unitFor data N i).drop_leading)

/-- The merged global table of the whole pipeline (line 864). -/
def mergedTable (data : List Nat) (N : Nat) : ThreadTable :=
  merge_tables ((List.range N).map (workerTable data N))

theorem workerCapacity_pow2 (cs : Nat) (hcs : cs ≤ 2 ^ 62) :
    ∃ k, 1 ≤ k ∧ workerCapacity cs = 2 ^ k := by
  rw [workerCapacity]
  have harg : cs / 5 / 10 * 2 ≤ 2 ^ 63 := by
    have h1 : cs / 5 / 10 ≤ cs := le_trans (Nat.div_le_self _ _) (Nat.div_le_self _ _)
    have h2 : (2 : Nat) ^ 62 * 2 = 2 ^ 63 := by norm_num
    omega
  obtain ⟨⟨k, hk⟩, hge⟩ := next_pow2_spec _ harg
  by_cases h : next_pow2 (cs / 5 / 10 * 2) < INITIAL_CAPACITY
  · exact ⟨16, by omega, by rw [if_pos h]; rfl⟩
  · refine ⟨k, ?_, by rw [if_neg h]; exact hk⟩
    by_contra hk0
    have : k = 0 := by omega
    subst this
    rw [INITIAL_CAPACITY] at h
    omega

/-- Inserting a list of valid tokens grows the size by at most one per
token. -/
theorem insertTokens_size_le (ws : List (List Nat)) :
    ∀ t : ThreadTable, TableWF t →
    (∀ w ∈ ws, w ≠ [] ∧ w.length ≤ MAX_WORD - 1) →
    (insertTokens t ws).size ≤ t.size + ws.length := by
  induction ws with
  | nil => intro t _ _; exact Nat.le_add_right _ _
  | cons w ws ih =>
    intro t h hws
    have hw := hws w (List.mem_cons_self _ _)
    have hlen := token_len_ok hw.1 hw.2
    have hstep : insertTokens t (w :: ws) = insertTokens (insertToken t w) ws := rfl
    have hwf1 : TableWF (insertToken t w) := insert_wf t h _ _ _ _
    have h2 := ih (insertToken t w) hwf1 (fun x hx => hws x (List.mem_cons_of_mem _ hx))
    obtain ⟨-, -, live', -, hcase⟩ := insert_valid_effects t h w w.length
      (incHash w) (fp16_of (incHash w)) hlen
    have hsz : (insertToken t w).size ≤ t.size + 1 := by
      rcases hcase with ⟨-, hs⟩ | ⟨e, l1, l2, -, -, -, hs⟩ <;>
        rw [insertToken] <;> omega
    rw [hstep, List.length_cons]
    omega

/-- Any entry property closed under count increments that holds of every
fresh token entry survives inserting a token list. -/
theorem insertTokens_pred (Q : Entry → Prop)
    (hbump : ∀ e, Q e → Q { e with count := (e.count + 1) % 2 ^ 32 })
    (ws : List (List Nat)) :
    ∀ t : ThreadTable, TableWF t → (∀ x ∈ t.live, Q x) →
    (∀ w ∈ ws, Q (mkEntry w w.length (incHash w) (fp16_of (incHash w)))) →
    ∀ x ∈ (insertTokens t ws).live, Q x := by
  induction ws with
  | nil => intro t _ hQ _; exact hQ
  | cons w ws ih =>
    intro t h hQ hQws
    have hstep : insertTokens t (w :: ws) = insertTokens (insertToken t w) ws := rfl
    rw [hstep]
    refine ih (insertToken t w) (insert_wf t h _ _ _ _) ?_
      (fun x hx => hQws x (List.mem_cons_of_mem _ hx))
    exact insert_preserves_pred Q hbump t h w w.length (incHash w) (fp16_of (incHash w))
      hQ (hQws w (List.mem_cons_self _ _))

/-- The fresh entry a token insertion creates, with the `take` collapsed. -/
theorem mkEntry_token (w : List Nat) :
    mkEntry w w.length (incHash w) (fp16_of (incHash w))
      = { word := w, count := 1, hash := incHash w, len := w.length,
          fp16 := fp16_of (incHash w) } := by
  rw [mkEntry, List.take_length]

theorem mkEntry_token_consistent (w : List Nat) :
    entryConsistent (mkEntry w w.length (incHash w) (fp16_of (incHash w))) := by
  rw [mkEntry_token, entryConsistent]
  exact ⟨rfl, rfl, rfl⟩

/-- There are at most as many maximal letter runs as bytes. -/
theorem letterRuns_length_le (n : Nat) : ∀ l : List Nat, l.length ≤ n →
    (letterRuns l).length ≤ l.length := by
  induction n with
  | zero =>
    intro l hl
    have : l = [] := List.eq_nil_of_length_eq_zero (by omega)
    subst this
    simp [letterRuns]
  | succ n ih =>
    intro l hl
    match l with
    | [] => simp [letterRuns]
    | c :: cs =>
      have hcs : cs.length ≤ n := by simpa [Nat.succ_le_succ_iff] using hl
      rw [letterRuns]
      by_cases hc : is_ascii_letter c = true
      · rw [if_pos hc, List.length_cons, List.length_cons]
        have h1 := ih (cs.dropWhile is_ascii_letter)
          (le_trans (length_dropWhile_le _ _) hcs)
        have h2 := length_dropWhile_le is_ascii_letter cs
        omega
      · rw [if_neg hc, List.length_cons]
        have h1 := ih cs hcs
        omega

theorem sumIn_flatten (ll : List (List Entry)) :
    sumIn ll.flatten = (ll.map sumIn).sum := by
  induction ll with
  | nil => rfl
  | cons es rest ih =>
    rw [List.flatten_cons, List.map_cons, List.sum_cons, ← ih, sumIn, sumIn,
      List.map_append, List.sum_append]
    rfl

theorem countIn_flatten (ll : List (List Entry)) (w : List Nat) :
    countIn ll.flatten w = (ll.map (countIn · w)).sum := by
  induction ll with
  | nil => rfl
  | cons es rest ih =>
    rw [List.flatten_cons, countIn_append, List.map_cons, List.sum_cons, ih]

/-- A count bump does not affect entry consistency. -/
theorem entryConsistent_bump (e : Entry) (h : entryConsistent e) :
    entryConsistent { e with count := (e.count + 1) % 2 ^ 32 } := h

/-- Wellformedness, counters and consistency of one worker's table. -/
theorem workerTable_facts (data : List Nat) (N i : Nat) (hi : i < N)
    (hbytes : ∀ b ∈ data, b < 256) (hlen : data.length ≤ 2 ^ 62) :
    TableWF (workerTable data N i) ∧
    (workerTable data N i).total_words = (letterRuns (chunkOf data N i)).length ∧
    (data.length < 2 ^ 32 →
      (workerTable data N i).sumCounts = (letterRuns (chunkOf data N i)).length) ∧
    (workerTable data N i).size ≤ (letterRuns (chunkOf data N i)).length ∧
    (∀ x ∈ (workerTable data N i).live, entryConsistent x) := by
  have hchb : ∀ b ∈ chunkOf data N i, b < 256 := by
    intro b hb
    exact hbytes b (List.mem_of_mem_drop (List.mem_of_mem_take hb))
  have htok : process_chunk_avx512 (chunkOf data N i) (unitFor data N i).drop_leading
      = (letterRuns (chunkOf data N i)).map tokenOfRun := by
    show process_chunk_avx512 (chunkOf data N i) false = _
    rw [process_chunk_avx512_eq_process_chunk _ _ hchb, process_chunk_runs]
  have hvalid : ∀ w ∈ (letterRuns (chunkOf data N i)).map tokenOfRun,
      w ≠ [] ∧ w.length ≤ MAX_WORD - 1 := by
    intro w hw
    obtain ⟨r, hr, rfl⟩ := List.mem_map.mp hw
    obtain ⟨hne, hlet⟩ := letterRuns_mem (chunkOf data N i).length _ le_rfl r hr
    obtain ⟨h1, h2, -⟩ := tokenOfRun_wf hne hlet
    refine ⟨?_, h2⟩
    intro hnil
    rw [hnil] at h1
    simp at h1
  have hcs : cuts data N (i + 1) - cuts data N i ≤ 2 ^ 62 := by
    have := cuts_le_len data N (i + 1) (by omega)
    omega
  obtain ⟨k, hk1, hk⟩ := workerCapacity_pow2 _ hcs
  have hwf0 : TableWF (initTable (workerCapacity
      (cuts data N (i + 1) - cuts data N i))) := by
    rw [hk]
    exact initTable_wf k hk1
  have hwteq : workerTable data N i
      = insertTokens (initTable (workerCapacity (cuts data N (i + 1) - cuts data N i)))
        ((letterRuns (chunkOf data N i)).map tokenOfRun) := by
    rw [workerTable, htok]
  obtain ⟨hwf, htot, hsum⟩ := insertTokens_effects _ _ hwf0 hvalid
  have hsz := insertTokens_size_le _ _ hwf0 hvalid
  refine ⟨by rw [hwteq]; exact hwf, ?_, ?_, ?_, ?_⟩
  · rw [hwteq, htot]
    simp [initTable]
  · intro h32
    have hchlen : (chunkOf data N i).length ≤ data.length := by
      rw [chunkOf, List.length_take, List.length_drop]
      omega
    have h0 : (initTable (workerCapacity (cuts data N (i + 1) - cuts data N i))).sumCounts
        = 0 := by
      rw [ThreadTable.sumCounts, ThreadTable.live, initTable, replicate_none_live]
      rfl
    have hrle : (letterRuns (chunkOf data N i)).length ≤ data.length :=
      le_trans (letterRuns_length_le (chunkOf data N i).length _ le_rfl) hchlen
    have hb : (initTable (workerCapacity (cuts data N (i + 1) - cuts data N i))).sumCounts
        + ((letterRuns (chunkOf data N i)).map tokenOfRun).length < 2 ^ 32 := by
      rw [h0, List.length_map]
      omega
    rw [hwteq, hsum hb, h0, List.length_map]
    omega
  · rw [hwteq]
    refine le_trans hsz ?_
    simp [initTable]
  · rw [hwteq]
    refine insertTokens_pred entryConsistent entryConsistent_bump _ _ hwf0 ?_ ?_
    · rw [ThreadTable.live, initTable, replicate_none_live]
      intro x hx
      simp at hx
    · intro w _
      exact mkEntry_token_consistent w

/-- The chunks after the first start empty or at a non-letter byte. -/
theorem chunks_boundary (data : List Nat) (N : Nat) :
    ∀ ch ∈ ((List.range N).map (chunkOf data N)).drop 1,
      ch = [] ∨ ∃ b bs, ch = b :: bs ∧ is_ascii_letter b = false := by
  intro ch hch
  obtain ⟨j, hj, hjeq⟩ := List.mem_iff_getElem.mp hch
  rw [List.getElem_drop] at hjeq
  have hj2 : 1 + j < N := by
    rw [List.length_drop, List.length_map, List.length_range] at hj
    omega
  rw [List.getElem_map, List.getElem_range] at hjeq
  set i := 1 + j with hidef
  have hi1 : 0 < i := by omega
  have hiN : i < N := hj2
  have hcuti : cuts data N i = advanceCut data (i * (data.length / N)) := by
    rw [cuts, if_neg (by omega), if_neg (by omega)]
  rcases advanceCut_sep data (i * (data.length / N))
      (naive_le data N i (by omega)) with hend | ⟨hlt, hsep⟩
  · left
    rw [← hjeq, chunkOf, List.drop_eq_nil_of_le (by omega), List.take_nil]
  · by_cases hk0 : cuts data N (i + 1) - cuts data N i = 0
    · left
      rw [← hjeq, chunkOf, hk0, List.take_zero]
    · right
      have hcl : cuts data N i < data.length := by omega
      obtain ⟨m, hm⟩ := Nat.exists_eq_succ_of_ne_zero hk0
      refine ⟨data[cuts data N i], (data.drop (cuts data N i + 1)).take m, ?_, ?_⟩
      · rw [← hjeq, chunkOf, hm, List.drop_eq_getElem_cons hcl, List.take_succ_cons]
      · have hsep2 : is_ascii_letter (data.getD (cuts data N i) 0) = false := by
          rw [hcuti, List.getD_eq_getElem data 0 hlt]
          rw [List.get_eq_getElem] at hsep
          exact hsep
        rw [← List.getD_eq_getElem data 0 hcl]
        exact hsep2

/-- The letter runs of the buffer are exactly the concatenation of the
per-chunk letter runs. -/
theorem runs_split (data : List Nat) (N : Nat) (hN : 0 < N) :
    (letterRuns data).length
      = ((List.range N).map
          (fun i => (letterRuns (chunkOf data N i)).length)).sum := by
  have hruns : letterRuns data
      = (((List.range N).map (chunkOf data N)).map letterRuns).flatten := by
    conv_lhs => rw [← chunks_cover data N hN]
    exact letterRuns_flatten _ (chunks_boundary data N)
  rw [hruns, List.length_flatten, List.map_map, List.map_map]
  rfl

/-- Conservation of counts through the whole pipeline: the merged table's
counts sum to its reported total word count, which equals the number of
maximal letter runs of the buffer. -/
theorem pipeline_counts (data : List Nat) (N : Nat) (hN : 0 < N)
    (hbytes : ∀ b ∈ data, b < 256) (hlen : data.length < 2 ^ 32) :
    (mergedTable data N).sumCounts = (mergedTable data N).total_words ∧
    (mergedTable data N).total_words = (letterRuns data).length := by
  have hlen62 : data.length ≤ 2 ^ 62 := le_trans (le_of_lt hlen) (by norm_num)
  have hRsum := runs_split data N hN
  have hRle : (letterRuns data).length ≤ data.length :=
    letterRuns_length_le data.length data le_rfl
  have htotsum :
      (((List.range N).map (workerTable data N)).map ThreadTable.total_words).sum
        = (letterRuns data).length := by
    rw [List.map_map, hRsum]
    congr 1
    apply List.map_congr_left
    intro i hi
    rw [List.mem_range] at hi
    exact (workerTable_facts data N i hi hbytes hlen62).2.1
  have hsizes_le :
      (((List.range N).map (workerTable data N)).map ThreadTable.size).sum
        ≤ (letterRuns data).length := by
    rw [List.map_map, hRsum]
    apply List.sum_le_sum
    intro i hi
    rw [List.mem_range] at hi
    exact (workerTable_facts data N i hi hbytes hlen62).2.2.2.1
  have hsumsum :
      ((((List.range N).map (workerTable data N)).map ThreadTable.live).map sumIn).sum
        = (letterRuns data).length := by
    rw [List.map_map, List.map_map, hRsum]
    congr 1
    apply List.map_congr_left
    intro i hi
    rw [List.mem_range] at hi
    have h1 := (workerTable_facts data N i hi hbytes hlen62).2.2.1 hlen
    rw [sumCounts_eq_sumIn] at h1
    exact h1
  have heslen :
      ((((List.range N).map (workerTable data N)).map ThreadTable.live).flatten).length
        = (((List.range N).map (workerTable data N)).map ThreadTable.size).sum := by
    rw [List.length_flatten, List.map_map, List.map_map, List.map_map]
    congr 1
    apply List.map_congr_left
    intro i hi
    rw [List.mem_range] at hi
    exact ((workerTable_facts data N i hi hbytes hlen62).1.size_live).symm
  have hS63 :
      (((List.range N).map (workerTable data N)).map ThreadTable.size).sum * 2
        ≤ 2 ^ 63 := by
    have h2 : (2 : Nat) ^ 62 * 2 = 2 ^ 63 := by norm_num
    omega
  obtain ⟨⟨k, hk⟩, hge⟩ := next_pow2_spec _ hS63
  have hmerge := merge_tables_eq_mergeFold ((List.range N).map (workerTable data N))
  have hconses : ∀ x ∈ (((List.range N).map (workerTable data N)).map
      ThreadTable.live).flatten, entryConsistent x := by
    intro x hx
    obtain ⟨l, hl, hxl⟩ := List.mem_flatten.mp hx
    obtain ⟨t, ht, rfl⟩ := List.mem_map.mp hl
    obtain ⟨i, hi, rfl⟩ := List.mem_map.mp ht
    rw [List.mem_range] at hi
    exact (workerTable_facts data N i hi hbytes hlen62).2.2.2.2 x hxl
  obtain ⟨hcap', hpath', htot', hsum', hcount', hsl', hcons', hnodup', hfin'⟩ :=
    mergeFold_effects
      ((((List.range N).map (workerTable data N)).map ThreadTable.live).flatten)
      { entries := List.replicate (next_pow2
          ((((List.range N).map (workerTable data N)).map ThreadTable.size).sum * 2))
          none,
        size := 0,
        total_words :=
          (((List.range N).map (workerTable data N)).map ThreadTable.total_words).sum }
      k
      (by simpa [ThreadTable.capacity] using hk)
      (by
        simp only [ThreadTable.live, ThreadTable.capacity]
        rw [replicate_none_live, List.length_replicate, heslen]
        simp only [List.length_nil]
        omega)
      (replicate_none_path _)
      (by
        simp only [ThreadTable.live]
        rw [replicate_none_live]
        rfl)
      (by
        intro x hx
        simp only [ThreadTable.live] at hx
        rw [replicate_none_live] at hx
        exact absurd hx (List.not_mem_nil x))
      hconses
      (by
        simp only [ThreadTable.wordsOf, ThreadTable.live]
        rw [replicate_none_live]
        simp)
  dsimp only at htot'
  have hz : ∀ (n m : Nat),
      ({ entries := List.replicate n none, size := 0, total_words := m }
        : ThreadTable).sumCounts = 0 := by
    intro n m
    simp only [ThreadTable.sumCounts, ThreadTable.live]
    rw [replicate_none_live]
    rfl
  rw [hz, Nat.zero_add] at hsum'
  have hsumIn : sumIn ((((List.range N).map (workerTable data N)).map
      ThreadTable.live).flatten) = (letterRuns data).length := by
    rw [sumIn_flatten, hsumsum]
  constructor
  · rw [mergedTable, hmerge, hsum' (by rw [hsumIn]; omega), hsumIn, htot', htotsum]
  · rw [mergedTable, hmerge, htot', htotsum]

/-- The count a table stores for a word, as `countIn` of its live list. -/
theorem countOf_empty (n m w) :
    ({ entries := List.replicate n none, size := 0, total_words := m }
      : ThreadTable).countOf w = 0 := by
  rw [countOf_eq_countIn]
  simp only [ThreadTable.live]
  rw [replicate_none_live]
  rfl

/-- Applying `mergeFold_effects` to a list of source tables with
consistent entries and accurate sizes. -/
theorem merge_tables_effects (ts : List ThreadTable)
    (hwf : ∀ t ∈ ts, t.size = t.live.length ∧ ∀ x ∈ t.live, entryConsistent x)
    (hbound : (ts.map ThreadTable.size).sum ≤ 2 ^ 62) :
    (∀ w, (merge_tables ts).countOf w
        = mergeCount none (wordCounts ((ts.map ThreadTable.live).flatten) w)) ∧
    (merge_tables ts).total_words = (ts.map ThreadTable.total_words).sum ∧
    (sumIn ((ts.map ThreadTable.live).flatten) < 2 ^ 32 →
      (merge_tables ts).sumCounts = sumIn ((ts.map ThreadTable.live).flatten)) ∧
    (merge_tables ts).size = (merge_tables ts).live.length ∧
    (merge_tables ts).wordsOf.Nodup ∧
    (merge_tables ts).wordsOf.toFinset
      = (((ts.map ThreadTable.live).flatten).map Entry.word).toFinset ∧
    (∀ x ∈ (merge_tables ts).live, entryConsistent x) := by
  have heslen : ((ts.map ThreadTable.live).flatten).length
      = (ts.map ThreadTable.size).sum := by
    rw [List.length_flatten, List.map_map]
    congr 1
    apply List.map_congr_left
    intro t ht
    exact ((hwf t ht).1).symm
  have hS63 : (ts.map ThreadTable.size).sum * 2 ≤ 2 ^ 63 := by
    have h2 : (2 : Nat) ^ 62 * 2 = 2 ^ 63 := by norm_num
    omega
  obtain ⟨⟨k, hk⟩, hge⟩ := next_pow2_spec _ hS63
  have hconses : ∀ x ∈ (ts.map ThreadTable.live).flatten, entryConsistent x := by
    intro x hx
    obtain ⟨l, hl, hxl⟩ := List.mem_flatten.mp hx
    obtain ⟨t, ht, rfl⟩ := List.mem_map.mp hl
    exact (hwf t ht).2 x hxl
  obtain ⟨hcap', hpath', htot', hsum', hcount', hsl', hcons', hnodup', hfin'⟩ :=
    mergeFold_effects ((ts.map ThreadTable.live).flatten)
      { entries := List.replicate (next_pow2 ((ts.map ThreadTable.size).sum * 2)) none,
        size := 0,
        total_words := (ts.map ThreadTable.total_words).sum }
      k
      (by simpa [ThreadTable.capacity] using hk)
      (by
        simp only [ThreadTable.live, ThreadTable.capacity]
        rw [replicate_none_live, List.length_replicate, heslen]
        simp only [List.length_nil]
        omega)
      (replicate_none_path _)
      (by
        simp only [ThreadTable.live]
        rw [replicate_none_live]
        rfl)
      (by
        intro x hx
        simp only [ThreadTable.live] at hx
        rw [replicate_none_live] at hx
        exact absurd hx (List.not_mem_nil x))
      hconses
      (by
        simp only [ThreadTable.wordsOf, ThreadTable.live]
        rw [replicate_none_live]
        simp)
  rw [merge_tables_eq_mergeFold ts]
  dsimp only at htot'
  have hz : ∀ (n m : Nat),
      ({ entries := List.replicate n none, size := 0, total_words := m }
        : ThreadTable).sumCounts = 0 := by
    intro n m
    simp only [ThreadTable.sumCounts, ThreadTable.live]
    rw [replicate_none_live]
    rfl
  rw [hz, Nat.zero_add] at hsum'
  have hwz : ∀ (n m : Nat),
      ({ entries := List.replicate n none, size := 0, total_words := m }
        : ThreadTable).wordsOf = [] := by
    intro n m
    simp only [ThreadTable.wordsOf, ThreadTable.live]
    rw [replicate_none_live]
    rfl
  rw [hwz] at hfin'
  simp only [List.toFinset_nil, Finset.empty_union] at hfin'
  refine ⟨?_, htot', hsum', hsl', hnodup', hfin', hcons'⟩
  intro w
  rw [hcount' w, hwz, if_neg (List.not_mem_nil w)]

/-- Merge commutativity: a permuted list of source tables merges to the
same word-to-count map, the same unique-word count and the same total. -/
theorem merge_tables_perm (ts ts' : List ThreadTable) (hperm : ts.Perm ts')
    (hwf : ∀ t ∈ ts, t.size = t.live.length ∧ ∀ x ∈ t.live, entryConsistent x)
    (hbound : (ts.map ThreadTable.size).sum ≤ 2 ^ 62) :
    (∀ w, (merge_tables ts).countOf w = (merge_tables ts').countOf w) ∧
    (merge_tables ts).size = (merge_tables ts').size ∧
    (merge_tables ts).total_words = (merge_tables ts').total_words := by
  have hwf' : ∀ t ∈ ts', t.size = t.live.length ∧ ∀ x ∈ t.live, entryConsistent x :=
    fun t ht => hwf t (hperm.mem_iff.mpr ht)
  have hbound' : (ts'.map ThreadTable.size).sum ≤ 2 ^ 62 := by
    rw [← (hperm.map ThreadTable.size).sum_eq]
    exact hbound
  obtain ⟨hc1, ht1, hs1, hl1, hn1, hf1, -⟩ := merge_tables_effects ts hwf hbound
  obtain ⟨hc2, ht2, hs2, hl2, hn2, hf2, -⟩ := merge_tables_effects ts' hwf' hbound'
  have hesperm : ((ts.map ThreadTable.live).flatten).Perm
      ((ts'.map ThreadTable.live).flatten) :=
    (hperm.map ThreadTable.live).flatten
  refine ⟨?_, ?_, ?_⟩
  · intro w
    rw [hc1 w, hc2 w]
    exact mergeCount_perm (wordCounts_perm hesperm w)
  · have hcard1 : (merge_tables ts).size
        = (merge_tables ts).wordsOf.toFinset.card := by
      rw [hl1, List.toFinset_card_of_nodup hn1, ThreadTable.wordsOf,
        List.length_map]
    have hcard2 : (merge_tables ts').size
        = (merge_tables ts').wordsOf.toFinset.card := by
      rw [hl2, List.toFinset_card_of_nodup hn2, ThreadTable.wordsOf,
        List.length_map]
    rw [hcard1, hcard2, hf1, hf2, perm_toFinset (hesperm.map Entry.word)]
  · rw [ht1, ht2, (hperm.map ThreadTable.total_words).sum_eq]

/-- The storage invariant of a live entry: the stored word is 1 to
`MAX_WORD - 1` lowercase letters, the recorded length matches, and the
stored buffer is the word's bytes NUL-terminated at `word[len]`. -/
def entryStoredWF (e : Entry) : Prop :=
  (∀ b ∈ e.word, 97 ≤ b ∧ b ≤ 122) ∧
  1 ≤ e.len ∧ e.len ≤ MAX_WORD - 1 ∧
  e.len = e.word.length ∧
  storedBytes e.word e.len = e.word ++ [0]

theorem entryStoredWF_bump (e : Entry) (h : entryStoredWF e) :
    entryStoredWF { e with count := (e.count + 1) % 2 ^ 32 } := h

/-- Every live entry of a worker's table satisfies the storage
invariant. -/
theorem workerTable_storedWF (data : List Nat) (N i : Nat) (hi : i < N)
    (hbytes : ∀ b ∈ data, b < 256) (hlen : data.length ≤ 2 ^ 62) :
    ∀ e ∈ (workerTable data N i).live, entryStoredWF e := by
  have hchb : ∀ b ∈ chunkOf data N i, b < 256 := by
    intro b hb
    exact hbytes b (List.mem_of_mem_drop (List.mem_of_mem_take hb))
  have htok : process_chunk_avx512 (chunkOf data N i) (unitFor data N i).drop_leading
      = (letterRuns (chunkOf data N i)).map tokenOfRun := by
    show process_chunk_avx512 (chunkOf data N i) false = _
    rw [process_chunk_avx512_eq_process_chunk _ _ hchb, process_chunk_runs]
  have hcs : cuts data N (i + 1) - cuts data N i ≤ 2 ^ 62 := by
    have := cuts_le_len data N (i + 1) (by omega)
    omega
  obtain ⟨k, hk1, hk⟩ := workerCapacity_pow2 _ hcs
  have hwf0 : TableWF (initTable (workerCapacity
      (cuts data N (i + 1) - cuts data N i))) := by
    rw [hk]
    exact initTable_wf k hk1
  have hwteq : workerTable data N i
      = insertTokens (initTable (workerCapacity (cuts data N (i + 1) - cuts data N i)))
        ((letterRuns (chunkOf data N i)).map tokenOfRun) := by
    rw [workerTable, htok]
  rw [hwteq]
  refine insertTokens_pred entryStoredWF entryStoredWF_bump _ _ hwf0 ?_ ?_
  · rw [ThreadTable.live, initTable, replicate_none_live]
    intro x hx
    exact absurd hx (List.not_mem_nil x)
  · intro w hw
    obtain ⟨r, hr, rfl⟩ := List.mem_map.mp hw
    obtain ⟨hne, hlet⟩ := letterRuns_mem (chunkOf data N i).length _ le_rfl r hr
    obtain ⟨h1, h2, h3⟩ := tokenOfRun_wf hne hlet
    rw [mkEntry_token]
    refine ⟨h3, h1, h2, rfl, ?_⟩
    rw [storedBytes, List.take_length]

/-- Every live entry of the merged table satisfies the storage
invariant. -/
theorem mergedTable_storedWF (data : List Nat) (N : Nat) (hN : 0 < N)
    (hbytes : ∀ b ∈ data, b < 256) (hlen : data.length ≤ 2 ^ 62) :
    ∀ e ∈ (mergedTable data N).live, entryStoredWF e := by
  have hwf : ∀ t ∈ (List.range N).map (workerTable data N),
      t.size = t.live.length ∧ ∀ x ∈ t.live, entryConsistent x := by
    intro t ht
    obtain ⟨i, hi, rfl⟩ := List.mem_map.mp ht
    rw [List.mem_range] at hi
    exact ⟨(workerTable_facts data N i hi hbytes hlen).1.size_live,
      (workerTable_facts data N i hi hbytes hlen).2.2.2.2⟩
  have hbound : (((List.range N).map (workerTable data N)).map ThreadTable.size).sum
      ≤ 2 ^ 62 := by
    have h1 : (((List.range N).map (workerTable data N)).map ThreadTable.size).sum
        ≤ (letterRuns data).length := by
      rw [List.map_map, runs_split data N hN]
      apply List.sum_le_sum
      intro i hi
      rw [List.mem_range] at hi
      exact (workerTable_facts data N i hi hbytes hlen).2.2.2.1
    have h2 : (letterRuns data).length ≤ data.length :=
      letterRuns_length_le data.length data le_rfl
    omega
  obtain ⟨-, -, -, -, -, hfin, hcons⟩ := merge_tables_effects _ hwf hbound
  intro e he
  have hcons_e := hcons e he
  have hword : e.word ∈ ((((List.range N).map (workerTable data N)).map
      ThreadTable.live).flatten).map Entry.word := by
    have h1 : e.word ∈ (mergedTable data N).wordsOf :=
      List.mem_map_of_mem Entry.word he
    have h2 : e.word ∈ (mergedTable data N).wordsOf.toFinset :=
      List.mem_toFinset.mpr h1
    rw [mergedTable] at h2
    rw [hfin] at h2
    exact List.mem_toFinset.mp h2
  obtain ⟨x, hx, hxw⟩ := List.mem_map.mp hword
  obtain ⟨l, hl, hxl⟩ := List.mem_flatten.mp hx
  obtain ⟨t, ht, rfl⟩ := List.mem_map.mp hl
  obtain ⟨i, hi, rfl⟩ := List.mem_map.mp ht
  rw [List.mem_range] at hi
  obtain ⟨hxbytes, hx1, hx2, hxlen, -⟩ :=
    workerTable_storedWF data N i hi hbytes hlen x hxl
  obtain ⟨helen, -, -⟩ := hcons_e
  refine ⟨?_, ?_, ?_, helen, ?_⟩
  · rw [← hxw]
    exact hxbytes
  · rw [helen, ← hxw, ← hxlen]
    exact hx1
  · rw [helen, ← hxw, ← hxlen]
    exact hx2
  · rw [storedBytes, helen, List.take_length]

/-! ## Counter wrap on giant inputs (`uint32_t count`, line 141) -/

/-- The canonical live entry a repeatedly inserted token leaves behind:
the stored word, a running count, and the token's hash and fingerprint. -/
def tokenEntry (w : List Nat) (c : Nat) : Entry :=
  { word := w, count := c, hash := incHash w, len := w.length,
    fp16 := fp16_of (incHash w) }

/-- A table holding exactly one token entry, at the token's home slot of
a `2^k`-slot array. -/
def singleTable (k : Nat) (w : List Nat) (c tw : Nat) : ThreadTable :=
  { entries := (List.replicate (2 ^ k) (none : Option Entry)).set
      (incHash w % 2 ^ k) (some (tokenEntry w c)),
    size := 1, total_words := tw }

theorem singleTable_live (k : Nat) (w : List Nat) (c tw : Nat) :
    (singleTable k w c tw).live = [tokenEntry w c] := by
  have hpos : 0 < (2 : Nat) ^ k := by positivity
  have hfree : (List.replicate (2 ^ k) (none : Option Entry)).get?
      (incHash w % 2 ^ k) = some none := by
    rw [List.get?_eq_getElem?, List.getElem?_replicate_of_lt (Nat.mod_lt _ hpos)]
  obtain ⟨l1, l2, h1, h2⟩ :=
    filterMap_set_free (List.replicate (2 ^ k) none) (incHash w % 2 ^ k)
      (tokenEntry w c) hfree
  rw [replicate_none_live] at h1
  obtain ⟨hl1, hl2⟩ := List.append_eq_nil.mp h1.symm
  subst hl1
  subst hl2
  show (singleTable k w c tw).entries.filterMap id = [tokenEntry w c]
  exact h2

/-- A probe that starts on a free slot stops there at once. -/
theorem probeSeek_hit_free (entries : List (Option Entry)) (p : Entry → Bool)
    (fuel idx : Nat) (hfuel : 0 < fuel) (h : entries.get? idx = some none) :
    probeSeek entries p fuel idx = some (idx, none) := by
  cases fuel with
  | zero => omega
  | succ f => rw [probeSeek, h]

/-- A probe that starts on a matching entry stops there at once. -/
theorem probeSeek_hit_match (entries : List (Option Entry)) (p : Entry → Bool)
    (fuel idx : Nat) (e : Entry) (hfuel : 0 < fuel)
    (h : entries.get? idx = some (some e)) (hp : p e = true) :
    probeSeek entries p fuel idx = some (idx, some e) := by
  cases fuel with
  | zero => omega
  | succ f =>
    rw [probeSeek, h]
    simp [hp]

theorem afterInsertGrow_skip (t : ThreadTable)
    (h : ¬(t.capacity * 7 < t.size * 10)) : afterInsertGrow t = t := by
  rw [afterInsertGrow, if_neg h]

/-- The first insertion of a token into a fresh `2^k` table places its
entry at the home slot with count 1. -/
theorem insertToken_init (k : Nat) (hk : 1 ≤ k) (w : List Nat)
    (hne : w ≠ []) (hle : w.length ≤ MAX_WORD - 1) :
    insertToken (initTable (2 ^ k)) w = singleTable k w 1 1 := by
  have hlen := token_len_ok hne hle
  have hpos : 0 < (2 : Nat) ^ k := by positivity
  have h2k : (2 : Nat) ≤ 2 ^ k := by
    calc (2 : Nat) = 2 ^ 1 := by norm_num
    _ ≤ 2 ^ k := Nat.pow_le_pow_right (by omega) hk
  have hcap : (List.replicate (2 ^ k) (none : Option Entry)).length = 2 ^ k :=
    List.length_replicate _ _
  have hget : (List.replicate (2 ^ k) (none : Option Entry)).get?
      (incHash w % 2 ^ k) = some none := by
    rw [List.get?_eq_getElem?, List.getElem?_replicate_of_lt (Nat.mod_lt _ hpos)]
  rw [insertToken, initTable, table_insert_hashed, if_neg hlen]
  dsimp only [ThreadTable.capacity]
  rw [hcap, Nat.and_pow_two_sub_one_eq_mod,
    probeFind_eq_probeSeek _ _ k hcap,
    probeSeek_hit_free _ _ _ _ hpos hget]
  show afterInsertGrow
      { entries := (List.replicate (2 ^ k) (none : Option Entry)).set
          (incHash w % 2 ^ k)
          (some (mkEntry w w.length (incHash w) (fp16_of (incHash w)))),
        size := 1, total_words := 1 } = singleTable k w 1 1
  rw [afterInsertGrow_skip _ (by
    show ¬(((List.replicate (2 ^ k) (none : Option Entry)).set
        (incHash w % 2 ^ k)
        (some (mkEntry w w.length (incHash w) (fp16_of (incHash w))))).length * 7
      < 1 * 10)
    rw [List.length_set, hcap]
    omega)]
  rw [mkEntry_token, singleTable, tokenEntry]

/-- Inserting the same token into its single-entry table bumps the
stored count with the `uint32_t` wrap and leaves everything else. -/
theorem insertToken_single (k : Nat) (w : List Nat)
    (hne : w ≠ []) (hle : w.length ≤ MAX_WORD - 1) (c tw : Nat) :
    insertToken (singleTable k w c tw) w
      = singleTable k w ((c + 1) % 2 ^ 32) (tw + 1) := by
  have hlen := token_len_ok hne hle
  have hpos : 0 < (2 : Nat) ^ k := by positivity
  have hi0 : incHash w % 2 ^ k < 2 ^ k := Nat.mod_lt _ hpos
  have hcap : ((List.replicate (2 ^ k) (none : Option Entry)).set
      (incHash w % 2 ^ k) (some (tokenEntry w c))).length = 2 ^ k := by
    rw [List.length_set, List.length_replicate]
  have hget : ((List.replicate (2 ^ k) (none : Option Entry)).set
      (incHash w % 2 ^ k) (some (tokenEntry w c))).get? (incHash w % 2 ^ k)
      = some (some (tokenEntry w c)) := by
    rw [List.get?_eq_getElem?]
    exact List.getElem?_set_eq_of_lt _ (by rw [List.length_replicate]; exact hi0)
  have hmatch : entryMatches (incHash w) w.length (fp16_of (incHash w)) w
      (tokenEntry w c) = true := by
    rw [entryMatches, tokenEntry]
    simp
  rw [insertToken, singleTable, table_insert_hashed, if_neg hlen]
  dsimp only [ThreadTable.capacity]
  rw [hcap, Nat.and_pow_two_sub_one_eq_mod,
    probeFind_eq_probeSeek _ _ k hcap,
    probeSeek_hit_match _ _ _ _ _ hpos hget hmatch]
  show ({ entries := ((List.replicate (2 ^ k) (none : Option Entry)).set
                (incHash w % 2 ^ k) (some (tokenEntry w c))).set (incHash w % 2 ^ k)
                (some (tokenEntry w ((c + 1) % 2 ^ 32))),
          size := 1, total_words := tw + 1 } : ThreadTable)
    = singleTable k w ((c + 1) % 2 ^ 32) (tw + 1)
  rw [List.set_set, singleTable]

/-- Inserting `j ≥ 1` copies of one token into a fresh `2^k` table: one
live entry whose `uint32_t` count is `j mod 2^32`, while the 64-bit
`total_words` is the exact `j`. -/
theorem insertTokens_replicate (k : Nat) (hk : 1 ≤ k) (w : List Nat)
    (hne : w ≠ []) (hle : w.length ≤ MAX_WORD - 1) :
    ∀ j : Nat, 1 ≤ j →
    insertTokens (initTable (2 ^ k)) (List.replicate j w)
      = singleTable k w (j % 2 ^ 32) j := by
  intro j
  induction j with
  | zero => intro h; omega
  | succ m ih =>
    intro _
    rcases Nat.eq_zero_or_pos m with rfl | hm
    · show insertTokens (initTable (2 ^ k)) [w] = singleTable k w (1 % 2 ^ 32) 1
      have h1 : insertTokens (initTable (2 ^ k)) [w]
          = insertToken (initTable (2 ^ k)) w := rfl
      rw [h1, insertToken_init k hk w hne hle,
        Nat.mod_eq_of_lt (show (1 : Nat) < 2 ^ 32 by norm_num)]
    · rw [List.replicate_succ' m w]
      have hfold : insertTokens (initTable (2 ^ k)) (List.replicate m w ++ [w])
          = insertToken (insertTokens (initTable (2 ^ k)) (List.replicate m w)) w := by
        rw [insertTokens, insertTokens, List.foldl_append]
        rfl
      rw [hfold, ih hm, insertToken_single k w hne hle,
        Nat.mod_add_mod m (2 ^ 32) 1]

theorem flatten_replicate_len (n : Nat) :
    ((List.replicate n ([32, 97] : List Nat)).flatten).length = 2 * n := by
  induction n with
  | zero => rfl
  | succ m ih =>
    rw [List.replicate_succ, List.flatten_cons, List.length_append, ih]
    show 2 + 2 * m = 2 * (m + 1)
    omega

/-- A separator-letter pair repeated `n` times tokenizes to `n` copies of
the one-letter run. -/
theorem letterRuns_sep_rep : ∀ n : Nat,
    letterRuns ((List.replicate n ([32, 97] : List Nat)).flatten)
      = List.replicate n ([97] : List Nat) := by
  intro n
  induction n with
  | zero => simp [letterRuns]
  | succ m ih =>
    rw [List.replicate_succ, List.flatten_cons]
    show letterRuns (32 :: 97 :: (List.replicate m ([32, 97] : List Nat)).flatten) = _
    rw [letterRuns, if_neg (by decide), letterRuns, if_pos (by decide)]
    cases m with
    | zero => simp [letterRuns]
    | succ m2 =>
      rw [List.replicate_succ, List.flatten_cons, List.cons_append, List.cons_append,
        List.nil_append,
        List.takeWhile_cons_of_neg (by decide), List.dropWhile_cons_of_neg (by decide)]
      rw [show (32 : Nat) :: 97 :: (List.replicate m2 ([32, 97] : List Nat)).flatten
          = ((List.replicate (m2 + 1) ([32, 97] : List Nat)).flatten) from rfl, ih]
      rfl

/-- The wrap witness: `2^32` repetitions of a space and the letter `a`. -/
def wrapData : List Nat := (List.replicate (2 ^ 32) ([32, 97] : List Nat)).flatten

theorem wrapData_bytes : ∀ b ∈ wrapData, b < 256 := by
  intro b hb
  rw [wrapData] at hb
  obtain ⟨l, hl, hbl⟩ := List.mem_flatten.mp hb
  rw [List.eq_of_mem_replicate hl] at hbl
  have hor : b = 32 ∨ b = 97 := by simpa using hbl
  omega

theorem wrapData_len : wrapData.length = 2 ^ 33 := by
  rw [wrapData, flatten_replicate_len]
  norm_num

theorem chunkOf_single (data : List Nat) : chunkOf data 1 0 = data := by
  show (data.drop (cuts data 1 0)).take (cuts data 1 1 - cuts data 1 0) = data
  rw [cuts_zero data 1 (by omega), cuts_last]
  simp

/-- The single worker on the wrap witness: its one entry's `uint32_t`
count has wrapped to 0 while `total_words` kept the exact `2^32`. -/
theorem wrapData_worker : ∃ k, 1 ≤ k ∧
    workerTable wrapData 1 0 = singleTable k [97] 0 (2 ^ 32) := by
  have hcs : cuts wrapData 1 (0 + 1) - cuts wrapData 1 0 ≤ 2 ^ 62 := by
    have h1 := cuts_le_len wrapData 1 (0 + 1) (by omega)
    have h2 : wrapData.length = 2 ^ 33 := wrapData_len
    have h3 : (2 : Nat) ^ 33 ≤ 2 ^ 62 := by norm_num
    omega
  obtain ⟨k, hk1, hk⟩ := workerCapacity_pow2 _ hcs
  refine ⟨k, hk1, ?_⟩
  rw [workerTable, hk, chunkOf_single]
  have hdrop : (unitFor wrapData 1 0).drop_leading = false := rfl
  rw [hdrop, process_chunk_avx512_eq_process_chunk wrapData false wrapData_bytes,
    process_chunk_runs, wrapData, letterRuns_sep_rep, List.map_replicate]
  have htok : tokenOfRun [97] = [97] := by decide
  rw [htok,
    insertTokens_replicate k hk1 [97] (by decide) (by decide) (2 ^ 32) (by norm_num),
    Nat.mod_self]

/-- Merging the single worker table: the merged counts sum to the
wrapped 0, but the reported total is the exact `2^32`. -/
theorem wrapData_merged :
    (mergedTable wrapData 1).sumCounts = 0 ∧
    (mergedTable wrapData 1).total_words = 2 ^ 32 := by
  obtain ⟨k, hk1, hw⟩ := wrapData_worker
  have hrange : (List.range 1).map (workerTable wrapData 1)
      = [singleTable k [97] 0 (2 ^ 32)] := by
    have hr1 : List.range 1 = [0] := by decide
    rw [hr1, List.map_cons, List.map_nil, hw]
  have hlive : (singleTable k [97] 0 (2 ^ 32)).live = [tokenEntry [97] 0] :=
    singleTable_live k [97] 0 (2 ^ 32)
  have hwf : ∀ t ∈ [singleTable k [97] 0 (2 ^ 32)],
      t.size = t.live.length ∧ ∀ x ∈ t.live, entryConsistent x := by
    intro t ht
    rw [List.mem_singleton] at ht
    subst ht
    refine ⟨?_, ?_⟩
    · rw [hlive]
      rfl
    · intro x hx
      rw [hlive, List.mem_singleton] at hx
      subst hx
      exact ⟨rfl, rfl, rfl⟩
  have hbound : (([singleTable k [97] 0 (2 ^ 32)]).map ThreadTable.size).sum
      ≤ 2 ^ 62 := by
    have h1 : (([singleTable k [97] 0 (2 ^ 32)]).map ThreadTable.size).sum = 1 := by
      simp [singleTable]
    rw [h1]
    norm_num
  obtain ⟨hcount, htot, hsum, -, -, -, -⟩ :=
    merge_tables_effects [singleTable k [97] 0 (2 ^ 32)] hwf hbound
  have hsumIn : sumIn ((([singleTable k [97] 0 (2 ^ 32)]).map ThreadTable.live).flatten)
      = 0 := by
    rw [List.map_cons, List.map_nil, hlive]
    rfl
  constructor
  · rw [mergedTable, hrange, hsum (by rw [hsumIn]; norm_num), hsumIn]
  · rw [mergedTable, hrange, htot]
    simp [singleTable]

/-- A nonempty all-letters buffer is a single maximal run. -/
theorem letterRuns_all_letters {l : List Nat} (hne : l ≠ [])
    (h : ∀ b ∈ l, is_ascii_letter b = true) : letterRuns l = [l] := by
  match l with
  | c :: cs =>
    rw [letterRuns, if_pos (h c (List.mem_cons_self _ _))]
    rw [List.takeWhile_eq_self_iff.mpr (fun b hb => h b (List.mem_cons_of_mem _ hb))]
    rw [List.dropWhile_eq_nil_iff.mpr (fun b hb => h b (List.mem_cons_of_mem _ hb))]
    simp [letterRuns]

/-- Inserting a single valid token into a fresh table: one total word, one
unique word, stored as given. -/
theorem single_insert_effects (k : Nat) (hk : 1 ≤ k) (w : List Nat)
    (hne : w ≠ []) (hle : w.length ≤ MAX_WORD - 1) :
    (insertTokens (initTable (2 ^ k)) [w]).total_words = 1 ∧
    (insertTokens (initTable (2 ^ k)) [w]).size = 1 ∧
    (insertTokens (initTable (2 ^ k)) [w]).wordsOf = [w] := by
  have hwf0 := initTable_wf k hk
  have hlen := token_len_ok hne hle
  have hstep : insertTokens (initTable (2 ^ k)) [w]
      = insertToken (initTable (2 ^ k)) w := rfl
  obtain ⟨-, htot, live', hperm, hcase⟩ :=
    insert_valid_effects (initTable (2 ^ k)) hwf0 w w.length
      (incHash w) (fp16_of (incHash w)) hlen
  have hlive0 : (initTable (2 ^ k)).live = [] := by
    rw [ThreadTable.live, initTable, replicate_none_live]
  rcases hcase with ⟨hl', hsz⟩ | ⟨e, l1, l2, hdec, -, -, -⟩
  · rw [hlive0] at hl'
    subst hl'
    have hlive : (insertToken (initTable (2 ^ k)) w).live
        = [mkEntry w w.length (incHash w) (fp16_of (incHash w))] :=
      List.perm_singleton.mp hperm
    refine ⟨?_, ?_, ?_⟩
    · rw [hstep, insertToken, htot]
      simp [initTable]
    · rw [hstep, insertToken, hsz]
      simp [initTable]
    · rw [hstep, ThreadTable.wordsOf, hlive, mkEntry_token]
      rfl
  · rw [hlive0] at hdec
    exact absurd hdec.symm (List.append_ne_nil_of_right_ne_nil _ (by simp))

/-- A single maximal letter run capped at `MAX_WORD - 1` stored bytes:
one total word, one unique word, stored as the first `MAX_WORD - 1`
lowercased bytes. -/
theorem long_run_counts (r : List Nat) (hlen : r.length = 500)
    (hlet : ∀ b ∈ r, is_ascii_letter b = true) :
    process_chunk r false = [(r.take (MAX_WORD - 1)).map toLower] ∧
    (insertTokens (initTable INITIAL_CAPACITY) (process_chunk r false)).total_words = 1 ∧
    (insertTokens (initTable INITIAL_CAPACITY) (process_chunk r false)).size = 1 ∧
    (insertTokens (initTable INITIAL_CAPACITY) (process_chunk r false)).wordsOf
      = [(r.take (MAX_WORD - 1)).map toLower] := by
  have hne : r ≠ [] := by
    intro h
    rw [h] at hlen
    simp at hlen
  have htok : process_chunk r false = [(r.take (MAX_WORD - 1)).map toLower] := by
    rw [process_chunk_runs, letterRuns_all_letters hne hlet, List.map_cons,
      List.map_nil, tokenOfRun]
  have hcap : INITIAL_CAPACITY = 2 ^ 16 := by
    rw [INITIAL_CAPACITY]
    norm_num
  have htne : (r.take (MAX_WORD - 1)).map toLower ≠ [] := by
    intro h
    have h2 : ((r.take (MAX_WORD - 1)).map toLower).length = 0 := by rw [h]; rfl
    rw [List.length_map, List.length_take] at h2
    rw [MAX_WORD] at h2
    omega
  have htle : ((r.take (MAX_WORD - 1)).map toLower).length ≤ MAX_WORD - 1 := by
    rw [List.length_map, List.length_take]
    exact min_le_left _ _
  have h16 : (1 : Nat) ≤ 16 := by omega
  obtain ⟨h1, h2, h3⟩ := single_insert_effects 16 h16 _ htne htle
  rw [htok, hcap]
  exact ⟨rfl, h1, h2, h3⟩

/-- On a wellformed table the insert probe never wraps: the load bound
guarantees a free slot on the probe path. -/
theorem insert_probe_never_wraps (t : ThreadTable) (h : TableWF t)
    (word : List Nat) (len hash fp : Nat) :
    probeFind t.entries (entryMatches hash len fp word) t.capacity
      (hash &&& (t.capacity - 1)) ≠ none := by
  obtain ⟨k, hk⟩ := h.pow2
  have hk' : t.entries.length = 2 ^ k := hk
  have hcappos : 0 < t.entries.length := by
    have := h.cap_two
    rw [ThreadTable.capacity] at this
    omega
  have hstart : hash &&& (t.capacity - 1) = hash % t.entries.length := by
    rw [ThreadTable.capacity, hk', Nat.and_pow_two_sub_one_eq_mod]
  rw [probeFind_eq_probeSeek t.entries _ k hk', hstart]
  have hidx : hash % t.entries.length < t.entries.length := Nat.mod_lt _ hcappos
  have hlive_lt : (t.entries.filterMap id).length < t.entries.length := by
    have hload := h.load
    have hsl := h.size_live
    rw [ThreadTable.capacity] at hload
    rw [ThreadTable.live] at hsl
    have h2 := h.cap_two
    rw [ThreadTable.capacity] at h2
    omega
  obtain ⟨s, hs, hfr⟩ := exists_free_slot t.entries hlive_lt
  obtain ⟨j, hj, hjs⟩ := exists_probe_index t.entries.length
    (hash % t.entries.length) s hidx hs
  refine probeSeek_ne_none t.entries _ t.capacity _ hidx ⟨j, ?_, ?_⟩
  · rw [ThreadTable.capacity]
    omega
  · rw [hjs]
    exact hfr

/-- The release build's full-wrap fallback (line 408): grow the table and
retry the insert; the word is never discarded. -/
theorem insert_wrap_grows (t : ThreadTable) (word : List Nat) (len hash fp : Nat)
    (hlen : ¬(len = 0 ∨ MAX_WORD ≤ len))
    (hwrap : probeFind t.entries (entryMatches hash len fp word) t.capacity
      (hash &&& (t.capacity - 1)) = none) :
    table_insert_hashed t word len hash fp =
      (match probeFind (table_grow t).entries (entryMatches hash len fp word)
          (table_grow t).capacity (hash &&& ((table_grow t).capacity - 1)) with
        | some r => applyProbe (table_grow t) word len hash fp r
        | none => table_grow t) := by
  rw [table_insert_hashed, if_neg hlen, hwrap]

/-! ## Top-k selection (cmp_entry, MinHeap, lines 755-765 and 869-883) -/

/-- `strcmp` on the NUL-terminated stored words, as `≤` on the byte
lists: the first differing byte decides; a strict prefix compares smaller
through its terminating NUL. -/
def lexLe : List Nat → List Nat → Bool
  | [], _ => true
  | _ :: _, [] => false
  | a :: as, b :: bs =>
    if a < b then true else if b < a then false else lexLe as bs

/-- The `cmp_entry` order (lines 755-759): descending count, ties broken
by ascending `strcmp` of the stored words. -/
def entryLE (x y : Entry) : Prop :=
  y.count < x.count ∨ (x.count = y.count ∧ lexLe x.word y.word = true)

theorem lexLe_refl : ∀ x, lexLe x x = true := by
  intro x
  induction x with
  | nil => rfl
  | cons a as ih => simp [lexLe, ih]

theorem lexLe_total : ∀ x y, lexLe x y = true ∨ lexLe y x = true := by
  intro x
  induction x with
  | nil => intro y; exact Or.inl rfl
  | cons a as ih =>
    intro y
    match y with
    | [] => exact Or.inr rfl
    | b :: bs =>
      rcases Nat.lt_trichotomy a b with h | h | h
      · left; simp [lexLe, h]
      · subst h
        rcases ih bs with h2 | h2
        · left; simp [lexLe, h2]
        · right; simp [lexLe, h2]
      · right; simp [lexLe, h, Nat.lt_asymm h]

theorem lexLe_antisymm : ∀ x y, lexLe x y = true → lexLe y x = true → x = y := by
  intro x
  induction x with
  | nil =>
    intro y _ h2
    match y with
    | [] => rfl
    | b :: bs => exact absurd h2 (by simp [lexLe])
  | cons a as ih =>
    intro y h1 h2
    match y with
    | [] => exact absurd h1 (by simp [lexLe])
    | b :: bs =>
      rcases Nat.lt_trichotomy a b with h | h | h
      · rw [lexLe] at h2
        rw [if_neg (by omega), if_pos h] at h2
        exact absurd h2 (by simp)
      · subst h
        rw [lexLe] at h1 h2
        rw [if_neg (by omega), if_neg (by omega)] at h1 h2
        rw [ih bs h1 h2]
      · rw [lexLe] at h1
        rw [if_neg (by omega), if_pos h] at h1
        exact absurd h1 (by simp)

theorem lexLe_trans : ∀ x y z, lexLe x y = true → lexLe y z = true →
    lexLe x z = true := by
  intro x
  induction x with
  | nil => intro y z _ _; rfl
  | cons a as ih =>
    intro y z h1 h2
    match y with
    | [] => exact absurd h1 (by simp [lexLe])
    | b :: bs =>
      match z with
      | [] => exact absurd h2 (by simp [lexLe])
      | c :: cs =>
        rw [lexLe] at h1 h2 ⊢
        by_cases hab : a < b
        · by_cases hbc : b < c
          · rw [if_pos (by omega)]
          · rw [if_pos hab] at h1
            by_cases hcb : c < b
            · rw [if_neg hbc, if_pos hcb] at h2
              exact absurd h2 (by simp)
            · have hbceq : b = c := by omega
              subst hbceq
              rw [if_pos hab]
        · by_cases hba : b < a
          · rw [if_neg hab, if_pos hba] at h1
            exact absurd h1 (by simp)
          · have habeq : a = b := by omega
            subst habeq
            rw [if_neg (by omega), if_neg (by omega)] at h1
            by_cases hbc : a < c
            · rw [if_pos hbc]
            · by_cases hcb : c < a
              · rw [if_neg hbc, if_pos hcb] at h2
                exact absurd h2 (by simp)
              · have : a = c := by omega
                subst this
                rw [if_neg (by omega), if_neg (by omega)] at h2 ⊢
                exact ih bs cs h1 h2

instance : DecidableRel entryLE := fun x y =>
  inferInstanceAs (Decidable (y.count < x.count ∨
    (x.count = y.count ∧ lexLe x.word y.word = true)))

instance : IsTotal Entry entryLE where
  total x y := by
    rcases Nat.lt_trichotomy x.count y.count with h | h | h
    · exact Or.inr (Or.inl h)
    · rcases lexLe_total x.word y.word with h2 | h2
      · exact Or.inl (Or.inr ⟨h, h2⟩)
      · exact Or.inr (Or.inr ⟨h.symm, h2⟩)
    · exact Or.inl (Or.inl h)

instance : IsTrans Entry entryLE where
  trans x y z hxy hyz := by
    rcases hxy with h1 | ⟨h1, h1l⟩
    · rcases hyz with h2 | ⟨h2, _⟩
      · exact Or.inl (by omega)
      · exact Or.inl (by omega)
    · rcases hyz with h2 | ⟨h2, h2l⟩
      · exact Or.inl (by omega)
      · exact Or.inr ⟨by omega, lexLe_trans _ _ _ h1l h2l⟩

/-- Mutually `≤` consistent entries coincide. -/
theorem entryLE_antisymm_consistent {x y : Entry}
    (hx : entryConsistent x) (hy : entryConsistent y)
    (h1 : entryLE x y) (h2 : entryLE y x) : x = y := by
  have hcnt : x.count = y.count := by
    rcases h1 with h1 | ⟨h1, -⟩ <;> rcases h2 with h2 | ⟨h2, -⟩ <;> omega
  have hw : x.word = y.word := by
    rcases h1 with h1 | ⟨-, h1l⟩
    · omega
    · rcases h2 with h2 | ⟨-, h2l⟩
      · omega
      · exact lexLe_antisymm _ _ h1l h2l
  obtain ⟨hxl, hxh, hxf⟩ := hx
  obtain ⟨hyl, hyh, hyf⟩ := hy
  cases x with
  | mk xw xc xh xl xf =>
    cases y with
    | mk yw yc yh yl yf =>
      simp only at hcnt hw hxl hxh hxf hyl hyh hyf
      subst hw
      subst hcnt
      simp only [Entry.mk.injEq]
      refine ⟨trivial, trivial, ?_, ?_, ?_⟩
      · rw [hxh, hyh]
      · rw [hxl, hyl]
      · rw [hxf, hyf, hxh, hyh]

/-- Two sorted lists of consistent entries that are permutations of each
other are equal (the comparator is antisymmetric on consistent entries,
so the sorted order is unique). -/
theorem sorted_perm_eq : ∀ (l l2 : List Entry),
    (∀ e ∈ l, entryConsistent e) → l.Perm l2 →
    List.Sorted entryLE l → List.Sorted entryLE l2 → l = l2 := by
  intro l
  induction l with
  | nil =>
    intro l2 _ hperm _ _
    exact (List.Perm.nil_eq hperm).symm ▸ rfl
  | cons a t ih =>
    intro l2 hcons hperm hs1 hs2
    match l2 with
    | [] => exact absurd hperm.symm (by simp)
    | a2 :: t2 =>
      have haa : a = a2 := by
        have ha_mem : a ∈ a2 :: t2 := hperm.mem_iff.mp (List.mem_cons_self _ _)
        have ha2_mem : a2 ∈ a :: t := hperm.mem_iff.mpr (List.mem_cons_self _ _)
        rcases List.mem_cons.mp ha_mem with h | h
        · exact h
        · rcases List.mem_cons.mp ha2_mem with h2 | h2
          · exact h2.symm
          · have hle1 : entryLE a a2 := (List.sorted_cons.mp hs1).1 a2 h2
            have hle2 : entryLE a2 a := (List.sorted_cons.mp hs2).1 a h
            exact entryLE_antisymm_consistent
              (hcons a (List.mem_cons_self _ _))
              (hcons a2 (List.mem_cons_of_mem _ h2)) hle1 hle2
      subst haa
      have htperm : t.Perm t2 := hperm.cons_inv
      rw [ih t2 (fun e he => hcons e (List.mem_cons_of_mem _ he)) htperm
        (List.sorted_cons.mp hs1).2 (List.sorted_cons.mp hs2).2]

/-- The zero entry (the model's out-of-range read default; the code only
indexes in range). -/
def dummyEntry : Entry := { word := [], count := 0, hash := 0, len := 0, fp16 := 0 }

/-- `heap_swap` (line 762) on the model's entry list. -/
def listSwap (l : List Entry) (i j : Nat) : List Entry :=
  (l.set i (l.getD j dummyEntry)).set j (l.getD i dummyEntry)

/-- `heap_sift_up` (line 763): bubble index `i` up while its parent's
count is larger; the walk visits at most `i` parents, so `i` is enough
fuel. -/
def heap_sift_up : Nat → List Entry → Nat → List Entry
  | 0, l, _ => l
  | fuel + 1, l, i =>
    if i = 0 then l
    else
      if (l.getD ((i - 1) / 2) dummyEntry).count ≤ (l.getD i dummyEntry).count then l
      else heap_sift_up fuel (listSwap l ((i - 1) / 2) i) ((i - 1) / 2)

/-- `heap_sift_down` (line 764): swap index `i` with its smaller child
while one is smaller; the index grows each step, so `size` is enough
fuel. -/
def heap_sift_down (size : Nat) : Nat → List Entry → Nat → List Entry
  | 0, l, _ => l
  | fuel + 1, l, i =>
    let s1 := if 2 * i + 1 < size ∧
        (l.getD (2 * i + 1) dummyEntry).count < (l.getD i dummyEntry).count
      then 2 * i + 1 else i
    let s2 := if 2 * i + 2 < size ∧
        (l.getD (2 * i + 2) dummyEntry).count < (l.getD s1 dummyEntry).count
      then 2 * i + 2 else s1
    if s2 = i then l else heap_sift_down size fuel (listSwap l i s2) s2

/-- `heap_push` (line 765): append and sift up while below capacity;
otherwise replace the root only when the new count is strictly larger
(ties lose to the incumbent). -/
def heap_push (k : Nat) (h : List Entry) (e : Entry) : List Entry :=
  if h.length < k then heap_sift_up h.length (h ++ [e]) h.length
  else if (h.getD 0 dummyEntry).count < e.count then
    heap_sift_down h.length h.length (h.set 0 e) 0
  else h

/-- The heap pass of the top-k phase (line 875): push every live entry of
the merged table through a capacity-k min-heap. -/
def heapSelect (k : Nat) (es : List Entry) : List Entry := es.foldl (heap_push k) []

/-- `qsort` with `cmp_entry` (lines 876 and 880), modelled as a
comparison sort producing a `cmp_entry`-sorted permutation. -/
def sortEntries (es : List Entry) : List Entry := List.insertionSort entryLE es

/-- The heap strategy of the top-k phase (lines 873-877): heap-select,
then sort the heap's contents. -/
def topk_heap (es : List Entry) (k : Nat) : List Entry :=
  sortEntries (heapSelect k es)

/-- The full-sort strategy (lines 878-881), cut to its first `k`
entries. -/
def topk_full (es : List Entry) (k : Nat) : List Entry :=
  (sortEntries es).take k

theorem cons_set_perm : ∀ (t : List Entry) (m : Nat) (a : Entry), m < t.length →
    (t.getD m dummyEntry :: t.set m a).Perm (a :: t) := by
  intro t
  induction t with
  | nil => intro m a hm; simp at hm
  | cons b t2 ih =>
    intro m a hm
    match m with
    | 0 =>
      rw [List.getD_cons_zero, List.set_cons_zero]
      exact List.Perm.swap a b t2
    | m + 1 =>
      rw [List.getD_cons_succ, List.set_cons_succ]
      have h1 : (t2.getD m dummyEntry :: b :: t2.set m a).Perm
          (b :: t2.getD m dummyEntry :: t2.set m a) := List.Perm.swap _ _ _
      have h2 : (b :: t2.getD m dummyEntry :: t2.set m a).Perm (b :: a :: t2) :=
        (ih m a (by simpa using hm)).cons b
      have h3 : (b :: a :: t2).Perm (a :: b :: t2) := List.Perm.swap _ _ _
      exact (h1.trans h2).trans h3

theorem listSwap_perm (l : List Entry) (i j : Nat) (hi : i < l.length)
    (hj : j < l.length) : (listSwap l i j).Perm l := by
  induction l generalizing i j with
  | nil => simp at hi
  | cons b t ih =>
    match i, j with
    | 0, 0 =>
      rw [listSwap]
      simp
    | 0, m + 1 =>
      rw [listSwap, List.getD_cons_succ, List.getD_cons_zero, List.set_cons_zero,
        List.set_cons_succ]
      exact cons_set_perm t m b (by simpa using hj)
    | n + 1, 0 =>
      rw [listSwap, List.getD_cons_succ, List.getD_cons_zero, List.set_cons_succ,
        List.set_cons_zero]
      exact cons_set_perm t n b (by simpa using hi)
    | n + 1, m + 1 =>
      rw [listSwap, List.getD_cons_succ, List.getD_cons_succ, List.set_cons_succ,
        List.set_cons_succ]
      exact (ih n m (by simpa using hi) (by simpa using hj)).cons b

theorem listSwap_length (l : List Entry) (i j : Nat) :
    (listSwap l i j).length = l.length := by
  rw [listSwap, List.length_set, List.length_set]

theorem heap_sift_up_perm : ∀ (fuel : Nat) (l : List Entry) (i : Nat),
    i < l.length → (heap_sift_up fuel l i).Perm l := by
  intro fuel
  induction fuel with
  | zero => intro l i _; exact List.Perm.refl l
  | succ fuel ih =>
    intro l i hi
    rw [heap_sift_up]
    by_cases h0 : i = 0
    · rw [if_pos h0]
    · rw [if_neg h0]
      by_cases hcmp : (l.getD ((i - 1) / 2) dummyEntry).count
          ≤ (l.getD i dummyEntry).count
      · rw [if_pos hcmp]
      · rw [if_neg hcmp]
        have hp : (i - 1) / 2 < l.length := by
          have : (i - 1) / 2 ≤ i - 1 := Nat.div_le_self _ _
          omega
        have h2 := ih (listSwap l ((i - 1) / 2) i) ((i - 1) / 2)
          (by rw [listSwap_length]; exact hp)
        exact h2.trans (listSwap_perm l _ _ hp hi)

theorem heap_sift_down_perm (size : Nat) : ∀ (fuel : Nat) (l : List Entry) (i : Nat),
    i < l.length → size ≤ l.length → (heap_sift_down size fuel l i).Perm l := by
  intro fuel
  induction fuel with
  | zero => intro l i _ _; exact List.Perm.refl l
  | succ fuel ih =>
    intro l i hi hsz
    rw [heap_sift_down]
    have key : ∀ (j : Nat), j < l.length →
        (if j = i then l
         else heap_sift_down size fuel (listSwap l i j) j).Perm l := by
      intro j hj
      split
      · exact List.Perm.refl l
      · exact (ih (listSwap l i j) j
          (by rw [listSwap_length]; exact hj)
          (by rw [listSwap_length]; exact hsz)).trans (listSwap_perm l i j hi hj)
    refine key _ ?_
    split <;> (try split) <;> omega

/-- While below capacity, a push is (up to order) an append. -/
theorem heap_push_perm_room (k : Nat) (h : List Entry) (e : Entry)
    (hroom : h.length < k) : (heap_push k h e).Perm (h ++ [e]) := by
  rw [heap_push, if_pos hroom]
  exact heap_sift_up_perm h.length (h ++ [e]) h.length
    (by rw [List.length_append]; simp)

/-- A heap that never overflows holds exactly the pushed entries. -/
theorem heapSelect_perm_aux : ∀ (es acc : List Entry) (k : Nat),
    acc.length + es.length ≤ k →
    (es.foldl (heap_push k) acc).Perm (acc ++ es) := by
  intro es
  induction es with
  | nil => intro acc k _; simp
  | cons e es2 ih =>
    intro acc k hle
    rw [List.foldl_cons]
    have hroom : acc.length < k := by
      rw [List.length_cons] at hle
      omega
    have hpp := heap_push_perm_room k acc e hroom
    have hlen : (heap_push k acc e).length = acc.length + 1 := by
      rw [hpp.length_eq, List.length_append]
      rfl
    have h2 := ih (heap_push k acc e) k
      (by rw [hlen, List.length_cons] at *; omega)
    refine h2.trans ?_
    have h3 : ((heap_push k acc e) ++ es2).Perm ((acc ++ [e]) ++ es2) :=
      hpp.append_right es2
    refine h3.trans ?_
    rw [List.append_assoc, List.singleton_append]

theorem heapSelect_perm (es : List Entry) (k : Nat) (hle : es.length ≤ k) :
    (heapSelect k es).Perm es := by
  have := heapSelect_perm_aux es [] k (by simpa using hle)
  simpa using this

/-- When the table has at most `k` unique words, the heap strategy and
the full-sort strategy agree exactly. -/
theorem topk_heap_eq_full (es : List Entry) (k : Nat)
    (hcons : ∀ e ∈ es, entryConsistent e) (hle : es.length ≤ k) :
    topk_heap es k = topk_full es k := by
  have hsel := heapSelect_perm es k hle
  have htake : topk_full es k = sortEntries es := by
    rw [topk_full]
    apply List.take_of_length_le
    rw [sortEntries, (List.perm_insertionSort entryLE es).length_eq]
    exact hle
  rw [topk_heap, htake]
  have hperm : (sortEntries (heapSelect k es)).Perm (sortEntries es) := by
    refine ((List.perm_insertionSort entryLE _).trans hsel).trans ?_
    exact (List.perm_insertionSort entryLE es).symm
  refine sorted_perm_eq _ _ ?_ hperm ?_ ?_
  · intro e he
    have h1 : e ∈ es := (((List.perm_insertionSort entryLE _).trans hsel).mem_iff).mp he
    exact hcons e h1
  · exact List.sorted_insertionSort entryLE _
  · exact List.sorted_insertionSort entryLE _

instance : DecidablePred entryConsistent := fun e =>
  inferInstanceAs (Decidable (e.len = e.word.length ∧ e.hash = incHash e.word ∧
    e.fp16 = fp16_of e.hash))

/-! ## The claims -/

/-- Claim C1: for every byte span and every value of the `drop_leading`
flag, the scalar tokenizer and the AVX-512 tokenizer emit the identical
word sequence, so inserting either into the owning table yields the same
table. -/
theorem claim_C1 (data : List Nat) (drop : Bool) (t : ThreadTable)
    (hbytes : ∀ b ∈ data, b < 256) :
    process_chunk_avx512 data drop = process_chunk data drop ∧
    insertTokens t (process_chunk_avx512 data drop)
      = insertTokens t (process_chunk data drop) := by
  have h := process_chunk_avx512_eq_process_chunk data drop hbytes
  exact ⟨h, by rw [h]⟩

theorem claim_C1_witness :
    (∀ b ∈ [104, 105, 33, 200, 104, 111], b < 256) ∧
    (process_chunk_avx512 [104, 105, 33, 200, 104, 111] true
        = process_chunk [104, 105, 33, 200, 104, 111] true ∧
      insertTokens (initTable 4) (process_chunk_avx512 [104, 105, 33, 200, 104, 111] true)
        = insertTokens (initTable 4) (process_chunk [104, 105, 33, 200, 104, 111] true)) :=
  ⟨by decide, claim_C1 [104, 105, 33, 200, 104, 111] true (initTable 4) (by decide)⟩

/-- Claim C2 (amended): for every input buffer of fewer than `2^32`
bytes, the counts in the merged table sum to the reported total word
count, and that total is the number of maximal ASCII-letter runs of the
buffer.  For larger buffers the claim fails: per-word counts are
`uint32_t` and wrap modulo `2^32`, while `total_words` is a 64-bit
`size_t`, so a word occurring `2^32` times is merged with count 0 (see
the counterexample). -/
theorem claim_C2 (data : List Nat) (N : Nat) (hN : 0 < N)
    (hbytes : ∀ b ∈ data, b < 256) (hlen : data.length < 2 ^ 32) :
    (mergedTable data N).sumCounts = (mergedTable data N).total_words ∧
    (mergedTable data N).total_words = (letterRuns data).length :=
  pipeline_counts data N hN hbytes hlen

theorem claim_C2_witness :
    ((0 : Nat) < 2 ∧ (∀ b ∈ [72, 105, 32, 116, 104, 101, 114, 101], b < 256) ∧
      ([72, 105, 32, 116, 104, 101, 114, 101] : List Nat).length < 2 ^ 32) ∧
    ((mergedTable [72, 105, 32, 116, 104, 101, 114, 101] 2).sumCounts
        = (mergedTable [72, 105, 32, 116, 104, 101, 114, 101] 2).total_words ∧
      (mergedTable [72, 105, 32, 116, 104, 101, 114, 101] 2).total_words
        = (letterRuns [72, 105, 32, 116, 104, 101, 114, 101]).length) :=
  ⟨⟨by decide, by decide, by decide⟩,
   claim_C2 [72, 105, 32, 116, 104, 101, 114, 101] 2 (by decide) (by decide) (by decide)⟩

/-- Counterexample to the unrestricted claim C2: on `2^32` copies of the
two-byte block `" a"` (a well-formed byte buffer, one worker), the single
word's `uint32_t` count wraps to 0, so the merged counts sum to 0 while
the reported `size_t` total is `2^32`. -/
theorem claim_C2_counterexample :
    ((0 : Nat) < 1 ∧ (∀ b ∈ wrapData, b < 256) ∧ wrapData.length ≤ 2 ^ 62) ∧
    (mergedTable wrapData 1).sumCounts ≠ (mergedTable wrapData 1).total_words := by
  obtain ⟨hsum, htot⟩ := wrapData_merged
  refine ⟨⟨by omega, wrapData_bytes, ?_⟩, ?_⟩
  · rw [wrapData_len]
    norm_num
  · rw [hsum, htot]
    norm_num

/-- Claim C3 (amended): the heap-based top-k selection equals the
full-sort selection whenever the merged table holds at most `k` unique
words; in general the two can disagree, because `heap_push` breaks count
ties at the heap boundary by arrival order while `cmp_entry` breaks them
by ascending word order (see the counterexample). -/
theorem claim_C3 (es : List Entry) (k : Nat)
    (hcons : ∀ e ∈ es, entryConsistent e) (hle : es.length ≤ k) :
    topk_heap es k = topk_full es k :=
  topk_heap_eq_full es k hcons hle

/-- Two distinct words with equal counts: the capacity-1 heap keeps the
first-pushed word `"b"` (a tying push does not replace the root), while
the full sort ranks `"a"` first; the two strategies disagree at `k = 1`. -/
def entryA : Entry :=
  { word := [97], count := 5, hash := incHash [97], len := 1,
    fp16 := fp16_of (incHash [97]) }

def entryB : Entry :=
  { word := [98], count := 5, hash := incHash [98], len := 1,
    fp16 := fp16_of (incHash [98]) }

theorem claim_C3_counterexample :
    (topk_heap [entryB, entryA] 1).map Entry.word = [[98]] ∧
    (topk_full [entryB, entryA] 1).map Entry.word = [[97]] ∧
    topk_heap [entryB, entryA] 1 ≠ topk_full [entryB, entryA] 1 := by
  decide

theorem claim_C3_witness :
    ((∀ e ∈ [entryA], entryConsistent e) ∧ ([entryA] : List Entry).length ≤ 1) ∧
    topk_heap [entryA] 1 = topk_full [entryA] 1 :=
  ⟨⟨by decide, by decide⟩, claim_C3 [entryA] 1 (by decide) (by decide)⟩

/-- Claim C4: the partitioner's cuts run from 0 to the buffer length,
each interior cut is the naive position advanced forward past a letter
run (every skipped byte is a letter, and the cut rests on a non-letter
byte or the buffer end), the cuts are monotone, the resulting chunks tile
the buffer exactly, and every work unit carries `drop_leading = false`. -/
theorem claim_C4 (data : List Nat) (N : Nat) (hN : 0 < N) :
    cuts data N 0 = 0 ∧
    cuts data N N = data.length ∧
    (∀ i, 0 < i → i < N →
      cuts data N i = advanceCut data (i * (data.length / N)) ∧
      i * (data.length / N) ≤ cuts data N i ∧
      (∀ p, i * (data.length / N) ≤ p → p < cuts data N i →
        p < data.length ∧ is_ascii_letter (data.getD p 0) = true) ∧
      (cuts data N i = data.length ∨
        (cuts data N i < data.length ∧
          is_ascii_letter (data.getD (cuts data N i) 0) = false))) ∧
    (∀ i, i < N → cuts data N i ≤ cuts data N (i + 1)) ∧
    ((List.range N).map (chunkOf data N)).flatten = data ∧
    (∀ i, (unitFor data N i).drop_leading = false) := by
  refine ⟨cuts_zero data N hN, cuts_last data N, ?_,
    fun i hi => cuts_mono_succ data N i hi, chunks_cover data N hN, fun i => rfl⟩
  intro i h0 hiN
  have hcuti : cuts data N i = advanceCut data (i * (data.length / N)) := by
    rw [cuts, if_neg (by omega), if_neg (by omega)]
  have hnle := naive_le data N i (by omega)
  refine ⟨hcuti, ?_, ?_, ?_⟩
  · rw [hcuti]
    exact advanceCut_ge data _
  · intro p hp1 hp2
    rw [hcuti] at hp2
    obtain ⟨h, hlet⟩ := advanceCut_skips data _ p hp1 hp2
    refine ⟨h, ?_⟩
    rw [List.getD_eq_getElem data 0 h]
    rw [List.get_eq_getElem] at hlet
    exact hlet
  · rw [hcuti]
    rcases advanceCut_sep data _ hnle with h | ⟨h, hsep⟩
    · exact Or.inl h
    · refine Or.inr ⟨h, ?_⟩
      rw [List.getD_eq_getElem data 0 h]
      rw [List.get_eq_getElem] at hsep
      exact hsep

theorem claim_C4_witness :
    (0 : Nat) < 3 ∧
    (cuts [97, 98, 32, 99, 100, 101, 32, 102] 3 0 = 0 ∧
      cuts [97, 98, 32, 99, 100, 101, 32, 102] 3 3
        = ([97, 98, 32, 99, 100, 101, 32, 102] : List Nat).length ∧
      (∀ i, 0 < i → i < 3 →
        cuts [97, 98, 32, 99, 100, 101, 32, 102] 3 i
          = advanceCut [97, 98, 32, 99, 100, 101, 32, 102]
              (i * (([97, 98, 32, 99, 100, 101, 32, 102] : List Nat).length / 3)) ∧
        i * (([97, 98, 32, 99, 100, 101, 32, 102] : List Nat).length / 3)
          ≤ cuts [97, 98, 32, 99, 100, 101, 32, 102] 3 i ∧
        (∀ p, i * (([97, 98, 32, 99, 100, 101, 32, 102] : List Nat).length / 3) ≤ p →
          p < cuts [97, 98, 32, 99, 100, 101, 32, 102] 3 i →
          p < ([97, 98, 32, 99, 100, 101, 32, 102] : List Nat).length ∧
            is_ascii_letter (([97, 98, 32, 99, 100, 101, 32, 102] : List Nat).getD p 0)
              = true) ∧
        (cuts [97, 98, 32, 99, 100, 101, 32, 102] 3 i
            = ([97, 98, 32, 99, 100, 101, 32, 102] : List Nat).length ∨
          (cuts [97, 98, 32, 99, 100, 101, 32, 102] 3 i
              < ([97, 98, 32, 99, 100, 101, 32, 102] : List Nat).length ∧
            is_ascii_letter (([97, 98, 32, 99, 100, 101, 32, 102] : List Nat).getD
              (cuts [97, 98, 32, 99, 100, 101, 32, 102] 3 i) 0) = false))) ∧
      (∀ i, i < 3 → cuts [97, 98, 32, 99, 100, 101, 32, 102] 3 i
        ≤ cuts [97, 98, 32, 99, 100, 101, 32, 102] 3 (i + 1)) ∧
      ((List.range 3).map (chunkOf [97, 98, 32, 99, 100, 101, 32, 102] 3)).flatten
        = [97, 98, 32, 99, 100, 101, 32, 102] ∧
      (∀ i, (unitFor [97, 98, 32, 99, 100, 101, 32, 102] 3 i).drop_leading = false)) :=
  ⟨by decide, claim_C4 [97, 98, 32, 99, 100, 101, 32, 102] 3 (by decide)⟩

/-- Claim C5: merging is commutative — a permuted list of per-worker
tables merges to the same word-to-count mapping, the same unique-word
count and the same total word count. -/
theorem claim_C5 (ts ts2 : List ThreadTable) (hperm : ts.Perm ts2)
    (hwf : ∀ t ∈ ts, t.size = t.live.length ∧ ∀ x ∈ t.live, entryConsistent x)
    (hbound : (ts.map ThreadTable.size).sum ≤ 2 ^ 62) :
    (∀ w, (merge_tables ts).countOf w = (merge_tables ts2).countOf w) ∧
    (merge_tables ts).size = (merge_tables ts2).size ∧
    (merge_tables ts).total_words = (merge_tables ts2).total_words :=
  merge_tables_perm ts ts2 hperm hwf hbound

def permEntryA : Entry :=
  { word := [97], count := 2, hash := incHash [97], len := 1,
    fp16 := fp16_of (incHash [97]) }

def permEntryB : Entry :=
  { word := [98], count := 3, hash := incHash [98], len := 1,
    fp16 := fp16_of (incHash [98]) }

def permTableA : ThreadTable :=
  { entries := [some permEntryA, none], size := 1, total_words := 2 }

def permTableB : ThreadTable :=
  { entries := [some permEntryB, none], size := 1, total_words := 3 }

theorem claim_C5_witness :
    (([permTableA, permTableB] : List ThreadTable).Perm [permTableB, permTableA] ∧
      (∀ t ∈ [permTableA, permTableB],
        t.size = t.live.length ∧ ∀ x ∈ t.live, entryConsistent x) ∧
      (([permTableA, permTableB] : List ThreadTable).map ThreadTable.size).sum
        ≤ 2 ^ 62) ∧
    ((∀ w, (merge_tables [permTableA, permTableB]).countOf w
        = (merge_tables [permTableB, permTableA]).countOf w) ∧
      (merge_tables [permTableA, permTableB]).size
        = (merge_tables [permTableB, permTableA]).size ∧
      (merge_tables [permTableA, permTableB]).total_words
        = (merge_tables [permTableB, permTableA]).total_words) :=
  ⟨⟨List.Perm.swap permTableB permTableA [], by decide, by decide⟩,
   claim_C5 [permTableA, permTableB] [permTableB, permTableA]
     (List.Perm.swap permTableB permTableA []) (by decide) (by decide)⟩

/-- Claim C6 (amended): a full probe wrap can only happen on a table that
violates the maintained wellformedness invariant (on a wellformed table
the probe always finds a free slot or a match), and when it does happen
the release build grows the table and retries the insert — it neither
aborts nor drops the word. -/
theorem claim_C6 (t : ThreadTable) (word : List Nat) (len hash fp : Nat)
    (hlen : ¬(len = 0 ∨ MAX_WORD ≤ len))
    (hwrap : probeFind t.entries (entryMatches hash len fp word) t.capacity
      (hash &&& (t.capacity - 1)) = none) :
    ¬ TableWF t ∧
    table_insert_hashed t word len hash fp =
      (match probeFind (table_grow t).entries (entryMatches hash len fp word)
          (table_grow t).capacity (hash &&& ((table_grow t).capacity - 1)) with
        | some r => applyProbe (table_grow t) word len hash fp r
        | none => table_grow t) :=
  ⟨fun hwf => insert_probe_never_wraps t hwf word len hash fp hwrap,
   insert_wrap_grows t word len hash fp hlen hwrap⟩

/-- A completely full two-slot table: probing for a fresh word wraps all
the way around. -/
def fullEntryA : Entry :=
  { word := [97], count := 1, hash := 0, len := 1, fp16 := 0 }

def fullEntryB : Entry :=
  { word := [98], count := 1, hash := 0, len := 1, fp16 := 0 }

def fullTable : ThreadTable :=
  { entries := [some fullEntryA, some fullEntryB], size := 2, total_words := 2 }

theorem claim_C6_counterexample :
    probeFind fullTable.entries (entryMatches 0 1 0 [99]) fullTable.capacity
      (0 &&& (fullTable.capacity - 1)) = none ∧
    (table_insert_hashed fullTable [99] 1 0 0).countOf [99] = 1 ∧
    (table_insert_hashed fullTable [99] 1 0 0).total_words
      = fullTable.total_words + 1 := by
  decide

theorem claim_C6_witness :
    (¬((1 : Nat) = 0 ∨ MAX_WORD ≤ 1) ∧
      probeFind fullTable.entries (entryMatches 0 1 0 [99]) fullTable.capacity
        (0 &&& (fullTable.capacity - 1)) = none) ∧
    (¬ TableWF fullTable ∧
      table_insert_hashed fullTable [99] 1 0 0 =
        (match probeFind (table_grow fullTable).entries (entryMatches 0 1 0 [99])
            (table_grow fullTable).capacity
            (0 &&& ((table_grow fullTable).capacity - 1)) with
          | some r => applyProbe (table_grow fullTable) [99] 1 0 0 r
          | none => table_grow fullTable)) :=
  ⟨⟨by decide, by decide⟩, claim_C6 fullTable [99] 1 0 0 (by decide) (by decide)⟩

/-- Claim C7 (amended): a single maximal letter run of length 500
contributes exactly one to the total word count and exactly one unique
word, whose stored representation is the run's first `MAX_WORD - 1 = 99`
lowercased bytes (not 100: the copy loop stops at `word_len <
MAX_WORD - 1`). -/
theorem claim_C7 (r : List Nat) (hlen : r.length = 500)
    (hlet : ∀ b ∈ r, is_ascii_letter b = true) :
    process_chunk r false = [(r.take (MAX_WORD - 1)).map toLower] ∧
    (insertTokens (initTable INITIAL_CAPACITY) (process_chunk r false)).total_words
      = 1 ∧
    (insertTokens (initTable INITIAL_CAPACITY) (process_chunk r false)).size = 1 ∧
    (insertTokens (initTable INITIAL_CAPACITY) (process_chunk r false)).wordsOf
      = [(r.take (MAX_WORD - 1)).map toLower] :=
  long_run_counts r hlen hlet

set_option maxRecDepth 8192 in
theorem claim_C7_counterexample :
    process_chunk (List.replicate 500 65) false = [List.replicate 99 97] ∧
    List.replicate 99 97 ≠ ((List.replicate 500 65).take 100).map toLower := by
  constructor
  · have hne : (List.replicate 500 65 : List Nat) ≠ [] := by
      intro h
      have h2 := congrArg List.length h
      simp at h2
    have hlet : ∀ b ∈ (List.replicate 500 65 : List Nat),
        is_ascii_letter b = true := by
      intro b hb
      rw [List.mem_replicate] at hb
      rw [hb.2]
      decide
    rw [process_chunk_runs, letterRuns_all_letters hne hlet, List.map_cons,
      List.map_nil, tokenOfRun]
    rw [List.take_replicate, List.map_replicate]
    have h65 : toLower 65 = 97 := by decide
    have hmin : (MAX_WORD - 1) ⊓ 500 = 99 := by decide
    rw [h65, hmin]
  · intro h
    have h2 := congrArg List.length h
    rw [List.length_replicate, List.length_map, List.length_take,
      List.length_replicate] at h2
    omega

set_option maxRecDepth 8192 in
theorem claim_C7_witness :
    ((List.replicate 500 65 : List Nat).length = 500 ∧
      (∀ b ∈ (List.replicate 500 65 : List Nat), is_ascii_letter b = true)) ∧
    (process_chunk (List.replicate 500 65) false
        = [((List.replicate 500 65).take (MAX_WORD - 1)).map toLower] ∧
      (insertTokens (initTable INITIAL_CAPACITY)
        (process_chunk (List.replicate 500 65) false)).total_words = 1 ∧
      (insertTokens (initTable INITIAL_CAPACITY)
        (process_chunk (List.replicate 500 65) false)).size = 1 ∧
      (insertTokens (initTable INITIAL_CAPACITY)
        (process_chunk (List.replicate 500 65) false)).wordsOf
        = [((List.replicate 500 65).take (MAX_WORD - 1)).map toLower]) :=
  ⟨⟨by decide, by
      intro b hb
      rw [List.mem_replicate] at hb
      rw [hb.2]
      decide⟩,
   claim_C7 (List.replicate 500 65) (by decide) (by
      intro b hb
      rw [List.mem_replicate] at hb
      rw [hb.2]
      decide)⟩

/-- Claim C8: the hash accumulated incrementally byte-by-byte inside the
tokenizer (fold each lowercased byte, then finalize) equals the pure
`hash_word` on the same stored byte sequence. -/
theorem claim_C8 (w : List Nat) (hb : ∀ b ∈ w, b < 256) :
    incHash w = hash_word w :=
  incHash_eq_hash_word w hb

theorem claim_C8_witness :
    (∀ b ∈ [99, 97, 116], b < 256) ∧ incHash [99, 97, 116] = hash_word [99, 97, 116] :=
  ⟨by decide, claim_C8 [99, 97, 116] (by decide)⟩

/-- Claim C9: every completed insert preserves the table invariants —
the capacity stays a power of two and the occupancy stays within the 70%
load bound (growth-on-insert doubles and reinserts by stored hash). -/
theorem claim_C9 (t : ThreadTable) (h : TableWF t) (word : List Nat)
    (len hash fp : Nat) :
    TableWF (table_insert_hashed t word len hash fp) ∧
    (∃ k, (table_insert_hashed t word len hash fp).capacity = 2 ^ k) ∧
    (table_insert_hashed t word len hash fp).size * 10
      ≤ (table_insert_hashed t word len hash fp).capacity * 7 := by
  have h2 := insert_wf t h word len hash fp
  exact ⟨h2, h2.pow2, h2.load⟩

theorem claim_C9_witness :
    TableWF (initTable (2 ^ 1)) ∧
    (TableWF (table_insert_hashed (initTable (2 ^ 1)) [97] 1 0 0) ∧
      (∃ k, (table_insert_hashed (initTable (2 ^ 1)) [97] 1 0 0).capacity = 2 ^ k) ∧
      (table_insert_hashed (initTable (2 ^ 1)) [97] 1 0 0).size * 10
        ≤ (table_insert_hashed (initTable (2 ^ 1)) [97] 1 0 0).capacity * 7) :=
  ⟨initTable_wf 1 le_rfl, claim_C9 (initTable (2 ^ 1)) (initTable_wf 1 le_rfl) [97] 1 0 0⟩

/-- Claim C10: every live entry of every per-worker table and of the
merged table stores a word of 1 to `MAX_WORD - 1` lowercase ASCII letters
whose recorded length matches and whose stored buffer is NUL-terminated
at `word[len]`. -/
theorem claim_C10 (data : List Nat) (N : Nat) (hN : 0 < N)
    (hbytes : ∀ b ∈ data, b < 256) (hlen : data.length ≤ 2 ^ 62) :
    (∀ i, i < N → ∀ e ∈ (workerTable data N i).live, entryStoredWF e) ∧
    (∀ e ∈ (mergedTable data N).live, entryStoredWF e) :=
  ⟨fun i hi => workerTable_storedWF data N i hi hbytes hlen,
   mergedTable_storedWF data N hN hbytes hlen⟩

theorem claim_C10_witness :
    ((0 : Nat) < 2 ∧ (∀ b ∈ [72, 105, 32, 116, 104, 101, 114, 101], b < 256) ∧
      ([72, 105, 32, 116, 104, 101, 114, 101] : List Nat).length ≤ 2 ^ 62) ∧
    ((∀ i, i < 2 → ∀ e ∈ (workerTable [72, 105, 32, 116, 104, 101, 114, 101] 2 i).live,
        entryStoredWF e) ∧
      (∀ e ∈ (mergedTable [72, 105, 32, 116, 104, 101, 114, 101] 2).live,
        entryStoredWF e)) :=
  ⟨⟨by decide, by decide, by decide⟩,
   claim_C10 [72, 105, 32, 116, 104, 101, 114, 101] 2 (by decide) (by decide) (by decide)⟩
